import Mathlib

/-!
# cyhair2pbrt: Catmull-Rom strands to cubic Bezier curves

A shallow embedding of `src/tools/geom.h`, `src/tools/hairutil.h` and
`src/tools/cyhair2pbrt.cpp`.

Conventions of the embedding.

* `float` is modelled by `ℚ`: every statement is about exact arithmetic, rounding,
  infinities and NaN are not represented.
* `std::vector` is modelled by `List`; an index that is out of range is undefined
  behaviour in the source and is reported here as `Fault.outOfRange`.
* Functions that can fault return `Run α = Except Fault α`.
* Signed `int` values are modelled by `Int`, sizes and unsigned values by `Nat`; the
  places where the width of a machine integer matters wrap explicitly: the conversion
  of `num_strands_` to `int`, the `size_t` value `hairs.size() - 1`, the `int` values of
  the comparator by sample distance, and in `Load` the
  32 bit header fields, the `unsigned int` product `3 * total_points_` and the sums of
  the strand offset table.
* A file is modelled by the typed items that `Load` reads from it, not by its bytes.
* The square root and the two calls of `std::sort` in the LOD merge are parameters of
  the embedding, collected in `Lib`.
* The two `while` loops of the LOD merge take an iteration budget; `Fault.fuel` reports
  a budget that ran out.
-/

namespace cyhair

/-! ## geom.h -/

/-- The class `real3` of geom.h: three floats. -/
structure real3 where
  x : ℚ
  y : ℚ
  z : ℚ
deriving DecidableEq, Repr

namespace real3

/-- The constructor `real3(float v)`, all three components set to `v`. -/
def splat (v : ℚ) : real3 := ⟨v, v, v⟩

/-- The default constructor `real3()`. -/
def zero : real3 := ⟨0, 0, 0⟩

/-- The member `operator+`. -/
def add (p r : real3) : real3 := ⟨p.x + r.x, p.y + r.y, p.z + r.z⟩

/-- The member `operator*(const real3 &)`, componentwise. -/
def mul (p r : real3) : real3 := ⟨p.x * r.x, p.y * r.y, p.z * r.z⟩

/-- The member `operator-`. -/
def sub (p r : real3) : real3 := ⟨p.x - r.x, p.y - r.y, p.z - r.z⟩

/-- The member `operator/(const float f)`: multiplies by `inv = 1.0f / f`. -/
def divf (p : real3) (f : ℚ) : real3 :=
  let inv := 1 / f
  ⟨p.x * inv, p.y * inv, p.z * inv⟩

/-- The free function `operator*(float f, const real3 &v)`. -/
def fmul (f : ℚ) (v : real3) : real3 := ⟨v.x * f, v.y * f, v.z * f⟩

/-- The member `operator[](int i)`: 0 is x, 1 is y, everything else is z. -/
def get (p : real3) (i : Int) : ℚ :=
  if i = 0 then p.x else if i = 1 then p.y else p.z

instance : Add real3 := ⟨add⟩
instance : Mul real3 := ⟨mul⟩
instance : Sub real3 := ⟨sub⟩

end real3

/-! ## Faults -/

/-- Ways in which a run of the source leaves defined behaviour. -/
inductive Fault where
  /-- An element access outside a vector or array. -/
  | outOfRange
  /-- A vector was asked for a negative number of elements. -/
  | lengthError
  /-- The iteration budget of a modelled loop ran out. -/
  | fuel
deriving DecidableEq, Repr

/-- A computation that either faults or yields a value. -/
abbrev Run (α : Type) := Except Fault α

/-- Element access `v[i]` with a `size_t` index. -/
def at? {α : Type} (v : List α) (i : Nat) : Run α :=
  match v[i]? with
  | some a => .ok a
  | none => .error .outOfRange

/-- Element access `p[i]` through a pointer with an `int` index. -/
def atInt? {α : Type} (v : List α) (i : Int) : Run α :=
  if 0 ≤ i then at? v i.toNat else .error .outOfRange

/-! ## cyhair2pbrt.cpp: the basis matrices -/

/-- The table `toC2B`, the general Catmull-Rom to Bezier matrix. -/
def toC2B : Fin 4 → Fin 4 → ℚ :=
  ![![0, 6 / 6, 0, 0],
    ![-1 / 6, 6 / 6, 1 / 6, 0],
    ![0, 1 / 6, 6 / 6, -1 / 6],
    ![0, 0, 6 / 6, 0]]

/-- The table `toC2B0`, used for the first segment. -/
def toC2B0 : Fin 4 → Fin 4 → ℚ :=
  ![![0, 6 / 6, 0, 0],
    ![0, 3 / 6, 4 / 6, -1 / 6],
    ![0, 1 / 6, 6 / 6, -1 / 6],
    ![0, 0, 6 / 6, 0]]

/-- The table `toC2B1`, used for the last segment. -/
def toC2B1 : Fin 4 → Fin 4 → ℚ :=
  ![![0, 6 / 6, 0, 0],
    ![-1 / 6, 6 / 6, 1 / 6, 0],
    ![-1 / 6, 4 / 6, 3 / 6, 0],
    ![0, 0, 6 / 6, 0]]

/-- The function `mul_matrix`: `out[i] = Σ_j mat[i][j] * pt[j]`. -/
def mul_matrix (mat : Fin 4 → Fin 4 → ℚ) (pt : Fin 4 → real3) : Fin 4 → real3 :=
  fun i =>
    real3.fmul (mat i 0) (pt 0) + real3.fmul (mat i 1) (pt 1) + real3.fmul (mat i 2) (pt 2) +
      real3.fmul (mat i 3) (pt 3)

/-- The body of `CamullRomToCubicBezier` with the three tables it refers to as
arguments: `B0` stands for `toC2B0`, `B1` for `toC2B1` and `B` for `toC2B`.
`cps` is the array behind the pointer, `cps_size` and `seg_idx` are the two `int`
arguments. The test `sz == 2` on `sz = static_cast<size_t>(cps_size)` is
`cps_size = 2`, and `seg_idx == static_cast<int>(sz - 2)` is
`seg_idx = cps_size - 2` for every `cps_size` above `INT_MIN + 1`. -/
def CamullRomWith (B0 B1 B : Fin 4 → Fin 4 → ℚ) (cps : List real3) (cps_size seg_idx : Int) :
    Run (Fin 4 → real3) :=
  if cps_size = 2 then do
    let c0 ← atInt? cps seg_idx
    let c1 ← atInt? cps (seg_idx + 1)
    pure ![c0,
      (c0 * real3.splat 2).divf 3 + (c1 * real3.splat 1).divf 3,
      (c0 * real3.splat 1).divf 3 + (c1 * real3.splat 2).divf 3,
      c1]
  else if seg_idx = 0 then do
    let p1 ← atInt? cps (seg_idx + 0)
    let p2 ← atInt? cps (seg_idx + 1)
    let p3 ← atInt? cps (seg_idx + 2)
    pure (mul_matrix B0 ![real3.splat 0, p1, p2, p3])
  else if seg_idx = cps_size - 2 then do
    let p0 ← atInt? cps (seg_idx - 1)
    let p1 ← atInt? cps (seg_idx + 0)
    let p2 ← atInt? cps (seg_idx + 1)
    pure (mul_matrix B1 ![p0, p1, p2, real3.splat 0])
  else do
    let p0 ← atInt? cps (seg_idx - 1)
    let p1 ← atInt? cps (seg_idx + 0)
    let p2 ← atInt? cps (seg_idx + 1)
    let p3 ← atInt? cps (seg_idx + 2)
    pure (mul_matrix B ![p0, p1, p2, p3])

/-- The function `CamullRomToCubicBezier`. -/
def CamullRomToCubicBezier (cps : List real3) (cps_size seg_idx : Int) :
    Run (Fin 4 → real3) :=
  CamullRomWith toC2B0 toC2B1 toC2B cps cps_size seg_idx

/-! ## hairutil.h -/

/-- The struct `Hair`: the control points `cps` and the radii `radii`. The fields
`bounds` and `cpInfo` are never read by the converter and are left out. -/
structure Hair where
  cps : List real3
  radii : List ℚ
deriving DecidableEq, Repr

/-- The member `Hair::size()`. -/
def Hair.size (h : Hair) : Nat := h.cps.length

/-- A default constructed `Hair`. -/
def Hair.empty : Hair := ⟨[], []⟩

/-! ## cyhair2pbrt.cpp: the class `CyHair` -/

/-- The data members of `CyHair` that the conversion reads. `segments_` holds
`unsigned short` values, `num_strands_` and the entries of `strand_offsets_` are
`unsigned int`, `default_segments_` is an `int`. -/
structure CyHair where
  segments_ : List Nat
  points_ : List ℚ
  num_strands_ : Nat
  default_segments_ : Int
  default_thickness_ : ℚ
  strand_offsets_ : List Nat
deriving Repr

/-- The conversion `static_cast<int>(u)` of an `unsigned int`. -/
def toInt32 (u : Nat) : Int :=
  if u % 2 ^ 32 < 2 ^ 31 then ((u % 2 ^ 32 : Nat) : Int) else ((u % 2 ^ 32 : Nat) : Int) - 2 ^ 32

/-- The state of the strand loop: the two output buffers and the vector `hairs`. -/
structure ConvState where
  vertices : List ℚ
  radiuss : List ℚ
  hairs : List Hair
deriving Repr

/-- The expression `segments_.empty() ? default_segments_ : segments_[i]`. -/
def numSegments (d : CyHair) (i : Nat) : Run Int :=
  if d.segments_.isEmpty then pure d.default_segments_
  else do
    let s ← at? d.segments_ i
    pure (s : Int)

/-- One pass of the loop over `k`: the point `k` of strand `i`, read with the second
and third coordinate exchanged. The index sums are `size_t` sums of a 32 bit offset
and a `k` below `2 ^ 31`, so they do not wrap. -/
def readPoint (d : CyHair) (i k : Nat) : Run real3 := do
  let off ← at? d.strand_offsets_ i
  let px ← at? d.points_ (3 * (off + k) + 0)
  let py ← at? d.points_ (3 * (off + k) + 2)
  let pz ← at? d.points_ (3 * (off + k) + 1)
  pure ⟨px, py, pz⟩

/-- The loop over `k` that fills `segment_points`. -/
def readStrand (d : CyHair) (i : Nat) (num_segments : Int) : Run (List real3) :=
  (List.range num_segments.toNat).mapM (readPoint d i)

/-- The twelve assignments `q[j].c = vertex_scale[c] * q[j].c + vertex_translate[c]`
for one control point. -/
def scaleTranslate (vertex_scale vertex_translate : Fin 3 → ℚ) (q : real3) : real3 :=
  ⟨vertex_scale 0 * q.x + vertex_translate 0,
   vertex_scale 1 * q.y + vertex_translate 1,
   vertex_scale 2 * q.z + vertex_translate 2⟩

/-- The statements `hairs[i].cps.push_back(q[0])` to `hairs[i].cps.push_back(q[3])`. -/
def pushCps (hairs : List Hair) (i : Nat) (q : Fin 4 → real3) : Run (List Hair) := do
  let h ← at? hairs i
  pure (hairs.set i { h with cps := h.cps ++ [q 0, q 1, q 2, q 3] })

/-- The body of the loop over `s` for strand `i`. -/
def curveStep (vertex_scale vertex_translate : Fin 3 → ℚ) (user_thickness default_thickness : ℚ)
    (lod_level : Int) (segment_points : List real3) (num_segments : Int) (i : Nat)
    (σ : ConvState) (s : Int) : Run ConvState := do
  let seg_idx := s - 1
  let q ← CamullRomToCubicBezier segment_points num_segments seg_idx
  let q : Fin 4 → real3 := fun j => scaleTranslate vertex_scale vertex_translate (q j)
  if lod_level ≤ 0 then
    let vertices := σ.vertices ++
      [(q 0).x, (q 0).y, (q 0).z, (q 1).x, (q 1).y, (q 1).z,
       (q 2).x, (q 2).y, (q 2).z, (q 3).x, (q 3).y, (q 3).z]
    if user_thickness > 0 then
      pure { σ with
        vertices := vertices
        radiuss := σ.radiuss ++ [user_thickness, user_thickness, user_thickness, user_thickness] }
    else
      pure { σ with
        vertices := vertices
        radiuss := σ.radiuss ++
          [default_thickness, default_thickness, default_thickness, default_thickness] }
  else do
    let hairs ← pushCps σ.hairs i q
    pure { σ with hairs := hairs }

/-- The body of the loop over the strands: `s` runs over `1, ..., num_segments - 2`. -/
def strandStep (d : CyHair) (vertex_scale vertex_translate : Fin 3 → ℚ) (user_thickness : ℚ)
    (lod_level : Int) (σ : ConvState) (i : Nat) : Run ConvState := do
  let num_segments ← numSegments d i
  if num_segments < 2 then
    pure σ
  else do
    let segment_points ← readStrand d i num_segments
    (List.range (num_segments - 2).toNat).foldlM
      (fun σ (j : Nat) => curveStep vertex_scale vertex_translate user_thickness d.default_thickness_
        lod_level segment_points num_segments i σ ((j : Int) + 1))
      σ

/-- The value of `num_strands` after the test on `max_strands`. -/
def effStrands (d : CyHair) (max_strands : Int) : Int :=
  let num_strands := toInt32 d.num_strands_
  if max_strands > 0 ∧ max_strands < num_strands then max_strands else num_strands

/-! ## geom.h: bounding boxes -/

/-- The class `Bounds3f`. -/
structure Bounds3f where
  pMin : real3
  pMax : real3
deriving DecidableEq, Repr

/-- The value of `std::numeric_limits<float>::max()`. -/
def FLT_MAX : ℚ := (2 ^ 24 - 1) * 2 ^ 104

/-- The default constructor `Bounds3f()`: `pMin` is the largest float in every
component and `pMax` the lowest one. -/
def Bounds3f.empty : Bounds3f :=
  ⟨⟨FLT_MAX, FLT_MAX, FLT_MAX⟩, ⟨-FLT_MAX, -FLT_MAX, -FLT_MAX⟩⟩

/-- The function `Min` on points. -/
def Min (p1 p2 : real3) : real3 := ⟨min p1.x p2.x, min p1.y p2.y, min p1.z p2.z⟩

/-- The function `Max` on points. -/
def Max (p1 p2 : real3) : real3 := ⟨max p1.x p2.x, max p1.y p2.y, max p1.z p2.z⟩

/-- The function `Union(const Bounds3f &, const real3 &)`. -/
def Union (b : Bounds3f) (p : real3) : Bounds3f := ⟨Min b.pMin p, Max b.pMax p⟩

/-- The member `Bounds3f::MaximumExtent`. -/
def Bounds3f.MaximumExtent (b : Bounds3f) : Int :=
  let d := b.pMax - b.pMin
  if d.x > d.y ∧ d.x > d.z then 0
  else if d.y > d.z then 1
  else 2

/-! ## Library routines -/

/-- The routines of the C++ library that the merge calls and whose results the
repository does not fix: the square root of `<cmath>`, the call of `std::sort` with
the comparator `sortBySamplePointDistance` (which draws indices from a
`boost::random` generator and refers to the pivot `cmp_hair`), and the call of
`std::sort` with the comparator `sortBySegments` (which leaves the order of hairs
of equal size open). -/
structure Lib where
  sqrt : ℚ → ℚ
  sortSample : Hair → List Hair → List Hair
  sortSegments : List Hair → List Hair

/-- The two sorting routines return a rearrangement of their input. -/
def Lib.Sorts (L : Lib) : Prop :=
  (∀ c l, (L.sortSample c l).Perm l) ∧ (∀ l, (L.sortSegments l).Perm l)

/-! ## hairutil.h: distance and resize -/

/-- The function `distance` of hairutil.h. -/
def distance (L : Lib) (p0 p1 : real3) : ℚ :=
  let dx := p1.x - p0.x
  let dy := p1.y - p0.y
  let dz := p1.z - p0.z
  L.sqrt (dx * dx + dy * dy + dz * dz)

/-- The member `std::vector::resize(n, v)`. -/
def vresize {α : Type} (l : List α) (n : Nat) (v : α) : List α :=
  l.take n ++ List.replicate (n - l.length) v

/-- Modelled from the spec: the two argument `Hair::resize(size, thickness)` that the
merge calls is not in hairutil.h, which declares the one argument form only. The
spec allocates an accumulator of the given number of control points with every
radius set to the given thickness; new control points are `real3()`. -/
def Hair.resize (h : Hair) (size : Nat) (thickness : ℚ) : Hair :=
  ⟨vresize h.cps size real3.zero, vresize h.radii size thickness⟩

/-! ## cyhair2pbrt.cpp: the LOD merge -/

/-- The constant `MAX_HAIR_RADIUS`. -/
def MAX_HAIR_RADIUS : ℚ := 2

/-- The constant `MAX_DISTANCE`. -/
def MAX_DISTANCE : ℚ := MAX_HAIR_RADIUS * 2

/-- The `size_t` value `hairs.size() - 1`, which wraps when the vector is empty. -/
def sizeMinusOne (size : Nat) : Nat := (size + 2 ^ 64 - 1) % 2 ^ 64

/-- The first `std::for_each` of the merge loop: the bounds of the root points of
`hairs[count]`, `hairs[count + 1]`, ... -/
def rootBoundsLoop (hairs : List Hair) (count : Nat) : Run Bounds3f :=
  (hairs.drop count).foldlM
    (fun rootBounds h => do
      let p ← at? h.cps 0
      pure (Union rootBounds p))
    Bounds3f.empty

/-- The second `std::for_each` of the merge loop: the state is the pair of the running
index `c` and `min_ind`, both starting at `count`. -/
def minIndLoop (hairs : List Hair) (count : Nat) (axis : Int) : Run Nat := do
  let st ← (hairs.drop count).foldlM
    (fun (st : Nat × Nat) h => do
      let p ← at? h.cps 0
      let hm ← at? hairs st.2
      let pm ← at? hm.cps 0
      pure (st.1 + 1, if p.get axis < pm.get axis then st.1 else st.2))
    (count, count)
  pure st.2

/-- The loop `while (true)` that counts the hairs to combine, with an iteration
budget as first argument. The result is the pair of `nHairs` and `sameSizeHairs`. -/
def walk (L : Lib) (cmp_hair : Hair) (hairs : List Hair) (count : Nat) :
    Nat → Nat → Nat → Run (Nat × Nat)
  | 0, _, _ => .error .fuel
  | fuel + 1, nHairs, sameSizeHairs =>
    let i := count + nHairs
    if i = sizeMinusOne hairs.length then pure (nHairs, sameSizeHairs)
    else do
      let c0 ← at? cmp_hair.cps 0
      let hi ← at? hairs i
      let p ← at? hi.cps 0
      let rootDist := distance L c0 p
      if rootDist ≥ MAX_DISTANCE then pure (nHairs, sameSizeHairs)
      else
        walk L cmp_hair hairs count fuel (nHairs + 1)
          (if cmp_hair.size ≥ hi.size then sameSizeHairs + 1 else sameSizeHairs)

/-- The body of the loop over `k` in the averaging: the state is `accum` and
`additions`. -/
def accumStep (L : Lib) (hairs : List Hair) (count i : Nat) (st : Hair × List Int) (k : Nat) :
    Run (Hair × List Int) := do
  let hi ← at? hairs i
  let a ← at? st.1.cps k
  let p ← at? hi.cps k
  let cps := st.1.cps.set k (a + p)
  let n ← at? st.2 k
  let additions := st.2.set k (n + 1)
  let h0 ← at? hairs count
  let p0 ← at? h0.cps k
  let d := distance L p p0
  let r ← at? st.1.radii k
  let radii := st.1.radii.set k (min (max r d) MAX_HAIR_RADIUS)
  pure (⟨cps, radii⟩, additions)

/-- The loop over `k` for the hair `hairs[i]`. -/
def accumHair (L : Lib) (hairs : List Hair) (count : Nat) (st : Hair × List Int) (i : Nat) :
    Run (Hair × List Int) := do
  let hi ← at? hairs i
  (List.range hi.size).foldlM (accumStep L hairs count i) st

/-- The last `std::for_each` of the merge loop: every accumulated control point is
divided by its counter. The state is the running index `c` and `accum`. -/
def divideLoop (accum : Hair) (additions : List Int) : Run Hair := do
  let st ← additions.foldlM
    (fun (st : Nat × Hair) (a : Int) => do
      let p ← at? st.2.cps st.1
      pure (st.1 + 1, { st.2 with cps := st.2.cps.set st.1 (p.divf (a : ℚ)) }))
    (0, accum)
  pure st.2

/-- One pass of the combination loop. The result is the rearranged vector `hairs`,
the hair pushed to `combined` and the final `nHairs`. -/
def lodStep (L : Lib) (user_thickness : ℚ) (hairs : List Hair) (count : Nat) :
    Run (List Hair × Hair × Nat) := do
  let rootBounds ← rootBoundsLoop hairs count
  let axis := rootBounds.MaximumExtent
  let min_ind ← minIndLoop hairs count axis
  let cmp_hair ← at? hairs min_ind
  let hairs := hairs.take count ++ L.sortSample cmp_hair (hairs.drop count)
  let (nHairs, sameSizeHairs) ← walk L cmp_hair hairs count hairs.length 1 1
  let hairs := hairs.take (count + 1) ++
    L.sortSegments ((hairs.drop (count + 1)).take (nHairs - 1)) ++ hairs.drop (count + nHairs)
  let nHairs := sameSizeHairs
  let accum := Hair.empty.resize cmp_hair.size user_thickness
  let additions : List Int := List.replicate accum.size 0
  let (accum, additions) ← (List.range' count nHairs).foldlM (accumHair L hairs count)
    (accum, additions)
  let accum ← divideLoop accum additions
  pure (hairs, accum, nHairs)

/-- The combination loop `while (count != hairs.size() - 1)`, with an iteration
budget as first argument. -/
def combineLoop (L : Lib) (user_thickness : ℚ) :
    Nat → List Hair → Nat → List Hair → Run (List Hair)
  | 0, hairs, count, combined =>
    if count = sizeMinusOne hairs.length then pure combined else .error .fuel
  | fuel + 1, hairs, count, combined =>
    if count = sizeMinusOne hairs.length then pure combined
    else do
      let (hairs, accum, nHairs) ← lodStep L user_thickness hairs count
      combineLoop L user_thickness fuel hairs (count + nHairs) (combined ++ [accum])

/-- The loop over `j` that moves one combined hair to the output buffers. -/
def flattenHair (out : List ℚ × List ℚ) (h : Hair) : Run (List ℚ × List ℚ) :=
  (List.range h.size).foldlM
    (fun (out : List ℚ × List ℚ) j => do
      let p ← at? h.cps j
      let r ← at? h.radii j
      pure (out.1 ++ [p.x, p.y, p.z], out.2 ++ [r]))
    out

/-- The member `CyHair::ToCubicBezierCurves`. `vertices` and `radiuss` are the
contents of the two buffers of the caller before the call; the result is the
returned flag and the contents of the buffers after the call. The budget of the
combination loop is `hairs.size()`. -/
def ToCubicBezierCurves (L : Lib) (d : CyHair) (vertices radiuss : List ℚ)
    (vertex_scale vertex_translate : Fin 3 → ℚ) (max_strands : Int) (user_thickness : ℚ)
    (lod_level : Int) : Run (Bool × List ℚ × List ℚ) :=
  if d.points_.isEmpty || d.strand_offsets_.isEmpty then
    pure (false, vertices, radiuss)
  else do
    let num_strands := effStrands d max_strands
    if num_strands < 0 then throw Fault.lengthError
    let hairs := List.replicate num_strands.toNat Hair.empty
    let σ ← (List.range num_strands.toNat).foldlM
      (strandStep d vertex_scale vertex_translate user_thickness lod_level) ⟨[], [], hairs⟩
    if lod_level > 0 then do
      let combined ← combineLoop L user_thickness σ.hairs.length σ.hairs 0 []
      let out ← combined.foldlM flattenHair (σ.vertices, σ.radiuss)
      pure (true, out.1, out.2)
    else
      pure (true, σ.vertices, σ.radiuss)

/-! ## cyhair2pbrt.cpp: the passes of the LOD merge -/

/-- The local variables of one pass of the combination loop: the cursor `count` at
the start of the pass, then the values in the order in which the pass sets them.
`sorted` is the vector `hairs` after the sort by sample distance, `walked` the value
of `nHairs` when the walk ends, `hairs` the vector after the sort by size, `nHairs`
the final value of `nHairs`, `sums` the accumulator before the division and `accum`
the hair pushed to `combined`. -/
structure Pass where
  count : Nat
  rootBounds : Bounds3f
  axis : Int
  min_ind : Nat
  cmp_hair : Hair
  sorted : List Hair
  walked : Nat
  hairs : List Hair
  nHairs : Nat
  sums : Hair
  additions : List Int
  accum : Hair
deriving DecidableEq, Repr

/-- One pass of the combination loop as in `lodStep`, returning every local
variable of the pass. -/
def lodPass (L : Lib) (user_thickness : ℚ) (hairs : List Hair) (count : Nat) : Run Pass := do
  let rootBounds ← rootBoundsLoop hairs count
  let axis := rootBounds.MaximumExtent
  let min_ind ← minIndLoop hairs count axis
  let cmp_hair ← at? hairs min_ind
  let sorted := hairs.take count ++ L.sortSample cmp_hair (hairs.drop count)
  let (walked, sameSizeHairs) ← walk L cmp_hair sorted count sorted.length 1 1
  let hairs := sorted.take (count + 1) ++
    L.sortSegments ((sorted.drop (count + 1)).take (walked - 1)) ++ sorted.drop (count + walked)
  let nHairs := sameSizeHairs
  let accum := Hair.empty.resize cmp_hair.size user_thickness
  let additions : List Int := List.replicate accum.size 0
  let (sums, additions) ← (List.range' count nHairs).foldlM (accumHair L hairs count)
    (accum, additions)
  let accum ← divideLoop sums additions
  pure ⟨count, rootBounds, axis, min_ind, cmp_hair, sorted, walked, hairs, nHairs, sums,
    additions, accum⟩

/-- The combination loop as in `combineLoop`, returning the vector `hairs` at the end
of the loop and the passes made, in order. -/
def combineTrace (L : Lib) (user_thickness : ℚ) :
    Nat → List Hair → Nat → List Pass → Run (List Hair × List Pass)
  | 0, hairs, count, passes =>
    if count = sizeMinusOne hairs.length then pure (hairs, passes) else .error .fuel
  | fuel + 1, hairs, count, passes =>
    if count = sizeMinusOne hairs.length then pure (hairs, passes)
    else do
      let p ← lodPass L user_thickness hairs count
      combineTrace L user_thickness fuel p.hairs (count + p.nHairs) (passes ++ [p])

/-! ## cyhair2pbrt.cpp: `CyHair::Load` and `main` -/

/-- The fields of the struct `CyHairHeader` that `Load` copies to members which the
converter reads, or tests itself: the four characters `magic`, the 32 bit unsigned
fields and the default thickness. The default transparency, the default color and the
information text are left out. -/
structure CyHairHeader where
  magic : String
  num_strands : Nat
  total_points : Nat
  flags : Nat
  default_segments : Nat
  default_thickness : ℚ
deriving DecidableEq, Repr

/-- A CyHair file as `Load` reads it, in items instead of bytes: the header, when the
file holds the 128 bytes of one, and the 16 bit and float items that are left for each
of the five reads after the header. The decoding of bytes is not modelled. -/
structure CyHairFile where
  header : Option CyHairHeader
  segments : List Nat
  points : List ℚ
  thickness : List ℚ
  transparency : List ℚ
  colors : List ℚ
deriving DecidableEq, Repr

/-- The constructor `CyHair()`. -/
def CyHair.new : CyHair := ⟨[], [], 0, -1, 1 / 100, []⟩

/-- The conversion `static_cast<unsigned int>(i)` of an `int`. -/
def toUInt32 (i : Int) : Nat := (i % 2 ^ 32).toNat

/-- The call `fread(&v[0], size, 1, fp)` that asks for `n` items, where `v` is the
vector after its `resize` and `avail` are the items left in the file: the result is
whether `fread` returned 1 and the vector after the call. `fread` returns 0 when the
size is 0 or the file ends before `n` items; it stores the items it could read.
`&v[0]` on an empty vector and a store after the end of `v` are out of range. -/
def freadInto {α : Type} (avail : List α) (n : Nat) (v : List α) : Run (Bool × List α) :=
  if v.isEmpty then .error .outOfRange
  else if v.length < min n avail.length then .error .outOfRange
  else pure (decide (n ≠ 0 ∧ n ≤ avail.length),
    avail.take (min n avail.length) ++ v.drop (min n avail.length))

/-- One of the five blocks `if (has_x) { x.resize(cap); if (1 != fread(&x[0], ...))
return false; }` of `Load`: `v` is the vector before the block, `n` the number of items
asked for. The result is whether `Load` goes on and the vector after the block. -/
def readArray {α : Type} (present : Bool) (avail : List α) (n cap : Nat) (v : List α)
    (zero : α) : Run (Bool × List α) :=
  if present then freadInto avail n (vresize v cap zero) else pure (true, v)

/-- The body of the loop that builds the strand offset table. The `int` sum
`num_segments + 1` is taken in two's complement, as the conversion to `unsigned int`
is, and the `unsigned int` sum wraps. -/
def offsetStep (d : CyHair) (offsets : List Nat) (i : Nat) : Run (List Nat) := do
  let num_segments ← numSegments d (i - 1)
  let prev ← at? offsets (i - 1)
  if i < offsets.length then
    pure (offsets.set i ((prev + toUInt32 (num_segments + 1)) % 2 ^ 32))
  else .error .outOfRange

/-- The last part of `Load`: the strand offset table. -/
def buildOffsets (d : CyHair) : Run (List Nat) := do
  let offsets := vresize d.strand_offsets_ d.num_strands_ 0
  if offsets.isEmpty then .error .outOfRange
  else
    let offsets := offsets.set 0 0
    (List.range' 1 (d.num_strands_ - 1)).foldlM (offsetStep d) offsets

/-- The member `CyHair::Load`, for the file that the name refers to (`none`: the file
cannot be opened). The result is the returned flag and the object after the call. The
vectors `thicknesses_`, `transparencies_` and `colors_`, which the converter never
reads, are taken as empty before the call and are dropped after their read. -/
def Load (file : Option CyHairFile) (self : CyHair) : Run (Bool × CyHair) :=
  match file with
  | none => pure (false, self)
  | some f =>
    match f.header with
    | none => pure (false, self)
    | some header =>
      if header.magic ≠ "HAIR" then pure (false, self)
      else
        let flags_ := header.flags % 2 ^ 32
        let self := { self with
          default_thickness_ := header.default_thickness
          default_segments_ := toInt32 header.default_segments
          num_strands_ := header.num_strands % 2 ^ 32 }
        let total_points_ := header.total_points % 2 ^ 32
        let has_segments := flags_.testBit 0
        let has_points := flags_.testBit 1
        let has_thickness := flags_.testBit 2
        let has_transparency := flags_.testBit 3
        let has_color := flags_.testBit 4
        if !has_points then pure (false, self)
        else if self.default_segments_ < 1 ∧ !has_segments then pure (false, self)
        else do
          let r ← readArray has_segments f.segments self.num_strands_ self.num_strands_
            self.segments_ 0
          let self := { self with segments_ := r.2 }
          if !r.1 then pure (false, self)
          else do
            let r ← readArray has_points f.points (3 * total_points_)
              ((3 * total_points_) % 2 ^ 32) self.points_ 0
            let self := { self with points_ := r.2 }
            if !r.1 then pure (false, self)
            else do
              let r ← readArray has_thickness f.thickness total_points_ total_points_ [] 0
              if !r.1 then pure (false, self)
              else do
                let r ← readArray has_transparency f.transparency total_points_ total_points_
                  [] 0
                if !r.1 then pure (false, self)
                else do
                  let r ← readArray has_color f.colors (3 * total_points_)
                    ((3 * total_points_) % 2 ^ 32) [] 0
                  if !r.1 then pure (false, self)
                  else do
                    let offsets ← buildOffsets self
                    pure (true, { self with strand_offsets_ := offsets })

/-- One record `Shape "curve"` of the output: the twelve floats of `point P` and the
two widths. -/
structure CurveRecord where
  P : List ℚ
  width0 : ℚ
  width1 : ℚ
deriving DecidableEq, Repr

/-- What `main` writes to the output: the number of strands and the thickness of the
second comment line, the two rows of `bounds` and the curve records. -/
structure PbrtOutput where
  num_strands : Int
  user_thickness : ℚ
  boundsMin : real3
  boundsMax : real3
  curves : List CurveRecord
deriving DecidableEq, Repr

/-- The body of the loop of `main` over the control points that grows `bounds`. -/
def boundsStep (points radiuss : List ℚ) (b : real3 × real3) (i : Nat) : Run (real3 × real3) := do
  let thickness ← at? radiuss i
  let px ← at? points (3 * i + 0)
  let py ← at? points (3 * i + 1)
  let pz ← at? points (3 * i + 2)
  pure (⟨min b.1.x (px - thickness), min b.1.y (py - thickness), min b.1.z (pz - thickness)⟩,
    ⟨max b.2.x (px + thickness), max b.2.y (py + thickness), max b.2.z (pz + thickness)⟩)

/-- The body of the loop of `main` over the curves: the record with index `i`. -/
def curveRecord (points radiuss : List ℚ) (i : Nat) : Run CurveRecord := do
  let P ← (List.range 12).mapM (fun j => at? points (12 * i + j))
  let width0 ← at? radiuss (4 * i + 0)
  let width1 ← at? radiuss (4 * i + 3)
  pure ⟨P, width0, width1⟩

/-- The function `main`. `argc` is the number of arguments, `argv1` the name of the
input, `file` the file of that name (`none`: it cannot be opened), `outOpens` says
whether the output can be opened, and `argv3`, `argv4`, `argv5` are the values that
`atoi` and `atof` return for the arguments 3 to 5, which are read when there are that
many arguments. The result is whether `main` returns `EXIT_SUCCESS` and what it writes
to the output. -/
def main (L : Lib) (argc : Nat) (argv1 : String) (file : Option CyHairFile) (outOpens : Bool)
    (argv3 argv4 : Int) (argv5 : ℚ) : Run (Bool × Option PbrtOutput) :=
  if argc ≤ 2 ∨ argv1 = "--help" ∨ argv1 = "-h" then pure (false, none)
  else if !outOpens then pure (false, none)
  else
    let lod_level : Int := if argc > 3 then argv3 else -1
    let max_strands : Int := if argc > 4 then argv4 else -1
    let user_thickness : ℚ := if argc > 5 then argv5 else 1
    do
      let r ← Load file CyHair.new
      if !r.1 then pure (false, none)
      else do
        let c ← ToCubicBezierCurves L r.2 [] [] ![1, 1, 1] ![0, 0, 0] max_strands
          user_thickness lod_level
        if !c.1 then pure (false, none)
        else do
          let points := c.2.1
          let radiuss := c.2.2
          let bounds ← (List.range (points.length / 3)).foldlM (boundsStep points radiuss)
            (⟨10 ^ 30, 10 ^ 30, 10 ^ 30⟩, ⟨-10 ^ 30, -10 ^ 30, -10 ^ 30⟩)
          let curves ← (List.range (radiuss.length / 4)).mapM (curveRecord points radiuss)
          pure (true, some ⟨toInt32 (radiuss.length / 4), user_thickness, bounds.1, bounds.2,
            curves⟩)

/-! ## cyhair2pbrt.cpp: the comparators of the LOD merge -/

/-- The comparator `sortBySegments` of the merge. -/
def sortBySegments (h1 h2 : Hair) : Bool := decide (h1.cps.length < h2.cps.length)

/-- The comparator `sortBySamplePointDistance` of the merge. `draw m i` is the value
that the call number `i` of `range(rng)` returns for a newly constructed generator and
the range `0 .. m - 1`; the library fixes it. `m` and `nSamples` are of type `int`, the
loop counter is a `size_t`. -/
def sortBySamplePointDistance (L : Lib) (draw : Int → Nat → Nat) (cmp_hair h1 h2 : Hair) :
    Run Bool := do
  let m : Int := toInt32 (min h1.cps.length (min h2.cps.length cmp_hair.cps.length))
  let nSamples : Int := min (m.tdiv 4) 2
  let d ← (List.range (nSamples % 2 ^ 64).toNat).foldlM
    (fun (d : ℚ × ℚ) (i : Nat) => do
      let index := draw m i
      let p1 ← at? h1.cps index
      let c1 ← at? cmp_hair.cps index
      let p2 ← at? h2.cps index
      let c2 ← at? cmp_hair.cps index
      pure (d.1 + distance L p1 c1, d.2 + distance L p2 c2))
    (0, 0)
  pure (decide (d.1 < d.2))

/-! ## Notions used in the statements -/

/-- The number of segments of strand `i` as a plain value: the entry of `segments_`
when there are per-strand counts (0 beyond the end of the table), else
`default_segments_`. -/
def segCount (d : CyHair) (i : Nat) : Int :=
  if d.segments_.isEmpty then d.default_segments_ else ((d.segments_.getD i 0 : Nat) : Int)

/-- Every element access made while strand `i` is converted is in range: the entry
of `segments_`, and for a strand of at least two segments the entry of
`strand_offsets_` and the coordinates of its first `num_segments` points. -/
def StrandReadable (d : CyHair) (i : Nat) : Prop :=
  (d.segments_.isEmpty = false → i < d.segments_.length) ∧
  (2 ≤ segCount d i → i < d.strand_offsets_.length ∧
    3 * (d.strand_offsets_.getD i 0 + ((segCount d i).toNat - 1)) + 2 < d.points_.length)

instance (d : CyHair) (i : Nat) : Decidable (StrandReadable d i) := by
  unfold StrandReadable; infer_instance

/-- The Bezier groups that `CamullRomToCubicBezier` returns for strand `i`, in the
order of the loop over `s`, before scale and translation. -/
def strandCurves (d : CyHair) (i : Nat) : Run (List (Fin 4 → real3)) := do
  let num_segments ← numSegments d i
  if num_segments < 2 then
    pure []
  else do
    let segment_points ← readStrand d i num_segments
    (List.range (num_segments - 2).toNat).mapM
      (fun (j : Nat) => CamullRomToCubicBezier segment_points num_segments ((j : Int) + 1 - 1))

/-- The twelve floats pushed to `vertices` for one curve. -/
def curveFloats (q : Fin 4 → real3) : List ℚ :=
  [(q 0).x, (q 0).y, (q 0).z, (q 1).x, (q 1).y, (q 1).z,
   (q 2).x, (q 2).y, (q 2).z, (q 3).x, (q 3).y, (q 3).z]

/-- The radius pushed four times for every curve when LOD is off. -/
def curveRadius (d : CyHair) (user_thickness : ℚ) : ℚ :=
  if user_thickness > 0 then user_thickness else d.default_thickness_

/-- The effect of one pass of the loop over `s` on the state when LOD is off. -/
def emitCurve (vertex_scale vertex_translate : Fin 3 → ℚ) (radius : ℚ) (σ : ConvState)
    (q : Fin 4 → real3) : ConvState :=
  { σ with
    vertices := σ.vertices ++ curveFloats (fun j => scaleTranslate vertex_scale vertex_translate (q j))
    radiuss := σ.radiuss ++ [radius, radius, radius, radius] }

/-- The call converts without leaving defined behaviour when LOD is off: the two
tables are not empty, the strand count is not negative as an `int`, and every
converted strand is readable. -/
def Convertible (d : CyHair) (max_strands : Int) : Prop :=
  (d.points_.isEmpty || d.strand_offsets_.isEmpty) = false ∧
  0 ≤ effStrands d max_strands ∧
  ∀ i, i < (effStrands d max_strands).toNat → StrandReadable d i

instance (d : CyHair) (max_strands : Int) : Decidable (Convertible d max_strands) := by
  unfold Convertible; infer_instance

/-- The image of a flat list of `x, y, z` triples under the map that sends the
coordinate on axis `c` to `scale[c] * coordinate + translate[c]`. -/
def affineImage (scale translate : Fin 3 → ℚ) : List ℚ → List ℚ
  | x :: y :: z :: rest =>
    (scale 0 * x + translate 0) :: (scale 1 * y + translate 1) :: (scale 2 * z + translate 2) ::
      affineImage scale translate rest
  | _ => []

/-- The first `num_segments` points of strand `i` with the second and third input
coordinate exchanged: the input `(x, y, z)` is read as `(x, z, y)`. -/
def swappedPoints (d : CyHair) (i : Nat) : List real3 :=
  (List.range (segCount d i).toNat).map (fun k =>
    ⟨d.points_.getD (3 * (d.strand_offsets_.getD i 0 + k)) 0,
     d.points_.getD (3 * (d.strand_offsets_.getD i 0 + k) + 2) 0,
     d.points_.getD (3 * (d.strand_offsets_.getD i 0 + k) + 1) 0⟩)

/-- The twelve floats of a Bezier group after scale and translation, written out per
axis. -/
def affineFloats (scale translate : Fin 3 → ℚ) (q : Fin 4 → real3) : List ℚ :=
  [scale 0 * (q 0).x + translate 0, scale 1 * (q 0).y + translate 1,
   scale 2 * (q 0).z + translate 2,
   scale 0 * (q 1).x + translate 0, scale 1 * (q 1).y + translate 1,
   scale 2 * (q 1).z + translate 2,
   scale 0 * (q 2).x + translate 0, scale 1 * (q 2).y + translate 1,
   scale 2 * (q 2).z + translate 2,
   scale 0 * (q 3).x + translate 0, scale 1 * (q 3).y + translate 1,
   scale 2 * (q 3).z + translate 2]

/-- The dataset cut down to its first `n` strands: the strand count is `n` and the
two tables with one entry per strand keep their first `n` entries. -/
def truncateStrands (d : CyHair) (n : Nat) : CyHair :=
  { d with
    num_strands_ := n
    segments_ := d.segments_.take n
    strand_offsets_ := d.strand_offsets_.take n }

/-- Every hair has a number of control points that is a multiple of 4. -/
def HairsQuad (hairs : List Hair) : Prop := ∀ h ∈ hairs, 4 ∣ h.cps.length

/-- Every combined hair has one radius per control point and a number of control
points that is a multiple of 4. -/
def CombinedQuad (combined : List Hair) : Prop :=
  ∀ h ∈ combined, h.radii.length = h.cps.length ∧ 4 ∣ h.cps.length

/-- The state of the strand loop when LOD is on: nothing has been written to the
output buffers and every hair holds whole Bezier groups. -/
def LodConv (n : Nat) (σ : ConvState) : Prop :=
  σ.vertices = [] ∧ σ.radiuss = [] ∧ HairsQuad σ.hairs ∧ σ.hairs.length = n

/-- The accumulator has `n` control points and `n` radii. -/
def AccumLen (n : Nat) (st : Hair × List Int) : Prop :=
  st.1.cps.length = n ∧ st.1.radii.length = n

/-- The output buffers hold whole curves: three floats per radius and a number of
radii that is a multiple of 4. -/
def WholeCurves (out : List ℚ × List ℚ) : Prop :=
  out.1.length = 3 * out.2.length ∧ 4 ∣ out.2.length

/-- Every hair has exactly `n` control points. -/
def Uniform (n : Nat) (hairs : List Hair) : Prop := ∀ h ∈ hairs, h.cps.length = n

/-- The accumulator has `n` control points and `n` radii, and there are `n`
counters. -/
def AccumFull (n : Nat) (st : Hair × List Int) : Prop :=
  st.1.cps.length = n ∧ st.1.radii.length = n ∧ st.2.length = n

/-- The four control points of a Bezier group after scale and translation. -/
def fourPoints (vertex_scale vertex_translate : Fin 3 → ℚ) (q : Fin 4 → real3) : List real3 :=
  [scaleTranslate vertex_scale vertex_translate (q 0),
   scaleTranslate vertex_scale vertex_translate (q 1),
   scaleTranslate vertex_scale vertex_translate (q 2),
   scaleTranslate vertex_scale vertex_translate (q 3)]

/-- The hair that the strand loop builds from the Bezier groups of one strand when
LOD is on: the control points of the groups in order and no radii. -/
def hairOf (vertex_scale vertex_translate : Fin 3 → ℚ) (qs : List (Fin 4 → real3)) : Hair :=
  ⟨qs.flatMap (fourPoints vertex_scale vertex_translate), []⟩

/-- The root point `cps[0]` of a hair; `real3()` for a hair without control points. -/
def Hair.root (h : Hair) : real3 := h.cps.getD 0 real3.zero

/-- Every component of the point is a finite `float`. -/
def InFloatRange (p : real3) : Prop :=
  (-FLT_MAX ≤ p.x ∧ p.x ≤ FLT_MAX) ∧ (-FLT_MAX ≤ p.y ∧ p.y ≤ FLT_MAX) ∧
    (-FLT_MAX ≤ p.z ∧ p.z ≤ FLT_MAX)

instance (p : real3) : Decidable (InFloatRange p) := by
  unfold InFloatRange; infer_instance

/-- The bounds `b` are the bounding box of the points `pts`: on every axis `pMin` is
the least and `pMax` the greatest coordinate of a point of `pts`. -/
def IsBoundingBox (b : Bounds3f) (pts : List real3) : Prop :=
  ∀ c : Int, (∀ p ∈ pts, b.pMin.get c ≤ p.get c ∧ p.get c ≤ b.pMax.get c) ∧
    (∃ p ∈ pts, p.get c = b.pMin.get c) ∧ (∃ p ∈ pts, p.get c = b.pMax.get c)

/-- The state of the second `for_each` of a pass after the hairs with the indices
below `c` : the index `m` is one of them and its root is least on the axis. -/
def MinIndInv (hairs : List Hair) (count : Nat) (axis : Int) (c m : Nat) : Prop :=
  count ≤ m ∧ (m < c ∨ m = count) ∧
    ∀ j, count ≤ j → j < c → ∀ hm hj, hairs[m]? = some hm → hairs[j]? = some hj →
      hm.root.get axis ≤ hj.root.get axis

/-- The entry with index `k` of the state of the averaging: the control point of
`accum`, the counter and the radius of `accum`. -/
def entry (st : Hair × List Int) (k : Nat) : real3 × Int × ℚ :=
  (st.1.cps.getD k real3.zero, st.2.getD k 0, st.1.radii.getD k 0)

/-- The effect of the loop over `k` for one admitted hair `h` on the entry with index
`k`, where `h0` is the hair `hairs[count]`: a hair that has the index `k` adds its
control point, counts once and widens the radius. -/
def addAt (L : Lib) (h0 h : Hair) (k : Nat) (e : real3 × Int × ℚ) : real3 × Int × ℚ :=
  if k < h.size then
    (e.1 + h.cps.getD k real3.zero, e.2.1 + 1,
      min (max e.2.2 (distance L (h.cps.getD k real3.zero) (h0.cps.getD k real3.zero)))
        MAX_HAIR_RADIUS)
  else e

/-- The admitted hairs that have a control point with index `k`. -/
def contributors (k : Nat) (hs : List Hair) : List Hair :=
  hs.filter (fun h => decide (k < h.size))

/-- The hairs that a pass admits into its group: `hairs[count]`, ...,
`hairs[count + nHairs - 1]` of the vector after both sorts. -/
def Pass.admitted (p : Pass) : List Hair := (p.hairs.drop p.count).take p.nHairs

/-- The hairs that the walk of a pass steps over: `hairs[count + 1]`, ...,
`hairs[count + nHairs - 1]` of the vector after the sort by sample distance, with the
value of `nHairs` at the end of the walk. -/
def Pass.walkedHairs (p : Pass) : List Hair := (p.sorted.drop (p.count + 1)).take (p.walked - 1)

/-- The vector `hairs` that the loop over the strands builds when LOD is on: one hair
per converted strand, holding the control points of the Bezier groups of the strand
after scale and translation. -/
def lodHairs (d : CyHair) (vertex_scale vertex_translate : Fin 3 → ℚ) (max_strands : Int) :
    Run (List Hair) := do
  let qss ← (List.range (effStrands d max_strands).toNat).mapM (strandCurves d)
  pure (qss.map (hairOf vertex_scale vertex_translate))

/-- The control points with index `k` of the hairs of `hs` that have this index. -/
def pointsAt (k : Nat) (hs : List Hair) : List real3 :=
  (contributors k hs).map (fun h => h.cps.getD k real3.zero)

/-- The arithmetic mean of a list of points, component by component. -/
def meanPoint (pts : List real3) : real3 :=
  ⟨(pts.map (fun p => p.x)).sum / pts.length, (pts.map (fun p => p.y)).sum / pts.length,
    (pts.map (fun p => p.z)).sum / pts.length⟩

/-- The greatest distance between the control points with index `k` of any two hairs
of `hs` that have this index, capped at `MAX_HAIR_RADIUS`. -/
def pairwiseRadius (L : Lib) (hs : List Hair) (k : Nat) : ℚ :=
  min (((pointsAt k hs).flatMap (fun a => (pointsAt k hs).map (fun b => distance L a b))).foldl
    max 0) MAX_HAIR_RADIUS

/-- The greatest of the thickness and of the distances from the control points with
index `k` of the hairs of `hs` that have this index to the control point with index `k`
of the hair `h0`, capped at `MAX_HAIR_RADIUS`. -/
def starRadius (L : Lib) (thickness : ℚ) (h0 : Hair) (hs : List Hair) (k : Nat) : ℚ :=
  min (((pointsAt k hs).map (fun a => distance L a (h0.cps.getD k real3.zero))).foldl
    max thickness) MAX_HAIR_RADIUS

/-- The sum of `seg_j + 1` over the strands `j` before strand `i`, as an `unsigned
int`: the value of the prefix sum modulo `2 ^ 32`. -/
def offsetSum (d : CyHair) (i : Nat) : Nat :=
  (((List.range i).map (fun j => segCount d j + 1)).sum % 2 ^ 32).toNat

/-- The sort by sample distance leaves the pivot in front. The comparator finds no
hair less than the pivot, so this is what `std::sort` returns unless another hair is
at distance 0 from the pivot at the sampled indices. -/
def Lib.PivotFirst (L : Lib) : Prop :=
  ∀ c l, c ∈ l → (L.sortSample c l).head? = some c

/-- The sort with `sortBySegments` sorts: in its result the comparator finds no hair
less than a hair before it. -/
def Lib.BySize (L : Lib) : Prop :=
  ∀ l, (L.sortSegments l).Pairwise (fun a b => sortBySegments b a = false)

/-- Every hair has at least one control point. -/
def NonEmptyHairs (hairs : List Hair) : Prop := ∀ h ∈ hairs, h.cps ≠ []

/-- The vector `l` is a possible result of `std::sort` with the comparator
`sortBySamplePointDistance` and the pivot `cmp_hair`: the comparator finds no hair less
than a hair before it. -/
def SortedBySample (L : Lib) (draw : Int → Nat → Nat) (cmp_hair : Hair) (l : List Hair) : Prop :=
  l.Pairwise (fun a b => sortBySamplePointDistance L draw cmp_hair b a = .ok false)

/-- The order of hairs by their numbers of control points. -/
def sizeLe (a b : Hair) : Prop := a.size ≤ b.size

instance : DecidableRel sizeLe := fun a b => inferInstanceAs (Decidable (a.size ≤ b.size))

instance : IsTotal Hair sizeLe := ⟨fun a b => Nat.le_total a.size b.size⟩

instance : IsTrans Hair sizeLe := ⟨fun _ _ _ h1 h2 => Nat.le_trans h1 h2⟩

/-- The number of points of the strands before strand `i`: the sum of `seg_j + 1` over
the strands `j` before it, without wrap. -/
def pointsBefore (d : CyHair) (i : Nat) : Int :=
  ((List.range i).map (fun j => segCount d j + 1)).sum

/-- The index in the point table of the final point of strand `i`, the point with the
index `num_segments` of the strand. -/
def finalPoint (d : CyHair) (i : Nat) : Int :=
  (d.strand_offsets_.getD i 0 : Int) + segCount d i

/-- The strand offset table is the one that `Load` builds, and the `unsigned int` sums
of `Load` do not wrap: the entry of every strand is the prefix sum `offsetSum`, and the
points up to and including the strand are at most `2 ^ 32`. -/
def PackedOffsets (d : CyHair) : Prop :=
  ∀ i, i < d.num_strands_ →
    d.strand_offsets_[i]? = some (offsetSum d i) ∧ pointsBefore d (i + 1) ≤ 2 ^ 32

instance (d : CyHair) : Decidable (PackedOffsets d) := by
  unfold PackedOffsets; infer_instance

/-- The datasets `d` and `e` are identical except for coordinates of final points of
strands: all members but `points_` are equal, the point tables have the same size, and
a float of the point table that differs belongs to the final point of a strand. -/
def SameUpToFinalPoints (d e : CyHair) : Prop :=
  e.segments_ = d.segments_ ∧ e.num_strands_ = d.num_strands_ ∧
  e.default_segments_ = d.default_segments_ ∧ e.default_thickness_ = d.default_thickness_ ∧
  e.strand_offsets_ = d.strand_offsets_ ∧ e.points_.length = d.points_.length ∧
  ∀ j, j < d.points_.length → e.points_[j]? ≠ d.points_[j]? →
    ∃ i, i < d.num_strands_ ∧ ((j / 3 : Nat) : Int) = finalPoint d i

instance (d e : CyHair) : Decidable (SameUpToFinalPoints d e) := by
  unfold SameUpToFinalPoints; infer_instance

/-! ## Sample data -/

deriving instance DecidableEq for Except

deriving instance DecidableEq for CyHair

/-- The integer square root, the largest `k` with `k * k ≤ n`. -/
def isqrt (n : Nat) : Nat := ((List.range (n + 1)).filter (fun k => k * k ≤ n)).length - 1

/-- Library routines for the sample runs: a square root that is exact on squares of
rationals, and sorting routines that leave their input in place (the sample hairs are
in sorted order whenever a sort is called on them). -/
def sampleLib : Lib :=
  ⟨fun x => (isqrt x.num.toNat : ℚ) / (isqrt x.den : ℚ), fun _ l => l, fun l => l⟩

/-- Three strands of four points each, no per-strand segment counts,
`default_segments_ = 3`, default thickness 1/10. The strands are copies of one
another shifted along x by 1 and by 200. -/
def sampleHair : CyHair :=
  ⟨[], [0, 0, 0, 0, 1, 0, 0, 2, 0, 0, 3, 0,
        1, 0, 0, 1, 1, 0, 1, 2, 0, 1, 3, 0,
        200, 0, 0, 200, 1, 0, 200, 2, 0, 200, 3, 0], 3, 3, 1 / 10, [0, 4, 8]⟩

/-- One strand of five points with a per-strand segment count of 4. -/
def sampleStrand5 : CyHair :=
  ⟨[4], [0, 0, 0, 1, 2, 3, 2, 5, 4, 3, 7, 9, 4, 1, 1], 1, 4, 1 / 10, [0]⟩

/-- Three strands with per-strand segment counts 4, 1 and 3, that is 5, 2 and 4
points, with the coordinates 0, 1, 2, ... -/
def sampleMixed : CyHair :=
  ⟨[4, 1, 3], (List.range 33).map (fun n => (n : ℚ)), 3, 0, 1 / 10, [0, 5, 7]⟩

/-- A dataset without points. -/
def sampleEmpty : CyHair := ⟨[], [], 1, 3, 1 / 10, [0]⟩

/-- The three hairs that the strand loop builds from `sampleHair` with unit scale. -/
def sampleHairs : List Hair :=
  [⟨[⟨0, 0, 0⟩, ⟨0, 0, 1 / 3⟩, ⟨0, 0, 2 / 3⟩, ⟨0, 0, 1⟩], []⟩,
   ⟨[⟨1, 0, 0⟩, ⟨1, 0, 1 / 3⟩, ⟨1, 0, 2 / 3⟩, ⟨1, 0, 1⟩], []⟩,
   ⟨[⟨200, 0, 0⟩, ⟨200, 0, 1 / 3⟩, ⟨200, 0, 2 / 3⟩, ⟨200, 0, 1⟩], []⟩]

/-- Three strands with per-strand segment counts 4, 3 and 3: the second strand is the
first four points of the first one shifted along x by 1, the third one is shifted by
200. -/
def sampleShort : CyHair :=
  ⟨[4, 3, 3], [0, 0, 0, 0, 1, 0, 0, 2, 0, 0, 3, 0, 0, 4, 0,
               1, 0, 0, 1, 1, 0, 1, 2, 0, 1, 3, 0,
               200, 0, 0, 200, 1, 0, 200, 2, 0, 200, 3, 0], 3, 0, 1 / 10, [0, 5, 9]⟩

/-- Three strands with per-strand segment counts 3, 4 and 3: the first strand has the
least x, the second one has one more point and is shifted along x by 1, the third one
is shifted by 200. -/
def sampleLong : CyHair :=
  ⟨[3, 4, 3], [0, 0, 0, 0, 1, 0, 0, 2, 0, 0, 3, 0,
               1, 0, 0, 1, 1, 0, 1, 2, 0, 1, 3, 0, 1, 4, 0,
               200, 0, 0, 200, 1, 0, 200, 2, 0, 200, 3, 0], 3, 0, 1 / 10, [0, 4, 9]⟩

/-- The three hairs that the strand loop builds from `sampleShort` with unit scale:
8, 4 and 4 control points. -/
def sampleShortHairs : List Hair :=
  [⟨[⟨0, 0, 0⟩, ⟨0, 0, 1 / 3⟩, ⟨0, 0, 2 / 3⟩, ⟨0, 0, 1⟩,
     ⟨0, 0, 1⟩, ⟨0, 0, 4 / 3⟩, ⟨0, 0, 5 / 3⟩, ⟨0, 0, 2⟩], []⟩,
   ⟨[⟨1, 0, 0⟩, ⟨1, 0, 1 / 3⟩, ⟨1, 0, 2 / 3⟩, ⟨1, 0, 1⟩], []⟩,
   ⟨[⟨200, 0, 0⟩, ⟨200, 0, 1 / 3⟩, ⟨200, 0, 2 / 3⟩, ⟨200, 0, 1⟩], []⟩]

/-- The three hairs that the strand loop builds from `sampleLong` with unit scale:
4, 8 and 4 control points. -/
def sampleLongHairs : List Hair :=
  [⟨[⟨0, 0, 0⟩, ⟨0, 0, 1 / 3⟩, ⟨0, 0, 2 / 3⟩, ⟨0, 0, 1⟩], []⟩,
   ⟨[⟨1, 0, 0⟩, ⟨1, 0, 1 / 3⟩, ⟨1, 0, 2 / 3⟩, ⟨1, 0, 1⟩,
     ⟨1, 0, 1⟩, ⟨1, 0, 4 / 3⟩, ⟨1, 0, 5 / 3⟩, ⟨1, 0, 2⟩], []⟩,
   ⟨[⟨200, 0, 0⟩, ⟨200, 0, 1 / 3⟩, ⟨200, 0, 2 / 3⟩, ⟨200, 0, 1⟩], []⟩]

/-- The pass that `lodPass` makes on `sampleShortHairs` with the cursor at 0 and
thickness 1. -/
def sampleShortPass : Pass :=
  { count := 0
    rootBounds := ⟨⟨0, 0, 0⟩, ⟨200, 0, 0⟩⟩
    axis := 0
    min_ind := 0
    cmp_hair := ⟨[⟨0, 0, 0⟩, ⟨0, 0, 1 / 3⟩, ⟨0, 0, 2 / 3⟩, ⟨0, 0, 1⟩,
      ⟨0, 0, 1⟩, ⟨0, 0, 4 / 3⟩, ⟨0, 0, 5 / 3⟩, ⟨0, 0, 2⟩], []⟩
    sorted := sampleShortHairs
    walked := 2
    hairs := sampleShortHairs
    nHairs := 2
    sums := ⟨[⟨1, 0, 0⟩, ⟨1, 0, 2 / 3⟩, ⟨1, 0, 4 / 3⟩, ⟨1, 0, 2⟩,
      ⟨0, 0, 1⟩, ⟨0, 0, 4 / 3⟩, ⟨0, 0, 5 / 3⟩, ⟨0, 0, 2⟩], [1, 1, 1, 1, 1, 1, 1, 1]⟩
    additions := [2, 2, 2, 2, 1, 1, 1, 1]
    accum := ⟨[⟨1 / 2, 0, 0⟩, ⟨1 / 2, 0, 1 / 3⟩, ⟨1 / 2, 0, 2 / 3⟩, ⟨1 / 2, 0, 1⟩,
      ⟨0, 0, 1⟩, ⟨0, 0, 4 / 3⟩, ⟨0, 0, 5 / 3⟩, ⟨0, 0, 2⟩], [1, 1, 1, 1, 1, 1, 1, 1]⟩ }

/-- Two strands with per-strand segment counts 3 and 4. The first strand starts at
x = 1 and joins the second one, which runs along y from the origin, at its second
point. -/
def sampleTie : CyHair :=
  ⟨[3, 4], [1, 0, 0, 0, 1, 0, 0, 2, 0, 0, 3, 0,
            0, 0, 0, 0, 1, 0, 0, 2, 0, 0, 3, 0, 0, 4, 0], 2, 0, 1 / 10, [0, 4]⟩

/-- Four strands of four points each along y: at the origin, at x = 3/5 and z = 4/5, at
x = 3/5 and z = -4/5, and at x = 200. -/
def sampleFan : CyHair :=
  ⟨[], [0, 0, 0, 0, 1, 0, 0, 2, 0, 0, 3, 0,
        3 / 5, 0, 4 / 5, 3 / 5, 1, 4 / 5, 3 / 5, 2, 4 / 5, 3 / 5, 3, 4 / 5,
        3 / 5, 0, -4 / 5, 3 / 5, 1, -4 / 5, 3 / 5, 2, -4 / 5, 3 / 5, 3, -4 / 5,
        200, 0, 0, 200, 1, 0, 200, 2, 0, 200, 3, 0], 4, 3, 1 / 10, [0, 4, 8, 12]⟩

/-- The two hairs that the strand loop builds from `sampleTie` with unit scale: 4
and 8 control points, with the same control point at index 3. -/
def sampleTieHairs : List Hair :=
  [⟨[⟨1, 0, 0⟩, ⟨1 / 2, 0, 1 / 3⟩, ⟨1 / 6, 0, 2 / 3⟩, ⟨0, 0, 1⟩], []⟩,
   ⟨[⟨0, 0, 0⟩, ⟨0, 0, 1 / 3⟩, ⟨0, 0, 2 / 3⟩, ⟨0, 0, 1⟩,
     ⟨0, 0, 1⟩, ⟨0, 0, 4 / 3⟩, ⟨0, 0, 5 / 3⟩, ⟨0, 0, 2⟩], []⟩]

/-- The four hairs that the strand loop builds from `sampleFan` with unit scale. -/
def sampleFanHairs : List Hair :=
  [⟨[⟨0, 0, 0⟩, ⟨0, 0, 1 / 3⟩, ⟨0, 0, 2 / 3⟩, ⟨0, 0, 1⟩], []⟩,
   ⟨[⟨3 / 5, 4 / 5, 0⟩, ⟨3 / 5, 4 / 5, 1 / 3⟩, ⟨3 / 5, 4 / 5, 2 / 3⟩, ⟨3 / 5, 4 / 5, 1⟩], []⟩,
   ⟨[⟨3 / 5, -4 / 5, 0⟩, ⟨3 / 5, -4 / 5, 1 / 3⟩, ⟨3 / 5, -4 / 5, 2 / 3⟩, ⟨3 / 5, -4 / 5, 1⟩],
     []⟩,
   ⟨[⟨200, 0, 0⟩, ⟨200, 0, 1 / 3⟩, ⟨200, 0, 2 / 3⟩, ⟨200, 0, 1⟩], []⟩]

/-- A file with one strand of four points, the flag for points only, 3 default
segments and default thickness 1/10. -/
def sampleFile : CyHairFile :=
  ⟨some ⟨"HAIR", 1, 4, 2, 3, 1 / 10⟩, [], [0, 0, 0, 0, 1, 0, 0, 2, 0, 0, 3, 0], [], [], []⟩

/-- A file with three strands of 4, 1 and 3 segments, the flags for segments and for
points, and the coordinates 0, 1, 2, ... -/
def sampleFileMixed : CyHairFile :=
  ⟨some ⟨"HAIR", 3, 11, 3, 0, 1 / 10⟩, [4, 1, 3], (List.range 33).map (fun n => (n : ℚ)),
    [], [], []⟩

/-- Library routines that keep the order on which the merge relies: the sort by sample
distance moves the pivot to the front and leaves the other hairs in their order, the
sort by size is an insertion sort. The square root is the one of `sampleLib`. -/
def orderedLib : Lib :=
  ⟨sampleLib.sqrt, fun c l => if c ∈ l then c :: l.erase c else l,
    fun l => l.insertionSort sizeLe⟩

/-- Two strands of four points each, 3 default segments. The first strand starts at
x = 5 and joins the second one, which runs along y from the origin, at its second
point. -/
def sampleFar : CyHair :=
  ⟨[], [5, 0, 0, 0, 1, 0, 0, 2, 0, 0, 3, 0,
        0, 0, 0, 0, 1, 0, 0, 2, 0, 0, 3, 0], 2, 3, 1 / 10, [0, 4]⟩

/-- The two hairs that the strand loop builds from `sampleFar` with unit scale: 4
control points each, with the same control point at index 3. -/
def sampleFarHairs : List Hair :=
  [⟨[⟨5, 0, 0⟩, ⟨5 / 2, 0, 1 / 3⟩, ⟨5 / 6, 0, 2 / 3⟩, ⟨0, 0, 1⟩], []⟩,
   ⟨[⟨0, 0, 0⟩, ⟨0, 0, 1 / 3⟩, ⟨0, 0, 2 / 3⟩, ⟨0, 0, 1⟩], []⟩]

/-- Four spline points. -/
def samplePoints : List real3 := [⟨0, 0, 0⟩, ⟨1, 2, 3⟩, ⟨2, 5, 4⟩, ⟨3, 7, 9⟩]

/-- The dataset `sampleMixed` with other coordinates for the final points of the
strands 0 and 2, the points 4 and 10 of the table. -/
def sampleMixedEnds : CyHair :=
  ⟨[4, 1, 3], [0, 1, 2, 3, 4, 5, 6, 7, 8, 9, 10, 11, -1, -1, -1, 15, 16, 17, 18, 19, 20, 21, 22,
    23, 24, 25, 26, 27, 28, 29, -1, -1, -1], 3, 0, 1 / 10, [0, 5, 7]⟩

/-! ## Basic facts -/

@[ext]
theorem real3.ext3 {p q : real3} (hx : p.x = q.x) (hy : p.y = q.y) (hz : p.z = q.z) :
    p = q := by
  cases p; cases q; simp_all

@[simp]
theorem real3.add_x (p q : real3) : (p + q).x = p.x + q.x := rfl
@[simp]
theorem real3.add_y (p q : real3) : (p + q).y = p.y + q.y := rfl
@[simp]
theorem real3.add_z (p q : real3) : (p + q).z = p.z + q.z := rfl
@[simp]
theorem real3.sub_x (p q : real3) : (p - q).x = p.x - q.x := rfl
@[simp]
theorem real3.sub_y (p q : real3) : (p - q).y = p.y - q.y := rfl
@[simp]
theorem real3.sub_z (p q : real3) : (p - q).z = p.z - q.z := rfl
@[simp]
theorem real3.mul_x (p q : real3) : (p * q).x = p.x * q.x := rfl
@[simp]
theorem real3.mul_y (p q : real3) : (p * q).y = p.y * q.y := rfl
@[simp]
theorem real3.mul_z (p q : real3) : (p * q).z = p.z * q.z := rfl

theorem at?_eq_ok {α : Type} {v : List α} {i : Nat} (h : i < v.length) :
    at? v i = .ok (v.get ⟨i, h⟩) := by
  simp [at?, List.getElem?_eq_getElem h]

theorem at?_ok_iff {α : Type} {v : List α} {i : Nat} {a : α} :
    at? v i = .ok a ↔ v[i]? = some a := by
  unfold at?
  cases h : v[i]? <;> simp

theorem atInt?_natCast {α : Type} (v : List α) (i : Nat) : atInt? v (i : Int) = at? v i := by
  simp [atInt?]

/-! ## The basis matrices and `CamullRomToCubicBezier` -/

/-- Claim C5. In each of the tables `toC2B`, `toC2B0` and `toC2B1` the four weights of
every row sum to exactly 1 as rationals, column 0 of `toC2B0` is zero in every row and
column 3 of `toC2B1` is zero in every row (the columns that multiply the zero phantom
point). -/
theorem basis_rows_sum_to_one :
    (∀ i : Fin 4, toC2B i 0 + toC2B i 1 + toC2B i 2 + toC2B i 3 = 1) ∧
    (∀ i : Fin 4, toC2B0 i 0 + toC2B0 i 1 + toC2B0 i 2 + toC2B0 i 3 = 1) ∧
    (∀ i : Fin 4, toC2B1 i 0 + toC2B1 i 1 + toC2B1 i 2 + toC2B1 i 3 = 1) ∧
    (∀ i : Fin 4, toC2B0 i 0 = 0) ∧ (∀ i : Fin 4, toC2B1 i 3 = 0) := by
  refine ⟨?_, ?_, ?_, ?_, ?_⟩ <;> intro i <;> fin_cases i <;> norm_num [toC2B, toC2B0, toC2B1]

/-- Claim C3. For all points `P0` and `P1`, `CamullRomToCubicBezier` called with
`cps = [P0, P1]`, `cps_size = 2` and `seg_idx = 0` returns exactly
`[P0, P0 + (P1 - P0) / 3, P0 + 2 (P1 - P0) / 3, P1]` in exact arithmetic, and the
result is the same whatever tables stand in for the three basis matrices: the
two-point branch does not use them. -/
theorem camullRom_two_points (B0 B1 B : Fin 4 → Fin 4 → ℚ) (P0 P1 : real3) :
    CamullRomToCubicBezier [P0, P1] 2 0 = .ok ![P0,
      ⟨P0.x + (P1.x - P0.x) / 3, P0.y + (P1.y - P0.y) / 3, P0.z + (P1.z - P0.z) / 3⟩,
      ⟨P0.x + 2 * (P1.x - P0.x) / 3, P0.y + 2 * (P1.y - P0.y) / 3,
        P0.z + 2 * (P1.z - P0.z) / 3⟩,
      P1] ∧
    CamullRomWith B0 B1 B [P0, P1] 2 0 = CamullRomToCubicBezier [P0, P1] 2 0 := by
  constructor
  · simp only [CamullRomToCubicBezier, CamullRomWith, if_true]
    show Except.ok _ = Except.ok _
    congr 1
    funext i
    fin_cases i
    · rfl
    · ext <;> simp [real3.divf, real3.splat] <;> ring
    · ext <;> simp [real3.divf, real3.splat] <;> ring
    · rfl
  · rfl


theorem atInt?_ok {α : Type} (v : List α) (i : Int) (h0 : 0 ≤ i) (h1 : i < v.length) :
    ∃ a, atInt? v i = .ok a := by
  have h2 : i.toNat < v.length := by omega
  exact ⟨v.get ⟨i.toNat, h2⟩, by simp [atInt?, h0, at?_eq_ok h2]⟩

theorem camull_first (cps : List real3) (sz : Int) (b c e : real3) (h2 : sz ≠ 2)
    (hb : atInt? cps 0 = .ok b) (hc : atInt? cps 1 = .ok c) (he : atInt? cps 2 = .ok e) :
    CamullRomToCubicBezier cps sz 0 = .ok (mul_matrix toC2B0 ![real3.splat 0, b, c, e]) := by
  unfold CamullRomToCubicBezier CamullRomWith
  rw [if_neg h2, if_pos rfl]
  simp only [zero_add, add_zero]
  rw [hb, hc, he]
  rfl

theorem camull_last (cps : List real3) (sz s : Int) (a b c : real3) (h2 : sz ≠ 2) (h0 : s ≠ 0)
    (hs : s = sz - 2)
    (ha : atInt? cps (s - 1) = .ok a) (hb : atInt? cps s = .ok b)
    (hc : atInt? cps (s + 1) = .ok c) :
    CamullRomToCubicBezier cps sz s = .ok (mul_matrix toC2B1 ![a, b, c, real3.splat 0]) := by
  unfold CamullRomToCubicBezier CamullRomWith
  rw [if_neg h2, if_neg h0, if_pos hs]
  simp only [add_zero]
  rw [ha, hb, hc]
  rfl

theorem camull_mid (cps : List real3) (sz s : Int) (a b c e : real3) (h2 : sz ≠ 2) (h0 : s ≠ 0)
    (hs : s ≠ sz - 2)
    (ha : atInt? cps (s - 1) = .ok a) (hb : atInt? cps s = .ok b)
    (hc : atInt? cps (s + 1) = .ok c) (he : atInt? cps (s + 2) = .ok e) :
    CamullRomToCubicBezier cps sz s = .ok (mul_matrix toC2B ![a, b, c, e]) := by
  unfold CamullRomToCubicBezier CamullRomWith
  rw [if_neg h2, if_neg h0, if_neg hs]
  simp only [add_zero]
  rw [ha, hb, hc, he]
  rfl

theorem mul_matrix_join (a b c e f : real3) :
    (mul_matrix toC2B0 ![real3.splat 0, b, c, e] 3 = mul_matrix toC2B1 ![b, c, e, real3.splat 0] 0 ∧
     mul_matrix toC2B0 ![real3.splat 0, b, c, e] 3 - mul_matrix toC2B0 ![real3.splat 0, b, c, e] 2 =
      mul_matrix toC2B1 ![b, c, e, real3.splat 0] 1 - mul_matrix toC2B1 ![b, c, e, real3.splat 0] 0) ∧
    (mul_matrix toC2B0 ![real3.splat 0, b, c, e] 3 = mul_matrix toC2B ![b, c, e, f] 0 ∧
     mul_matrix toC2B0 ![real3.splat 0, b, c, e] 3 - mul_matrix toC2B0 ![real3.splat 0, b, c, e] 2 =
      mul_matrix toC2B ![b, c, e, f] 1 - mul_matrix toC2B ![b, c, e, f] 0) ∧
    (mul_matrix toC2B ![a, b, c, e] 3 = mul_matrix toC2B1 ![b, c, e, real3.splat 0] 0 ∧
     mul_matrix toC2B ![a, b, c, e] 3 - mul_matrix toC2B ![a, b, c, e] 2 =
      mul_matrix toC2B1 ![b, c, e, real3.splat 0] 1 - mul_matrix toC2B1 ![b, c, e, real3.splat 0] 0) ∧
    (mul_matrix toC2B ![a, b, c, e] 3 = mul_matrix toC2B ![b, c, e, f] 0 ∧
     mul_matrix toC2B ![a, b, c, e] 3 - mul_matrix toC2B ![a, b, c, e] 2 =
      mul_matrix toC2B ![b, c, e, f] 1 - mul_matrix toC2B ![b, c, e, f] 0) := by
  refine ⟨⟨?_, ?_⟩, ⟨?_, ?_⟩, ⟨?_, ?_⟩, ⟨?_, ?_⟩⟩ <;> ext <;>
    simp [mul_matrix, toC2B, toC2B0, toC2B1, real3.fmul, real3.splat, Matrix.vecHead,
      Matrix.vecTail] <;> ring

/-- Claim C4. For a control-point array of size `sz ≥ 3` and adjacent segment indices
`s` and `s + 1` with `0 ≤ s` and `s + 1 ≤ sz - 2`, both calls of
`CamullRomToCubicBezier` return a group, and the groups `Q` of `s` and `Q'` of `s + 1`
join with C1 continuity in exact arithmetic: `Q[3] = Q'[0]` and
`Q[3] - Q[2] = Q'[1] - Q'[0]`. The joins with the leading and with the trailing
boundary matrix are included. -/
theorem camullRom_adjacent_join (cps : List real3) (sz s : Int) (hlen : (cps.length : Int) = sz)
    (hsz : 3 ≤ sz) (hs : 0 ≤ s) (hs1 : s + 1 ≤ sz - 2) :
    ∃ Q Q', CamullRomToCubicBezier cps sz s = .ok Q ∧
      CamullRomToCubicBezier cps sz (s + 1) = .ok Q' ∧
      Q 3 = Q' 0 ∧ Q 3 - Q 2 = Q' 1 - Q' 0 := by
  obtain ⟨b, hb⟩ := atInt?_ok cps s hs (by omega)
  obtain ⟨c, hc⟩ := atInt?_ok cps (s + 1) (by omega) (by omega)
  obtain ⟨e, he⟩ := atInt?_ok cps (s + 2) (by omega) (by omega)
  have hz2 : sz ≠ 2 := by omega
  have hs0 : s + 1 ≠ 0 := by omega
  have hsl : s ≠ sz - 2 := by omega
  have hb' : atInt? cps (s + 1 - 1) = .ok b := by rw [show s + 1 - 1 = s by omega]; exact hb
  have he' : atInt? cps (s + 1 + 1) = .ok e := by rw [show s + 1 + 1 = s + 2 by omega]; exact he
  by_cases h0 : s = 0
  · subst h0
    simp only [zero_add] at hb hc he
    by_cases h1 : (0 : Int) + 1 = sz - 2
    · exact ⟨_, _, camull_first cps sz b c e hz2 hb hc he,
        camull_last cps sz (0 + 1) b c e hz2 hs0 h1 hb' hc he', (mul_matrix_join b b c e b).1⟩
    · obtain ⟨f, hf⟩ := atInt?_ok cps (0 + 1 + 2) (by omega) (by omega)
      exact ⟨_, _, camull_first cps sz b c e hz2 hb hc he,
        camull_mid cps sz (0 + 1) b c e f hz2 hs0 h1 hb' hc he' hf, (mul_matrix_join b b c e f).2.1⟩
  · obtain ⟨a, ha⟩ := atInt?_ok cps (s - 1) (by omega) (by omega)
    by_cases h1 : s + 1 = sz - 2
    · exact ⟨_, _, camull_mid cps sz s a b c e hz2 h0 hsl ha hb hc he,
        camull_last cps sz (s + 1) b c e hz2 hs0 h1 hb' hc he', (mul_matrix_join a b c e b).2.2.1⟩
    · obtain ⟨f, hf⟩ := atInt?_ok cps (s + 1 + 2) (by omega) (by omega)
      exact ⟨_, _, camull_mid cps sz s a b c e hz2 h0 hsl ha hb hc he,
        camull_mid cps sz (s + 1) b c e f hz2 hs0 h1 hb' hc he' hf, (mul_matrix_join a b c e f).2.2.2⟩

/-! ## The conversion with LOD off in closed form -/

theorem ok_bind {α β : Type} (a : α) (f : α → Run β) : (Except.ok a >>= f) = f a := rfl

theorem error_bind {α β : Type} (e : Fault) (f : α → Run β) :
    ((Except.error e : Run α) >>= f) = Except.error e := rfl

theorem foldlM_fuse {σ β γ : Type} (f : β → Run γ) (g : σ → γ → σ) (l : List β) (s : σ) :
    l.foldlM (fun s b => do let c ← f b; pure (g s c)) s =
      (do let cs ← l.mapM f; pure (cs.foldl g s)) := by
  induction l generalizing s with
  | nil => rfl
  | cons b l ih =>
    rw [List.foldlM_cons, List.mapM_cons]
    cases hb : f b with
    | error e => rfl
    | ok c =>
      simp only [ok_bind, bind_assoc]
      show List.foldlM _ (g s c) l = _
      rw [ih]
      cases List.mapM f l <;> rfl

theorem curveStep_noLod (sc tr : Fin 3 → ℚ) (th : ℚ) (d : CyHair) (lod : Int) (hl : lod ≤ 0)
    (pts : List real3) (m : Int) (i : Nat) (σ : ConvState) (s : Int) :
    curveStep sc tr th d.default_thickness_ lod pts m i σ s =
      (do let q ← CamullRomToCubicBezier pts m (s - 1)
          pure (emitCurve sc tr (curveRadius d th) σ q)) := by
  unfold curveStep
  dsimp only
  cases CamullRomToCubicBezier pts m (s - 1) with
  | error e => rfl
  | ok q =>
    simp only [ok_bind, if_pos hl, emitCurve, curveRadius, curveFloats]
    split <;> rfl

theorem strandStep_noLod (d : CyHair) (sc tr : Fin 3 → ℚ) (th : ℚ) (lod : Int) (hl : lod ≤ 0)
    (σ : ConvState) (i : Nat) :
    strandStep d sc tr th lod σ i =
      (do let qs ← strandCurves d i
          pure (qs.foldl (emitCurve sc tr (curveRadius d th)) σ)) := by
  unfold strandStep strandCurves
  cases numSegments d i with
  | error e => rfl
  | ok m =>
    simp only [ok_bind]
    split
    · rfl
    · cases readStrand d i m with
      | error e => rfl
      | ok pts =>
        simp only [ok_bind]
        simp only [curveStep_noLod sc tr th d lod hl]
        exact foldlM_fuse _ _ _ _

theorem mapM_ok_iff {α β : Type} (f : α → Run β) (l : List α) (bs : List β) :
    l.mapM f = .ok bs ↔ List.Forall₂ (fun a b => f a = .ok b) l bs := by
  induction l generalizing bs with
  | nil =>
    rw [List.mapM_nil]
    constructor
    · intro h
      cases h
      exact List.Forall₂.nil
    · intro h
      cases h
      rfl
  | cons a l ih =>
    rw [List.mapM_cons]
    cases ha : f a with
    | error e =>
      constructor
      · intro h
        cases h
      · intro h
        cases h with
        | cons h1 _ => rw [ha] at h1; cases h1
    | ok b =>
      rw [ok_bind]
      cases hl : List.mapM f l with
      | error e =>
        constructor
        · intro h
          cases h
        · intro h
          cases h with
          | cons h1 h2 =>
            rw [← ih] at h2
            rw [hl] at h2
            cases h2
      | ok bs' =>
        rw [ok_bind]
        constructor
        · intro h
          cases h
          exact List.Forall₂.cons ha ((ih bs').1 hl)
        · intro h
          cases h with
          | cons h1 h2 =>
            rw [ha] at h1
            cases h1
            rw [← ih, hl] at h2
            cases h2
            rfl

theorem mapM_ok_length {α β : Type} {f : α → Run β} {l : List α} {bs : List β}
    (h : l.mapM f = .ok bs) : bs.length = l.length :=
  ((mapM_ok_iff f l bs).1 h).length_eq.symm

theorem mapM_ok_of_forall {α β : Type} {f : α → Run β} {l : List α}
    (h : ∀ a ∈ l, ∃ b, f a = .ok b) : ∃ bs, l.mapM f = .ok bs := by
  induction l with
  | nil => exact ⟨[], rfl⟩
  | cons a l ih =>
    obtain ⟨b, hb⟩ := h a (List.mem_cons_self _ _)
    obtain ⟨bs, hbs⟩ := ih (fun x hx => h x (List.mem_cons_of_mem _ hx))
    exact ⟨b :: bs, by rw [List.mapM_cons, hb, ok_bind, hbs]; rfl⟩

theorem mapM_ok_getElem {α β : Type} {f : α → Run β} {l : List α} {bs : List β}
    (h : l.mapM f = .ok bs) (i : Nat) (hi : i < l.length) :
    ∃ hb : i < bs.length, f (l.get ⟨i, hi⟩) = .ok (bs.get ⟨i, hb⟩) := by
  have hf := (mapM_ok_iff f l bs).1 h
  have hlen := hf.length_eq
  refine ⟨by omega, ?_⟩
  exact (List.forall₂_iff_get.1 hf).2 i hi (by omega)

theorem foldl_emitCurve (sc tr : Fin 3 → ℚ) (r : ℚ) (qs : List (Fin 4 → real3)) (σ : ConvState) :
    qs.foldl (emitCurve sc tr r) σ =
      ⟨σ.vertices ++ qs.flatMap (fun q => curveFloats (fun j => scaleTranslate sc tr (q j))),
       σ.radiuss ++ qs.flatMap (fun _ => [r, r, r, r]), σ.hairs⟩ := by
  induction qs generalizing σ with
  | nil => simp
  | cons q qs ih =>
    rw [List.foldl_cons, ih]
    simp [emitCurve, List.flatMap_cons]

theorem foldl_foldl_flatten {σ γ : Type} (g : σ → γ → σ) (ls : List (List γ)) (s : σ) :
    ls.foldl (fun s qs => qs.foldl g s) s = ls.flatten.foldl g s := by
  induction ls generalizing s with
  | nil => rfl
  | cons a ls ih => simp [ih]

theorem strandLoop_noLod (d : CyHair) (sc tr : Fin 3 → ℚ) (th : ℚ) (lod : Int) (hl : lod ≤ 0)
    (l : List Nat) (σ : ConvState) :
    l.foldlM (strandStep d sc tr th lod) σ =
      (do let qss ← l.mapM (strandCurves d)
          pure (qss.flatten.foldl (emitCurve sc tr (curveRadius d th)) σ)) := by
  have h : strandStep d sc tr th lod = fun σ i =>
      (do let qs ← strandCurves d i
          pure (qs.foldl (emitCurve sc tr (curveRadius d th)) σ)) := by
    funext σ i
    exact strandStep_noLod d sc tr th lod hl σ i
  rw [h, foldlM_fuse]
  cases List.mapM (strandCurves d) l with
  | error e => rfl
  | ok qss =>
    simp only [ok_bind]
    rw [foldl_foldl_flatten]

/-- The output of the conversion when LOD is off, in closed form. -/
theorem toCubic_noLod (L : Lib) (d : CyHair) (v r : List ℚ) (sc tr : Fin 3 → ℚ) (ms : Int)
    (th : ℚ) (lod : Int) (hl : lod ≤ 0)
    (hg : (d.points_.isEmpty || d.strand_offsets_.isEmpty) = false)
    (hn : 0 ≤ effStrands d ms) :
    ToCubicBezierCurves L d v r sc tr ms th lod =
      (do let qss ← (List.range (effStrands d ms).toNat).mapM (strandCurves d)
          pure (true,
            qss.flatten.flatMap (fun q => curveFloats (fun j => scaleTranslate sc tr (q j))),
            qss.flatten.flatMap (fun _ => [curveRadius d th, curveRadius d th, curveRadius d th,
              curveRadius d th]))) := by
  unfold ToCubicBezierCurves
  rw [hg]
  simp only [Bool.false_eq_true, if_false]
  rw [if_neg (by omega), strandLoop_noLod d sc tr th lod hl]
  cases List.mapM (strandCurves d) (List.range (effStrands d ms).toNat) with
  | error e => rfl
  | ok qss =>
    simp only [ok_bind, foldl_emitCurve, if_neg (show ¬ lod > 0 by omega)]
    simp

/-! ## The Bezier groups of one strand -/

theorem numSegments_ok {d : CyHair} {i : Nat} {m : Int} (h : numSegments d i = .ok m) :
    m = segCount d i := by
  unfold numSegments at h
  unfold segCount
  by_cases he : d.segments_.isEmpty = true
  · rw [if_pos he] at h ⊢
    cases h
    rfl
  · rw [if_neg he] at h ⊢
    cases hs : at? d.segments_ i with
    | error e => rw [hs] at h; cases h
    | ok s =>
      rw [hs] at h
      cases h
      rw [at?_ok_iff] at hs
      rw [List.getD_eq_getElem?_getD, hs]
      rfl

theorem numSegments_of_readable {d : CyHair} {i : Nat} (h : StrandReadable d i) :
    numSegments d i = .ok (segCount d i) := by
  unfold numSegments segCount
  by_cases he : d.segments_.isEmpty = true
  · rw [if_pos he, if_pos he]
    rfl
  · rw [if_neg he, if_neg he]
    have hi : i < d.segments_.length := h.1 (by simpa using he)
    rw [at?_eq_ok hi, List.getD_eq_getElem _ _ hi]
    rfl

theorem strandCurves_length {d : CyHair} {i : Nat} {qs : List (Fin 4 → real3)}
    (h : strandCurves d i = .ok qs) : qs.length = (segCount d i - 2).toNat := by
  unfold strandCurves at h
  cases hm : numSegments d i with
  | error e => rw [hm] at h; cases h
  | ok m =>
    have hseg := numSegments_ok hm
    rw [hm, ok_bind] at h
    by_cases h2 : m < 2
    · rw [if_pos h2] at h
      cases h
      have : (segCount d i - 2).toNat = 0 := by omega
      rw [this]
      rfl
    · rw [if_neg h2] at h
      cases hp : readStrand d i m with
      | error e => rw [hp] at h; cases h
      | ok pts =>
        rw [hp, ok_bind] at h
        rw [mapM_ok_length h, List.length_range, hseg]

theorem readPoint_ok {d : CyHair} {i k : Nat} (hi : i < d.strand_offsets_.length)
    (hk : 3 * (d.strand_offsets_.getD i 0 + k) + 2 < d.points_.length) :
    ∃ p, readPoint d i k = .ok p := by
  unfold readPoint
  rw [at?_eq_ok hi, ok_bind]
  have ho : d.strand_offsets_.get ⟨i, hi⟩ = d.strand_offsets_.getD i 0 := by
    rw [List.getD_eq_getElem _ _ hi]
    rfl
  rw [ho]
  rw [at?_eq_ok (show 3 * (d.strand_offsets_.getD i 0 + k) + 0 < d.points_.length by omega),
    ok_bind, at?_eq_ok hk, ok_bind,
    at?_eq_ok (show 3 * (d.strand_offsets_.getD i 0 + k) + 1 < d.points_.length by omega), ok_bind]
  exact ⟨_, rfl⟩

theorem readStrand_ok {d : CyHair} {i : Nat} (h : StrandReadable d i) (h2 : 2 ≤ segCount d i) :
    ∃ pts, readStrand d i (segCount d i) = .ok pts ∧ pts.length = (segCount d i).toNat := by
  obtain ⟨hi, hp⟩ := h.2 h2
  have hex : ∃ pts, readStrand d i (segCount d i) = .ok pts := by
    unfold readStrand
    apply mapM_ok_of_forall
    intro k hk
    rw [List.mem_range] at hk
    exact readPoint_ok hi (by omega)
  obtain ⟨pts, hpts⟩ := hex
  refine ⟨pts, hpts, ?_⟩
  unfold readStrand at hpts
  rw [mapM_ok_length hpts, List.length_range]

/-- The Bezier group that the loop over `s` computes in pass `j` (so `s = j + 1` and
`seg_idx = j`) from the points `pts`: the leading boundary matrix for `j = 0`, the
general matrix for every later `j`. -/
theorem camull_in_loop (pts : List real3) (m : Int) (j : Nat) (hlen : pts.length = m.toNat)
    (hj : (j : Int) < m - 2) :
    ∃ q, CamullRomToCubicBezier pts m ((j : Int) + 1 - 1) = .ok q ∧
      (j = 0 → ∃ b c e, pts[0]? = some b ∧ pts[1]? = some c ∧ pts[2]? = some e ∧
        q = mul_matrix toC2B0 ![real3.splat 0, b, c, e]) ∧
      (j ≠ 0 → ∃ a b c e, pts[j - 1]? = some a ∧ pts[j]? = some b ∧ pts[j + 1]? = some c ∧
        pts[j + 2]? = some e ∧ q = mul_matrix toC2B ![a, b, c, e]) := by
  have hz2 : m ≠ 2 := by omega
  rw [show (j : Int) + 1 - 1 = (j : Int) by omega]
  have get : ∀ n : Nat, n < pts.length →
      atInt? pts (n : Int) = .ok (pts.getD n real3.zero) ∧ pts[n]? = some (pts.getD n real3.zero) := by
    intro n hn
    rw [atInt?_natCast, at?_eq_ok hn, List.getD_eq_getElem _ _ hn, List.getElem?_eq_getElem hn]
    exact ⟨rfl, rfl⟩
  by_cases h0 : j = 0
  · subst h0
    obtain ⟨hb, hb'⟩ := get 0 (by omega)
    obtain ⟨hc, hc'⟩ := get 1 (by omega)
    obtain ⟨he, he'⟩ := get 2 (by omega)
    refine ⟨_, camull_first pts m _ _ _ hz2 hb hc he, fun _ => ⟨_, _, _, hb', hc', he', rfl⟩,
      fun h => absurd rfl h⟩
  · obtain ⟨ha, ha'⟩ := get (j - 1) (by omega)
    obtain ⟨hb, hb'⟩ := get j (by omega)
    obtain ⟨hc, hc'⟩ := get (j + 1) (by omega)
    obtain ⟨he, he'⟩ := get (j + 2) (by omega)
    have ha2 : atInt? pts ((j : Int) - 1) = .ok (pts.getD (j - 1) real3.zero) := by
      rw [show (j : Int) - 1 = ((j - 1 : Nat) : Int) by omega]
      exact ha
    refine ⟨_, camull_mid pts m j _ _ _ _ hz2 (by omega) (by omega) ha2 hb
        (by exact_mod_cast hc) (by exact_mod_cast he),
      fun h => absurd h h0, fun _ => ⟨_, _, _, _, ha', hb', hc', he', rfl⟩⟩

theorem strandCurves_of_readable {d : CyHair} {i : Nat} (h : StrandReadable d i) :
    ∃ qs, strandCurves d i = .ok qs := by
  unfold strandCurves
  rw [numSegments_of_readable h, ok_bind]
  by_cases h2 : segCount d i < 2
  · rw [if_pos h2]
    exact ⟨[], rfl⟩
  · rw [if_neg h2]
    obtain ⟨pts, hpts, hlen⟩ := readStrand_ok h (by omega)
    rw [hpts, ok_bind]
    apply mapM_ok_of_forall
    intro j hj
    rw [List.mem_range] at hj
    obtain ⟨q, hq, _⟩ := camull_in_loop pts (segCount d i) j hlen (by omega)
    exact ⟨q, hq⟩

theorem mapM_strandCurves_ok {d : CyHair} {n : Nat} (h : ∀ i, i < n → StrandReadable d i) :
    ∃ qss, (List.range n).mapM (strandCurves d) = .ok qss := by
  apply mapM_ok_of_forall
  intro i hi
  exact strandCurves_of_readable (h i (List.mem_range.1 hi))

theorem mapM_strandCurves_lengths {d : CyHair} {n : Nat} {qss : List (List (Fin 4 → real3))}
    (h : (List.range n).mapM (strandCurves d) = .ok qss) :
    qss.map List.length = (List.range n).map (fun i => (segCount d i - 2).toNat) := by
  have hlen : qss.length = n := by rw [mapM_ok_length h, List.length_range]
  apply List.ext_getElem
  · simp [hlen]
  · intro i h1 h2
    have hi : i < (List.range n).length := by simpa using h2
    obtain ⟨hb, hq⟩ := mapM_ok_getElem h i hi
    have := strandCurves_length hq
    simp only [List.get_eq_getElem, List.getElem_range] at this
    simp [this]

theorem length_flatMap_const {α β : Type} (l : List α) (f : α → List β) (c : Nat)
    (h : ∀ a, (f a).length = c) : (l.flatMap f).length = c * l.length := by
  induction l with
  | nil => simp
  | cons a l ih => simp [List.flatMap_cons, ih, h, Nat.mul_succ, Nat.add_comm]

theorem flatMap_const_eq_replicate {α β : Type} (l : List α) (b : β) :
    l.flatMap (fun _ => [b, b, b, b]) = List.replicate (4 * l.length) b := by
  induction l with
  | nil => simp
  | cons a l ih =>
    rw [List.flatMap_cons, ih, List.length_cons, Nat.mul_succ, Nat.add_comm _ 4,
      List.replicate_add]
    rfl

/-! ## Curve count and radii with LOD off -/

/-- Claim C1. With LOD off (`lod_level ≤ 0`), for a dataset with non-empty tables
whose converted strands are readable, `ToCubicBezierCurves` returns true; the strand
`i` of `n = num_segments + 1` points contributes exactly `n - 3` Bezier groups when
`n ≥ 3` and none when `n < 3`, the vertices are the groups of the strands in strand
order, and the number of emitted curves `radiuss.size() / 4 = vertices.size() / 12` is
the sum over the converted strands of `max(0, num_segments - 2)`. -/
theorem curve_count_noLod (L : Lib) (d : CyHair) (v0 r0 : List ℚ) (sc tr : Fin 3 → ℚ)
    (ms : Int) (th : ℚ) (lod : Int) (hl : lod ≤ 0) (hc : Convertible d ms) :
    ∃ v r qss, ToCubicBezierCurves L d v0 r0 sc tr ms th lod = .ok (true, v, r) ∧
      (List.range (effStrands d ms).toNat).mapM (strandCurves d) = .ok qss ∧
      qss.length = (effStrands d ms).toNat ∧
      v = (qss.map (fun qs => qs.flatMap (affineFloats sc tr))).flatten ∧
      (∀ i (hi : i < qss.length), (qss.get ⟨i, hi⟩).length =
        if 3 ≤ segCount d i + 1 then (segCount d i + 1 - 3).toNat else 0) ∧
      v.length = 12 * qss.flatten.length ∧ r.length = 4 * qss.flatten.length ∧
      r.length / 4 = v.length / 12 ∧
      r.length / 4 =
        ((List.range (effStrands d ms).toNat).map (fun i => (segCount d i - 2).toNat)).sum := by
  obtain ⟨hg, hn, hr⟩ := hc
  obtain ⟨qss, hqss⟩ := mapM_strandCurves_ok hr
  clear hr
  have hv : (qss.flatten.flatMap
      (fun q => curveFloats (fun j => scaleTranslate sc tr (q j)))).length =
      12 * qss.flatten.length := length_flatMap_const _ _ 12 (fun _ => rfl)
  have hrl : (qss.flatten.flatMap
      (fun _ => [curveRadius d th, curveRadius d th, curveRadius d th, curveRadius d th])).length =
      4 * qss.flatten.length := length_flatMap_const _ _ 4 (fun _ => rfl)
  have hlen : qss.length = (effStrands d ms).toNat := by
    rw [mapM_ok_length hqss, List.length_range]
  refine ⟨_, _, qss, ?_, hqss, hlen, ?_, ?_, hv, hrl, ?_, ?_⟩
  · rw [toCubic_noLod L d v0 r0 sc tr ms th lod hl hg hn, hqss]
    rfl
  · clear hv hrl hqss hlen
    induction qss with
    | nil => rfl
    | cons qs qss ih =>
      rw [List.flatten_cons, List.flatMap_append, List.map_cons, List.flatten_cons, ih]
      rfl
  · intro i hi
    obtain ⟨hb, hq⟩ := mapM_ok_getElem hqss i (by simpa [hlen] using hi)
    have := strandCurves_length hq
    simp only [List.get_eq_getElem, List.getElem_range] at this
    rw [List.get_eq_getElem, this]
    clear hv hrl
    split <;> omega
  · rw [hv, hrl]
    clear hv hrl
    omega
  · rw [hrl, List.length_flatten, mapM_strandCurves_lengths hqss]
    clear hv hrl
    omega

/-- Claim C7. With LOD off, for a dataset with non-empty tables whose converted
strands are readable, `ToCubicBezierCurves` returns true and every emitted radius is
`user_thickness` when `user_thickness > 0` and `default_thickness_` otherwise; the
four radii of each curve are equal. -/
theorem radius_noLod (L : Lib) (d : CyHair) (v0 r0 : List ℚ) (sc tr : Fin 3 → ℚ)
    (ms : Int) (th : ℚ) (lod : Int) (hl : lod ≤ 0) (hc : Convertible d ms) :
    ∃ v r, ToCubicBezierCurves L d v0 r0 sc tr ms th lod = .ok (true, v, r) ∧
      (0 < th → ∀ ρ ∈ r, ρ = th) ∧
      (¬ 0 < th → ∀ ρ ∈ r, ρ = d.default_thickness_) ∧
      (∀ c k, k < 4 → r[4 * c + k]? = r[4 * c]?) := by
  obtain ⟨hg, hn, hr⟩ := hc
  obtain ⟨qss, hqss⟩ := mapM_strandCurves_ok hr
  have hrun := toCubic_noLod L d v0 r0 sc tr ms th lod hl hg hn
  rw [hqss, ok_bind, flatMap_const_eq_replicate] at hrun
  refine ⟨_, _, hrun, ?_, ?_, ?_⟩
  · intro hth ρ hρ
    rw [List.eq_of_mem_replicate hρ, curveRadius, if_pos hth]
  · intro hth ρ hρ
    rw [List.eq_of_mem_replicate hρ, curveRadius, if_neg hth]
  · intro c k hk
    by_cases hin : 4 * c < 4 * qss.flatten.length
    · rw [List.getElem?_eq_getElem (by rw [List.length_replicate]; omega),
        List.getElem?_eq_getElem (by rw [List.length_replicate]; omega)]
      simp
    · rw [List.getElem?_eq_none (by rw [List.length_replicate]; omega),
        List.getElem?_eq_none (by rw [List.length_replicate]; omega)]

/-! ## Scale and translation -/

theorem readPoint_ok_eq {d : CyHair} {i k : Nat} {p : real3} (h : readPoint d i k = .ok p) :
    p = ⟨d.points_.getD (3 * (d.strand_offsets_.getD i 0 + k)) 0,
         d.points_.getD (3 * (d.strand_offsets_.getD i 0 + k) + 2) 0,
         d.points_.getD (3 * (d.strand_offsets_.getD i 0 + k) + 1) 0⟩ := by
  unfold readPoint at h
  cases ho : at? d.strand_offsets_ i with
  | error e => rw [ho] at h; cases h
  | ok off =>
    rw [ho, ok_bind] at h
    cases hx : at? d.points_ (3 * (off + k) + 0) with
    | error e => rw [hx] at h; cases h
    | ok px =>
      rw [hx, ok_bind] at h
      cases hy : at? d.points_ (3 * (off + k) + 2) with
      | error e => rw [hy] at h; cases h
      | ok py =>
        rw [hy, ok_bind] at h
        cases hz : at? d.points_ (3 * (off + k) + 1) with
        | error e => rw [hz] at h; cases h
        | ok pz =>
          rw [hz, ok_bind] at h
          cases h
          rw [at?_ok_iff] at ho hx hy hz
          simp only [List.getD_eq_getElem?_getD, ho, Option.getD_some]
          rw [Nat.add_zero] at hx
          rw [hx, hy, hz]
          rfl

theorem readStrand_eq_swapped {d : CyHair} {i : Nat} {pts : List real3}
    (h : readStrand d i (segCount d i) = .ok pts) : pts = swappedPoints d i := by
  unfold readStrand at h
  have hlen := mapM_ok_length h
  rw [List.length_range] at hlen
  apply List.ext_getElem
  · simp [swappedPoints, hlen]
  · intro k h1 h2
    obtain ⟨hb, hq⟩ := mapM_ok_getElem h k (by simpa [hlen] using h1)
    have := readPoint_ok_eq hq
    simp only [List.get_eq_getElem, List.getElem_range] at this
    simp only [swappedPoints, List.getElem_map, List.getElem_range]
    exact this

/-- Every group of strand `i` is the result of `CamullRomToCubicBezier` on the points
of the strand with the coordinates exchanged. -/
theorem strandCurves_spec {d : CyHair} {i : Nat} {qs : List (Fin 4 → real3)}
    (h : strandCurves d i = .ok qs) (j : Nat) (hj : j < qs.length) :
    CamullRomToCubicBezier (swappedPoints d i) (segCount d i) j = .ok (qs.get ⟨j, hj⟩) := by
  unfold strandCurves at h
  cases hm : numSegments d i with
  | error e => rw [hm] at h; cases h
  | ok m =>
    have hseg := numSegments_ok hm
    subst hseg
    rw [hm, ok_bind] at h
    by_cases h2 : segCount d i < 2
    · rw [if_pos h2] at h
      cases h
      exact absurd hj (Nat.not_lt_zero _)
    · rw [if_neg h2] at h
      cases hp : readStrand d i (segCount d i) with
      | error e => rw [hp] at h; cases h
      | ok pts =>
        rw [hp, ok_bind] at h
        have hlen := mapM_ok_length h
        obtain ⟨hb, hq⟩ := mapM_ok_getElem h j (by rw [← hlen]; exact hj)
        simp only [List.get_eq_getElem, List.getElem_range] at hq
        rw [show (j : Int) + 1 - 1 = (j : Int) by omega, readStrand_eq_swapped hp] at hq
        rw [hq]
        rfl

theorem affineImage_curveFloats (sc tr : Fin 3 → ℚ) (q : Fin 4 → real3) (rest : List ℚ) :
    affineImage sc tr (curveFloats q ++ rest) =
      curveFloats (fun j => scaleTranslate sc tr (q j)) ++ affineImage sc tr rest := by
  simp [curveFloats, affineImage, scaleTranslate]

theorem affineImage_flatMap (sc tr : Fin 3 → ℚ) (qs : List (Fin 4 → real3)) :
    affineImage sc tr (qs.flatMap curveFloats) =
      qs.flatMap (fun q => curveFloats (fun j => scaleTranslate sc tr (q j))) := by
  induction qs with
  | nil => simp [affineImage]
  | cons q qs ih => rw [List.flatMap_cons, List.flatMap_cons, affineImage_curveFloats, ih]

theorem scaleTranslate_unit (q : real3) : scaleTranslate ![1, 1, 1] ![0, 0, 0] q = q := by
  ext <;> simp [scaleTranslate]

/-- Claim C6, amended. With LOD off, for every scale, translate and dataset with
non-empty tables whose converted strands are readable, the emitted vertices are, group
by group and control point by control point, `scale[c] * q.c + translate[c]` on each
axis `c`, where `q` is the control point returned by `CamullRomToCubicBezier` on the
points of the strand read as `(x, z, y)`; and the vertices are the componentwise affine
image of the vertices emitted under scale `(1, 1, 1)` and translate `(0, 0, 0)`, with the
same radii. -/
theorem scale_translate_noLod (L : Lib) (d : CyHair) (v0 r0 : List ℚ) (sc tr : Fin 3 → ℚ)
    (ms : Int) (th : ℚ) (lod : Int) (hl : lod ≤ 0) (hc : Convertible d ms) :
    ∃ (v v1 r : List ℚ) (qss : List (List (Fin 4 → real3))),
      ToCubicBezierCurves L d v0 r0 sc tr ms th lod = .ok (true, v, r) ∧
      ToCubicBezierCurves L d v0 r0 ![1, 1, 1] ![0, 0, 0] ms th lod = .ok (true, v1, r) ∧
      v = affineImage sc tr v1 ∧
      qss.length = (effStrands d ms).toNat ∧
      (∀ i j (hi : i < qss.length) (hj : j < (qss.get ⟨i, hi⟩).length),
        CamullRomToCubicBezier (swappedPoints d i) (segCount d i) j =
          .ok ((qss.get ⟨i, hi⟩).get ⟨j, hj⟩)) ∧
      v = qss.flatten.flatMap (affineFloats sc tr) := by
  obtain ⟨hg, hn, hr⟩ := hc
  obtain ⟨qss, hqss⟩ := mapM_strandCurves_ok hr
  have hlen : qss.length = (effStrands d ms).toNat := by
    rw [mapM_ok_length hqss, List.length_range]
  refine ⟨qss.flatten.flatMap (fun q => curveFloats (fun j => scaleTranslate sc tr (q j))),
    qss.flatten.flatMap (fun q => curveFloats (fun j => scaleTranslate ![1, 1, 1] ![0, 0, 0] (q j))),
    qss.flatten.flatMap (fun _ => [curveRadius d th, curveRadius d th, curveRadius d th,
      curveRadius d th]), qss, ?_, ?_, ?_, hlen, ?_, rfl⟩
  · rw [toCubic_noLod L d v0 r0 sc tr ms th lod hl hg hn, hqss]
    rfl
  · rw [toCubic_noLod L d v0 r0 _ _ ms th lod hl hg hn, hqss]
    rfl
  · simp only [scaleTranslate_unit]
    exact (affineImage_flatMap sc tr qss.flatten).symm
  · intro i j hi hj
    obtain ⟨hb, hq⟩ := mapM_ok_getElem hqss i (by simpa [hlen] using hi)
    simp only [List.get_eq_getElem, List.getElem_range] at hq
    exact strandCurves_spec hq j hj

/-! ## The strand limit -/

theorem foldlM_congr_mem {σ β : Type} {f g : σ → β → Run σ} (l : List β)
    (h : ∀ b ∈ l, ∀ s, f s b = g s b) (s : σ) : l.foldlM f s = l.foldlM g s := by
  induction l generalizing s with
  | nil => rfl
  | cons b l ih =>
    rw [List.foldlM_cons, List.foldlM_cons, h b (List.mem_cons_self _ _) s]
    cases g s b with
    | error e => rfl
    | ok s' => exact ih (fun x hx => h x (List.mem_cons_of_mem _ hx)) s'

theorem at?_take {α : Type} (l : List α) (n i : Nat) (h : i < n) :
    at? (l.take n) i = at? l i := by
  unfold at?
  rw [List.getElem?_take, if_pos h]

theorem isEmpty_take {α : Type} (l : List α) (n : Nat) (h : 1 ≤ n) :
    (l.take n).isEmpty = l.isEmpty := by
  cases l with
  | nil => simp
  | cons a l =>
    cases n with
    | zero => omega
    | succ n => rfl

theorem strandStep_truncate (d : CyHair) (n : Nat) (sc tr : Fin 3 → ℚ) (th : ℚ) (lod : Int)
    (σ : ConvState) (i : Nat) (hi : i < n) :
    strandStep (truncateStrands d n) sc tr th lod σ i = strandStep d sc tr th lod σ i := by
  have hn : 1 ≤ n := by omega
  have h1 : numSegments (truncateStrands d n) i = numSegments d i := by
    unfold numSegments truncateStrands
    simp only [isEmpty_take _ _ hn, at?_take _ _ _ hi]
  have h2 : ∀ m, readStrand (truncateStrands d n) i m = readStrand d i m := by
    intro m
    unfold readStrand
    congr 1
    funext k
    unfold readPoint truncateStrands
    simp only [at?_take _ _ _ hi]
  unfold strandStep
  rw [h1]
  simp only [h2]
  rfl

theorem toInt32_of_lt {u : Nat} (h : u < 2 ^ 31) : toInt32 u = (u : Int) := by
  unfold toInt32
  have h1 : u % 2 ^ 32 = u := Nat.mod_eq_of_lt (by omega)
  rw [h1, if_pos h]

/-- Claim C8, amended. For a strand count below `2 ^ 31` and every `N` with
`1 ≤ N ≤ num_strands_`, the call with `max_strands = N` gives the result of the call
with `max_strands = -1` on the dataset truncated to its first `N` strands, with and
without LOD; for every `N ≤ 0` the call converts all strands, as `max_strands = -1`
does. -/
theorem max_strands_truncates (L : Lib) (d : CyHair) (v0 r0 : List ℚ) (sc tr : Fin 3 → ℚ)
    (th : ℚ) (lod : Int) (N : Int) (hs : d.num_strands_ < 2 ^ 31) :
    (1 ≤ N → N ≤ (d.num_strands_ : Int) →
      ToCubicBezierCurves L d v0 r0 sc tr N th lod =
        ToCubicBezierCurves L (truncateStrands d N.toNat) v0 r0 sc tr (-1) th lod) ∧
    (N ≤ 0 →
      ToCubicBezierCurves L d v0 r0 sc tr N th lod =
        ToCubicBezierCurves L d v0 r0 sc tr (-1) th lod) := by
  constructor
  · intro h1 h2
    have hN : 1 ≤ N.toNat := by omega
    have he : effStrands d N = N := by
      unfold effStrands
      rw [toInt32_of_lt hs]
      dsimp only
      split <;> omega
    have he' : effStrands (truncateStrands d N.toNat) (-1) = N := by
      unfold effStrands truncateStrands
      dsimp only
      rw [toInt32_of_lt (by omega), if_neg (by omega)]
      omega
    have hg : ((truncateStrands d N.toNat).points_.isEmpty ||
        (truncateStrands d N.toNat).strand_offsets_.isEmpty) =
        (d.points_.isEmpty || d.strand_offsets_.isEmpty) := by
      unfold truncateStrands
      simp only [isEmpty_take _ _ hN]
    unfold ToCubicBezierCurves
    rw [hg, he, he']
    have hloop : ∀ σ, (List.range N.toNat).foldlM
        (strandStep (truncateStrands d N.toNat) sc tr th lod) σ =
        (List.range N.toNat).foldlM (strandStep d sc tr th lod) σ := by
      intro σ
      apply foldlM_congr_mem
      intro i hi s
      exact strandStep_truncate d N.toNat sc tr th lod s i (List.mem_range.1 hi)
    simp only [hloop]
  · intro h0
    have he : effStrands d N = effStrands d (-1) := by
      unfold effStrands
      dsimp only
      rw [if_neg (by omega), if_neg (by omega)]
    unfold ToCubicBezierCurves
    rw [he]

/-- Counterexample to claim C8 at `N = 0`: on a dataset of one strand of five points the call with
`max_strands = 0` emits the two curves of the strand, while the dataset truncated to
its first 0 strands gives the return value false and no output. -/
theorem max_strands_zero_counterexample :
    ToCubicBezierCurves sampleLib sampleStrand5 [] [] ![1, 1, 1] ![0, 0, 0] 0 (-1) (-1) =
      .ok (true,
        [0, 0, 0, 1 / 3, 4 / 3, 1 / 2, 2 / 3, 7 / 3, 7 / 6, 1, 3, 2,
         1, 3, 2, 4 / 3, 11 / 3, 17 / 6, 5 / 3, 3, 25 / 6, 2, 4, 5],
        [1 / 10, 1 / 10, 1 / 10, 1 / 10, 1 / 10, 1 / 10, 1 / 10, 1 / 10]) ∧
    ToCubicBezierCurves sampleLib (truncateStrands sampleStrand5 0) [] [] ![1, 1, 1] ![0, 0, 0]
      (-1) (-1) (-1) = .ok (false, [], []) := by
  decide!

/-- Witness of claim C8, amended: three strands with `max_strands = 2`. -/
theorem max_strands_truncates_witness :
    sampleHair.num_strands_ < 2 ^ 31 ∧ (1 : Int) ≤ 2 ∧ (2 : Int) ≤ (sampleHair.num_strands_ : Int) ∧
    ToCubicBezierCurves sampleLib sampleHair [] [] ![1, 1, 1] ![0, 0, 0] 2 (-1) (-1) =
      ToCubicBezierCurves sampleLib (truncateStrands sampleHair 2) [] [] ![1, 1, 1] ![0, 0, 0]
        (-1) (-1) (-1) :=
  ⟨by decide, by decide, by decide,
    (max_strands_truncates sampleLib sampleHair [] [] ![1, 1, 1] ![0, 0, 0] (-1) (-1) 2
      (by decide)).1 (by decide) (by decide)⟩

/-! ## Sizes of the output buffers -/

theorem foldlM_invariant {σ β : Type} (P : σ → Prop) (f : σ → β → Run σ) (l : List β)
    (h : ∀ s b s', b ∈ l → P s → f s b = .ok s' → P s') (s s' : σ) (hs : P s)
    (hr : l.foldlM f s = .ok s') : P s' := by
  induction l generalizing s with
  | nil =>
    cases hr
    exact hs
  | cons b l ih =>
    rw [List.foldlM_cons] at hr
    cases hb : f s b with
    | error e => rw [hb] at hr; cases hr
    | ok s1 =>
      rw [hb, ok_bind] at hr
      exact ih (fun s b s' hm => h s b s' (List.mem_cons_of_mem _ hm)) s1
        (h s b s1 (List.mem_cons_self _ _) hs hb) hr

theorem pushCps_quad {hairs hairs' : List Hair} {i : Nat} {q : Fin 4 → real3}
    (hq : HairsQuad hairs) (h : pushCps hairs i q = .ok hairs') :
    HairsQuad hairs' ∧ hairs'.length = hairs.length := by
  unfold pushCps at h
  cases hh : at? hairs i with
  | error e => rw [hh] at h; cases h
  | ok x =>
    rw [hh, ok_bind] at h
    cases h
    rw [at?_ok_iff] at hh
    have hx : x ∈ hairs := List.mem_iff_getElem?.2 ⟨i, hh⟩
    refine ⟨?_, List.length_set _ _ _⟩
    intro y hy
    rcases List.mem_or_eq_of_mem_set hy with hy | hy
    · exact hq y hy
    · subst hy
      have := hq x hx
      simp only [List.length_append, List.length_cons, List.length_nil]
      omega

theorem curveStep_lod {sc tr : Fin 3 → ℚ} {th dth : ℚ} {lod : Int} (hl : 0 < lod)
    {pts : List real3} {m : Int} {i n : Nat} {σ σ' : ConvState} {s : Int}
    (hσ : LodConv n σ) (h : curveStep sc tr th dth lod pts m i σ s = .ok σ') : LodConv n σ' := by
  unfold curveStep at h
  dsimp only at h
  cases hq : CamullRomToCubicBezier pts m (s - 1) with
  | error e => rw [hq] at h; cases h
  | ok q =>
    rw [hq, ok_bind, if_neg (by omega)] at h
    cases hp : pushCps σ.hairs i (fun j => scaleTranslate sc tr (q j)) with
    | error e => rw [hp] at h; cases h
    | ok hairs' =>
      rw [hp, ok_bind] at h
      cases h
      obtain ⟨h1, h2⟩ := pushCps_quad hσ.2.2.1 hp
      exact ⟨hσ.1, hσ.2.1, h1, h2.trans hσ.2.2.2⟩

theorem strandStep_lod {d : CyHair} {sc tr : Fin 3 → ℚ} {th : ℚ} {lod : Int} (hl : 0 < lod)
    {i n : Nat} {σ σ' : ConvState}
    (hσ : LodConv n σ) (h : strandStep d sc tr th lod σ i = .ok σ') : LodConv n σ' := by
  unfold strandStep at h
  cases hm : numSegments d i with
  | error e => rw [hm] at h; cases h
  | ok m =>
    rw [hm, ok_bind] at h
    by_cases h2 : m < 2
    · rw [if_pos h2] at h
      cases h
      exact hσ
    · rw [if_neg h2] at h
      cases hp : readStrand d i m with
      | error e => rw [hp] at h; cases h
      | ok pts =>
        rw [hp, ok_bind] at h
        exact foldlM_invariant (LodConv n) _ _
          (fun s b s' _ hs hb => curveStep_lod hl hs hb) σ σ' hσ h

theorem strandLoop_lod {d : CyHair} {sc tr : Fin 3 → ℚ} {th : ℚ} {lod : Int} (hl : 0 < lod)
    {l : List Nat} {n : Nat} {σ σ' : ConvState}
    (hσ : LodConv n σ) (h : l.foldlM (strandStep d sc tr th lod) σ = .ok σ') : LodConv n σ' :=
  foldlM_invariant (LodConv n) _ _ (fun _ _ _ _ hs hb => strandStep_lod hl hs hb) σ σ' hσ h

theorem bind_ok_iff {α β : Type} (x : Run α) (f : α → Run β) (b : β) :
    (x >>= f) = .ok b ↔ ∃ a, x = .ok a ∧ f a = .ok b := by
  cases x with
  | error e =>
    constructor
    · intro h; cases h
    · rintro ⟨a, h, _⟩; cases h
  | ok a =>
    constructor
    · intro h; exact ⟨a, rfl, h⟩
    · rintro ⟨a', h, h'⟩; cases h; exact h'

theorem pure_ok_iff {α : Type} (a b : α) : (pure a : Run α) = .ok b ↔ a = b := by
  constructor
  · intro h; cases h; rfl
  · intro h; rw [h]; rfl

theorem accumStep_len {L : Lib} {hairs : List Hair} {count i k n : Nat} {st st' : Hair × List Int}
    (hs : AccumLen n st) (h : accumStep L hairs count i st k = .ok st') : AccumLen n st' := by
  simp only [accumStep, bind_ok_iff, pure_ok_iff] at h
  obtain ⟨hi, -, a, -, p, -, c, -, h0, -, p0, -, r, -, rfl⟩ := h
  exact ⟨by simpa using hs.1, by simpa using hs.2⟩

theorem accumHair_len {L : Lib} {hairs : List Hair} {count i n : Nat} {st st' : Hair × List Int}
    (hs : AccumLen n st) (h : accumHair L hairs count st i = .ok st') : AccumLen n st' := by
  simp only [accumHair, bind_ok_iff] at h
  obtain ⟨hi, -, h⟩ := h
  exact foldlM_invariant (AccumLen n) _ _ (fun _ _ _ _ hs hb => accumStep_len hs hb) st st' hs h

theorem divideLoop_len {accum accum' : Hair} {additions : List Int}
    (h : divideLoop accum additions = .ok accum') :
    accum'.cps.length = accum.cps.length ∧ accum'.radii.length = accum.radii.length := by
  simp only [divideLoop, bind_ok_iff, pure_ok_iff] at h
  obtain ⟨st, h, rfl⟩ := h
  refine foldlM_invariant
    (fun st : Nat × Hair => st.2.cps.length = accum.cps.length ∧
      st.2.radii.length = accum.radii.length) _ _ ?_ (0, accum) st ⟨rfl, rfl⟩ h
  intro s b s' _ hs hb
  simp only [bind_ok_iff, pure_ok_iff] at hb
  obtain ⟨p, -, rfl⟩ := hb
  exact ⟨by simpa using hs.1, hs.2⟩

theorem resize_empty_len (n : Nat) (th : ℚ) :
    (Hair.empty.resize n th).cps.length = n ∧ (Hair.empty.resize n th).radii.length = n := by
  simp [Hair.resize, Hair.empty, vresize]

theorem lodStep_quad {L : Lib} (hS : L.Sorts) {th : ℚ} {hairs hairs' : List Hair} {count n : Nat}
    {accum : Hair} (hq : HairsQuad hairs)
    (h : lodStep L th hairs count = .ok (hairs', accum, n)) :
    HairsQuad hairs' ∧ accum.radii.length = accum.cps.length ∧ 4 ∣ accum.cps.length := by
  simp only [lodStep, bind_ok_iff, pure_ok_iff] at h
  obtain ⟨rb, -, mi, -, cmp, hcmp, ⟨nH, same⟩, -, ⟨acc, adds⟩, hacc, acc', hdiv, heq⟩ := h
  simp only [Prod.mk.injEq] at heq
  obtain ⟨rfl, rfl, rfl⟩ := heq
  have hcmpq : 4 ∣ cmp.cps.length := hq cmp (List.getElem?_mem (at?_ok_iff.1 hcmp))
  have hsub1 : ∀ y, y ∈ hairs.take count ++ L.sortSample cmp (hairs.drop count) → y ∈ hairs := by
    intro y hy
    rcases List.mem_append.1 hy with hy | hy
    · exact List.mem_of_mem_take hy
    · exact List.mem_of_mem_drop ((hS.1 cmp _).subset hy)
  have hlen := foldlM_invariant (AccumLen cmp.size) _ _
    (fun _ _ _ _ hs hb => accumHair_len hs hb) _ _
    (show AccumLen cmp.size (Hair.empty.resize cmp.size th,
      List.replicate (Hair.empty.resize cmp.size th).size 0) from resize_empty_len _ _) hacc
  obtain ⟨hd1, hd2⟩ := divideLoop_len hdiv
  refine ⟨?_, ?_, ?_⟩
  · intro y hy
    apply hq y
    apply hsub1
    rcases List.mem_append.1 hy with hy | hy
    · rcases List.mem_append.1 hy with hy | hy
      · exact List.mem_of_mem_take hy
      · exact List.mem_of_mem_drop (List.mem_of_mem_take ((hS.2 _).subset hy))
    · exact List.mem_of_mem_drop hy
  · rw [hd1, hd2, hlen.1, hlen.2]
  · rw [hd1, hlen.1]
    exact hcmpq

theorem combineLoop_quad {L : Lib} (hS : L.Sorts) {th : ℚ} (fuel : Nat) {hairs : List Hair}
    {count : Nat} {combined res : List Hair} (hq : HairsQuad hairs) (hc : CombinedQuad combined)
    (h : combineLoop L th fuel hairs count combined = .ok res) : CombinedQuad res := by
  induction fuel generalizing hairs count combined with
  | zero =>
    unfold combineLoop at h
    split at h
    · cases h; exact hc
    · cases h
  | succ fuel ih =>
    unfold combineLoop at h
    split at h
    · cases h; exact hc
    · simp only [bind_ok_iff] at h
      obtain ⟨⟨hairs', accum, n⟩, hstep, h⟩ := h
      obtain ⟨h1, h2, h3⟩ := lodStep_quad hS hq hstep
      refine ih h1 ?_ h
      intro y hy
      rcases List.mem_append.1 hy with hy | hy
      · exact hc y hy
      · rw [List.mem_singleton] at hy
        subst hy
        exact ⟨h2, h3⟩

theorem foldlM_count {σ β : Type} (μ : σ → Nat) (c : Nat) (f : σ → β → Run σ) (l : List β)
    (h : ∀ s b s', f s b = .ok s' → μ s' = μ s + c) (s s' : σ)
    (hr : l.foldlM f s = .ok s') : μ s' = μ s + c * l.length := by
  induction l generalizing s with
  | nil =>
    cases hr
    simp
  | cons b l ih =>
    rw [List.foldlM_cons] at hr
    cases hb : f s b with
    | error e => rw [hb] at hr; cases hr
    | ok s1 =>
      rw [hb, ok_bind] at hr
      rw [ih s1 hr, h s b s1 hb, List.length_cons]
      ring

theorem flattenHair_len {out out' : List ℚ × List ℚ} {h : Hair}
    (hr : flattenHair out h = .ok out') :
    out'.1.length = out.1.length + 3 * h.size ∧ out'.2.length = out.2.length + h.size := by
  unfold flattenHair at hr
  constructor
  · have := foldlM_count (fun o : List ℚ × List ℚ => o.1.length) 3 _ _ (by
      intro s b s' hb
      simp only [bind_ok_iff, pure_ok_iff] at hb
      obtain ⟨p, -, r, -, rfl⟩ := hb
      simp) out out' hr
    simpa using this
  · have := foldlM_count (fun o : List ℚ × List ℚ => o.2.length) 1 _ _ (by
      intro s b s' hb
      simp only [bind_ok_iff, pure_ok_iff] at hb
      obtain ⟨p, -, r, -, rfl⟩ := hb
      simp) out out' hr
    simpa using this

theorem flatten_whole {combined : List Hair} (hc : CombinedQuad combined)
    {out out' : List ℚ × List ℚ} (ho : WholeCurves out)
    (hr : combined.foldlM flattenHair out = .ok out') : WholeCurves out' := by
  refine foldlM_invariant WholeCurves _ _ ?_ out out' ho hr
  intro s b s' hb hs hf
  obtain ⟨h1, h2⟩ := flattenHair_len hf
  obtain ⟨-, h4⟩ := hc b hb
  unfold WholeCurves at hs ⊢
  unfold Hair.size at h1 h2
  obtain ⟨hs1, hs2⟩ := hs
  constructor
  · omega
  · rw [h2]
    exact Dvd.dvd.add hs2 h4

theorem replicate_empty_quad (n : Nat) : HairsQuad (List.replicate n Hair.empty) := by
  intro h hh
  rw [List.eq_of_mem_replicate hh]
  exact ⟨0, rfl⟩

/-- The body of `ToCubicBezierCurves` after the test on the two tables. -/
theorem toCubic_unfold (L : Lib) (d : CyHair) (v0 r0 : List ℚ) (sc tr : Fin 3 → ℚ) (ms : Int)
    (th : ℚ) (lod : Int) (hg : (d.points_.isEmpty || d.strand_offsets_.isEmpty) = false) :
    ToCubicBezierCurves L d v0 r0 sc tr ms th lod =
      if effStrands d ms < 0 then .error .lengthError
      else
        (List.range (effStrands d ms).toNat).foldlM (strandStep d sc tr th lod)
          ⟨[], [], List.replicate (effStrands d ms).toNat Hair.empty⟩ >>= fun σ =>
        if lod > 0 then
          combineLoop L th σ.hairs.length σ.hairs 0 [] >>= fun combined =>
          combined.foldlM flattenHair (σ.vertices, σ.radiuss) >>= fun out =>
          pure (true, out.1, out.2)
        else pure (true, σ.vertices, σ.radiuss) := by
  unfold ToCubicBezierCurves
  rw [hg]
  simp only [Bool.false_eq_true, if_false]
  by_cases hn : effStrands d ms < 0
  · rw [if_pos hn, if_pos hn]
    rfl
  · rw [if_neg hn, if_neg hn]
    rfl

/-- Claim C9. Whenever `ToCubicBezierCurves` returns true, with or without LOD and with
sorting routines that rearrange their input, there is a number `num_curves` with
`vertices.size() = 12 * num_curves` and `radiuss.size() = 4 * num_curves`; so
`vertices.size() = 3 * radiuss.size()` and `radiuss.size()` is a multiple of 4. -/
theorem output_whole_curves (L : Lib) (hS : L.Sorts) (d : CyHair) (v0 r0 : List ℚ)
    (sc tr : Fin 3 → ℚ) (ms : Int) (th : ℚ) (lod : Int) (v r : List ℚ)
    (h : ToCubicBezierCurves L d v0 r0 sc tr ms th lod = .ok (true, v, r)) :
    (∃ num_curves, v.length = 12 * num_curves ∧ r.length = 4 * num_curves) ∧
      v.length = 3 * r.length ∧ 4 ∣ r.length := by
  have key : WholeCurves (v, r) := by
    cases hg : (d.points_.isEmpty || d.strand_offsets_.isEmpty) with
    | true =>
      unfold ToCubicBezierCurves at h
      rw [hg, if_pos rfl] at h
      cases h
    | false =>
      rw [toCubic_unfold L d v0 r0 sc tr ms th lod hg] at h
      split at h
      · cases h
      · simp only [bind_ok_iff] at h
        obtain ⟨σ, hσ, h⟩ := h
        by_cases hl : lod > 0
        · rw [if_pos hl] at h
          simp only [bind_ok_iff, pure_ok_iff] at h
          obtain ⟨combined, hcomb, out, hout, heq⟩ := h
          have hconv := strandLoop_lod hl
            (show LodConv (effStrands d ms).toNat ⟨[], [], List.replicate _ Hair.empty⟩ from
              ⟨rfl, rfl, replicate_empty_quad _, List.length_replicate _ _⟩) hσ
          have hcq := combineLoop_quad hS _ hconv.2.2.1
            (show CombinedQuad [] from fun _ hy => absurd hy (List.not_mem_nil _)) hcomb
          have hw := flatten_whole hcq
            (show WholeCurves (σ.vertices, σ.radiuss) by
              rw [hconv.1, hconv.2.1]; exact ⟨rfl, ⟨0, rfl⟩⟩) hout
          simp only [Prod.mk.injEq, true_and] at heq
          obtain ⟨rfl, rfl⟩ := heq
          exact hw
        · rw [if_neg hl, pure_ok_iff] at h
          simp only [Prod.mk.injEq, true_and] at h
          obtain ⟨rfl, rfl⟩ := h
          rw [strandLoop_noLod d sc tr th lod (by omega)] at hσ
          simp only [bind_ok_iff, pure_ok_iff] at hσ
          obtain ⟨qss, -, rfl⟩ := hσ
          rw [foldl_emitCurve]
          have h12 := length_flatMap_const qss.flatten
            (fun q => curveFloats (fun j => scaleTranslate sc tr (q j))) 12 (fun _ => rfl)
          have h4 := length_flatMap_const qss.flatten
            (fun _ => [curveRadius d th, curveRadius d th, curveRadius d th, curveRadius d th]) 4
            (fun _ => rfl)
          unfold WholeCurves
          simp only [List.nil_append]
          rw [h12, h4]
          exact ⟨by ring, ⟨_, rfl⟩⟩
  obtain ⟨h1, k, h2⟩ := key
  simp only at h1 h2
  exact ⟨⟨k, by omega, h2⟩, h1, ⟨k, h2⟩⟩

/-! ## Defined behaviour with LOD off -/

theorem readable_of_strandCurves {d : CyHair} {i : Nat} {qs : List (Fin 4 → real3)}
    (h : strandCurves d i = .ok qs) : StrandReadable d i := by
  unfold strandCurves at h
  cases hm : numSegments d i with
  | error e => rw [hm] at h; cases h
  | ok m =>
    have hseg := numSegments_ok hm
    subst hseg
    rw [hm, ok_bind] at h
    constructor
    · intro he
      unfold numSegments at hm
      rw [if_neg (by rw [he]; exact Bool.false_ne_true)] at hm
      simp only [bind_ok_iff] at hm
      obtain ⟨s, hs, -⟩ := hm
      rw [at?_ok_iff] at hs
      by_contra hlt
      rw [List.getElem?_eq_none (by omega)] at hs
      cases hs
    · intro h2
      rw [if_neg (by omega)] at h
      simp only [bind_ok_iff] at h
      obtain ⟨pts, hpts, -⟩ := h
      unfold readStrand at hpts
      obtain ⟨hb, hp⟩ := mapM_ok_getElem hpts ((segCount d i).toNat - 1)
        (by rw [List.length_range]; omega)
      simp only [List.get_eq_getElem, List.getElem_range] at hp
      unfold readPoint at hp
      simp only [bind_ok_iff] at hp
      obtain ⟨off, hoff, px, -, py, hpy, -⟩ := hp
      rw [at?_ok_iff] at hoff hpy
      have hi : i < d.strand_offsets_.length := by
        by_contra hlt
        rw [List.getElem?_eq_none (by omega)] at hoff
        cases hoff
      refine ⟨hi, ?_⟩
      rw [List.getD_eq_getElem?_getD, hoff, Option.getD_some]
      by_contra hlt
      rw [List.getElem?_eq_none (by omega)] at hpy
      cases hpy

/-- With LOD off the conversion stays within defined behaviour exactly when a table is
empty (the call returns false) or the dataset is `Convertible`. -/
theorem noLod_defined_iff (L : Lib) (d : CyHair) (v0 r0 : List ℚ) (sc tr : Fin 3 → ℚ)
    (ms : Int) (th : ℚ) (lod : Int) (hl : lod ≤ 0) :
    (∃ res, ToCubicBezierCurves L d v0 r0 sc tr ms th lod = .ok res) ↔
      ((d.points_.isEmpty || d.strand_offsets_.isEmpty) = true ∨ Convertible d ms) := by
  cases hg : (d.points_.isEmpty || d.strand_offsets_.isEmpty) with
  | true =>
    constructor
    · intro _
      exact Or.inl rfl
    · intro _
      unfold ToCubicBezierCurves
      rw [hg, if_pos rfl]
      exact ⟨_, rfl⟩
  | false =>
    constructor
    · rintro ⟨res, h⟩
      right
      rw [toCubic_unfold L d v0 r0 sc tr ms th lod hg] at h
      split at h
      · cases h
      · rename_i hn
        simp only [bind_ok_iff] at h
        obtain ⟨σ, hσ, -⟩ := h
        rw [strandLoop_noLod d sc tr th lod hl] at hσ
        simp only [bind_ok_iff] at hσ
        obtain ⟨qss, hqss, -⟩ := hσ
        refine ⟨hg, by omega, ?_⟩
        intro i hi
        obtain ⟨hb, hq⟩ := mapM_ok_getElem hqss i (by rw [List.length_range]; exact hi)
        simp only [List.get_eq_getElem, List.getElem_range] at hq
        exact readable_of_strandCurves hq
    · rintro (h | ⟨-, hn, hr⟩)
      · cases h
      · obtain ⟨qss, hqss⟩ := mapM_strandCurves_ok hr
        rw [toCubic_noLod L d v0 r0 sc tr ms th lod hl hg hn, hqss]
        exact ⟨_, rfl⟩

/-! ## The conversion with LOD on completes on strands of one size -/

theorem foldlM_total {σ β : Type} (P : σ → Prop) (f : σ → β → Run σ) (l : List β)
    (h : ∀ s b, b ∈ l → P s → ∃ s', f s b = .ok s' ∧ P s') (s : σ) (hs : P s) :
    ∃ s', l.foldlM f s = .ok s' ∧ P s' := by
  induction l generalizing s with
  | nil => exact ⟨s, rfl, hs⟩
  | cons b l ih =>
    obtain ⟨s1, h1, hp1⟩ := h s b (List.mem_cons_self _ _) hs
    obtain ⟨s2, h2, hp2⟩ := ih (fun s b hb => h s b (List.mem_cons_of_mem _ hb)) s1 hp1
    exact ⟨s2, by rw [List.foldlM_cons, h1, ok_bind, h2], hp2⟩

theorem at?_ok_of_lt {α : Type} {v : List α} {i : Nat} (h : i < v.length) :
    ∃ a, at? v i = .ok a ∧ a ∈ v :=
  ⟨v.get ⟨i, h⟩, at?_eq_ok h, List.get_mem _ _ _⟩

theorem rootBoundsLoop_total {n : Nat} (hn : 1 ≤ n) {hairs : List Hair} (hu : Uniform n hairs)
    (count : Nat) : ∃ b, rootBoundsLoop hairs count = .ok b := by
  unfold rootBoundsLoop
  obtain ⟨b, hb, -⟩ := foldlM_total (fun _ => True)
    (fun (rootBounds : Bounds3f) (h : Hair) => do
      let p ← at? h.cps 0
      pure (Union rootBounds p)) (hairs.drop count) (by
    intro s h hh _
    have hlen := hu h (List.mem_of_mem_drop hh)
    obtain ⟨p, hp, -⟩ := at?_ok_of_lt (show 0 < h.cps.length by omega)
    exact ⟨Union s p, by dsimp only; rw [hp]; rfl, trivial⟩) Bounds3f.empty trivial
  exact ⟨b, hb⟩

theorem minIndFold_total {n : Nat} (hn : 1 ≤ n) {hairs : List Hair} (hu : Uniform n hairs)
    (axis : Int) (l pre : List Hair) (st : Nat × Nat) (hsplit : hairs = pre ++ l)
    (h1 : st.1 = pre.length) (h2 : st.2 < hairs.length) :
    ∃ st', l.foldlM
      (fun (st : Nat × Nat) h => do
        let p ← at? h.cps 0
        let hm ← at? hairs st.2
        let pm ← at? hm.cps 0
        pure (st.1 + 1, if p.get axis < pm.get axis then st.1 else st.2)) st = .ok st' ∧
      st'.2 < hairs.length := by
  induction l generalizing pre st with
  | nil => exact ⟨st, rfl, h2⟩
  | cons h l ih =>
    have hmem : h ∈ hairs := by rw [hsplit]; simp
    obtain ⟨p, hp, -⟩ := at?_ok_of_lt (show 0 < h.cps.length by rw [hu h hmem]; omega)
    obtain ⟨hm, hhm, hmmem⟩ := at?_ok_of_lt h2
    obtain ⟨pm, hpm, -⟩ := at?_ok_of_lt (show 0 < hm.cps.length by rw [hu hm hmmem]; omega)
    have hlt : st.1 < hairs.length := by rw [hsplit, h1]; simp
    obtain ⟨st', hst', hlt'⟩ := ih (pre ++ [h])
      (st.1 + 1, if p.get axis < pm.get axis then st.1 else st.2)
      (by rw [hsplit]; simp) (by simp [h1]) (by dsimp only; split <;> assumption)
    refine ⟨st', ?_, hlt'⟩
    rw [List.foldlM_cons, hp, ok_bind, hhm, ok_bind, hpm, ok_bind]
    exact hst'

theorem minIndLoop_total {n : Nat} (hn : 1 ≤ n) {hairs : List Hair} (hu : Uniform n hairs)
    (count : Nat) (axis : Int) (hc : count < hairs.length) :
    ∃ mi, minIndLoop hairs count axis = .ok mi ∧ mi < hairs.length := by
  obtain ⟨st, hst, hlt⟩ := minIndFold_total hn hu axis (hairs.drop count) (hairs.take count)
    (count, count) (List.take_append_drop _ _).symm
    (by simp [List.length_take]; omega) hc
  refine ⟨st.2, ?_, hlt⟩
  unfold minIndLoop
  rw [hst]
  rfl

theorem sizeMinusOne_eq {n : Nat} (h1 : 1 ≤ n) (h2 : n < 2 ^ 64) : sizeMinusOne n = n - 1 := by
  unfold sizeMinusOne
  omega

theorem walk_total (L : Lib) {n : Nat} (hn : 1 ≤ n) {cmp_hair : Hair}
    (hcmp : cmp_hair.cps.length = n) {hairs : List Hair} (hu : Uniform n hairs) (count : Nat)
    (hlen1 : 1 ≤ hairs.length) (hlen2 : hairs.length < 2 ^ 64) (fuel nHairs same : Nat)
    (h1 : count + nHairs ≤ hairs.length - 1) (h2 : hairs.length - 1 - (count + nHairs) < fuel)
    (h3 : 1 ≤ same) (h4 : same ≤ nHairs) :
    ∃ nHairs' same', walk L cmp_hair hairs count fuel nHairs same = .ok (nHairs', same') ∧
      1 ≤ same' ∧ same' ≤ nHairs' ∧ count + nHairs' ≤ hairs.length - 1 := by
  induction fuel generalizing nHairs same with
  | zero => omega
  | succ fuel ih =>
    unfold walk
    dsimp only
    rw [sizeMinusOne_eq hlen1 hlen2]
    by_cases hi : count + nHairs = hairs.length - 1
    · rw [if_pos hi]
      exact ⟨nHairs, same, rfl, h3, h4, h1⟩
    · rw [if_neg hi]
      obtain ⟨c0, hc0, -⟩ := at?_ok_of_lt (show 0 < cmp_hair.cps.length by omega)
      obtain ⟨x, hx, hxm⟩ := at?_ok_of_lt (show count + nHairs < hairs.length by omega)
      obtain ⟨p, hp, -⟩ := at?_ok_of_lt (show 0 < x.cps.length by rw [hu x hxm]; omega)
      rw [hc0, ok_bind, hx, ok_bind, hp, ok_bind]
      by_cases hd : distance L c0 p ≥ MAX_DISTANCE
      · rw [if_pos hd]
        exact ⟨nHairs, same, rfl, h3, h4, h1⟩
      · rw [if_neg hd]
        apply ih
        · omega
        · omega
        · split <;> omega
        · split <;> omega

theorem accumStep_total (L : Lib) {hairs : List Hair} {count i k n : Nat} {st : Hair × List Int}
    (hu : Uniform n hairs) (hi : i < hairs.length) (hc : count < hairs.length) (hk : k < n)
    (hs : AccumFull n st) :
    ∃ st', accumStep L hairs count i st k = .ok st' ∧ AccumFull n st' := by
  obtain ⟨hs1, hs2, hs3⟩ := hs
  obtain ⟨x, hx, hxm⟩ := at?_ok_of_lt hi
  obtain ⟨a, ha, -⟩ := at?_ok_of_lt (show k < st.1.cps.length by omega)
  obtain ⟨p, hp, -⟩ := at?_ok_of_lt (show k < x.cps.length by rw [hu x hxm]; omega)
  obtain ⟨c, hc', -⟩ := at?_ok_of_lt (show k < st.2.length by omega)
  obtain ⟨h0, hh0, h0m⟩ := at?_ok_of_lt hc
  obtain ⟨p0, hp0, -⟩ := at?_ok_of_lt (show k < h0.cps.length by rw [hu h0 h0m]; omega)
  obtain ⟨r, hr, -⟩ := at?_ok_of_lt (show k < st.1.radii.length by omega)
  refine ⟨(⟨st.1.cps.set k (a + p),
    st.1.radii.set k (min (max r (distance L p p0)) MAX_HAIR_RADIUS)⟩, st.2.set k (c + 1)), ?_, ?_⟩
  · unfold accumStep
    rw [hx, ok_bind, ha, ok_bind, hp, ok_bind, hc', ok_bind, hh0, ok_bind, hp0, ok_bind, hr,
      ok_bind]
    rfl
  · exact ⟨by simpa using hs1, by simpa using hs2, by simpa using hs3⟩

theorem accumHair_total (L : Lib) {hairs : List Hair} {count i n : Nat} {st : Hair × List Int}
    (hu : Uniform n hairs) (hi : i < hairs.length) (hc : count < hairs.length)
    (hs : AccumFull n st) :
    ∃ st', accumHair L hairs count st i = .ok st' ∧ AccumFull n st' := by
  obtain ⟨x, hx, hxm⟩ := at?_ok_of_lt hi
  unfold accumHair
  rw [hx, ok_bind]
  apply foldlM_total (AccumFull n) (accumStep L hairs count i) _ _ st hs
  intro s k hk hs'
  rw [List.mem_range] at hk
  exact accumStep_total L hu hi hc (by unfold Hair.size at hk; rw [hu x hxm] at hk; exact hk) hs'

theorem divideFold_total (l : List Int) (st : Nat × Hair) (h : st.1 + l.length ≤ st.2.cps.length) :
    ∃ st', l.foldlM
      (fun (st : Nat × Hair) (a : Int) => do
        let p ← at? st.2.cps st.1
        pure (st.1 + 1, { st.2 with cps := st.2.cps.set st.1 (p.divf (a : ℚ)) })) st = .ok st' := by
  induction l generalizing st with
  | nil => exact ⟨st, rfl⟩
  | cons a l ih =>
    rw [List.length_cons] at h
    obtain ⟨p, hp, -⟩ := at?_ok_of_lt (show st.1 < st.2.cps.length by omega)
    obtain ⟨st', hst'⟩ := ih (st.1 + 1, { st.2 with cps := st.2.cps.set st.1 (p.divf (a : ℚ)) })
      (by simp only [List.length_set]; omega)
    refine ⟨st', ?_⟩
    rw [List.foldlM_cons, hp, ok_bind]
    exact hst'

theorem divideLoop_total (accum : Hair) (additions : List Int)
    (h : additions.length ≤ accum.cps.length) : ∃ accum', divideLoop accum additions = .ok accum' := by
  obtain ⟨st, hst⟩ := divideFold_total additions (0, accum) (by simpa using h)
  refine ⟨st.2, ?_⟩
  unfold divideLoop
  rw [hst]
  rfl

theorem uniform_sortSample {L : Lib} (hS : L.Sorts) {n : Nat} {hairs : List Hair}
    (hu : Uniform n hairs) (cmp_hair : Hair) (count : Nat) :
    Uniform n (hairs.take count ++ L.sortSample cmp_hair (hairs.drop count)) ∧
    (hairs.take count ++ L.sortSample cmp_hair (hairs.drop count)).length = hairs.length := by
  constructor
  · intro y hy
    apply hu
    rcases List.mem_append.1 hy with hy | hy
    · exact List.mem_of_mem_take hy
    · exact List.mem_of_mem_drop ((hS.1 cmp_hair _).subset hy)
  · rw [List.length_append, (hS.1 cmp_hair _).length_eq, ← List.length_append,
      List.take_append_drop]

theorem uniform_sortSegments {L : Lib} (hS : L.Sorts) {n : Nat} {hairs : List Hair}
    (hu : Uniform n hairs) (count nHairs : Nat) (h1 : 1 ≤ nHairs) :
    Uniform n (hairs.take (count + 1) ++
      L.sortSegments ((hairs.drop (count + 1)).take (nHairs - 1)) ++
      hairs.drop (count + nHairs)) ∧
    (hairs.take (count + 1) ++ L.sortSegments ((hairs.drop (count + 1)).take (nHairs - 1)) ++
      hairs.drop (count + nHairs)).length = hairs.length := by
  constructor
  · intro y hy
    apply hu
    rcases List.mem_append.1 hy with hy | hy
    · rcases List.mem_append.1 hy with hy | hy
      · exact List.mem_of_mem_take hy
      · exact List.mem_of_mem_drop (List.mem_of_mem_take ((hS.2 _).subset hy))
    · exact List.mem_of_mem_drop hy
  · rw [List.length_append, List.length_append, (hS.2 _).length_eq, List.length_take,
      List.length_take, List.length_drop, List.length_drop]
    omega

/-- One pass of the combination loop on hairs of one size completes, admits at least
one hair and does not step past the last index. -/
theorem lodStep_total {L : Lib} (hS : L.Sorts) {n : Nat} (hn : 1 ≤ n) {hairs : List Hair}
    (hu : Uniform n hairs) (th : ℚ) (count : Nat) (hc : count + 1 < hairs.length)
    (hlen : hairs.length < 2 ^ 64) :
    ∃ hairs' accum same, lodStep L th hairs count = .ok (hairs', accum, same) ∧
      hairs'.length = hairs.length ∧ Uniform n hairs' ∧ 1 ≤ same ∧
      count + same ≤ hairs.length - 1 := by
  obtain ⟨rb, hrb⟩ := rootBoundsLoop_total hn hu count
  obtain ⟨mi, hmi, hlt⟩ := minIndLoop_total hn hu count rb.MaximumExtent (by omega)
  obtain ⟨cmp, hcmp, hcmpm⟩ := at?_ok_of_lt hlt
  have hcmpn := hu cmp hcmpm
  obtain ⟨hu1, hl1⟩ := uniform_sortSample hS hu cmp count
  generalize hg1 : hairs.take count ++ L.sortSample cmp (hairs.drop count) = hairs1 at hu1 hl1
  obtain ⟨nH, same, hw, hs1, hs2, hs3⟩ := walk_total L hn hcmpn hu1 count (by omega) (by omega)
    hairs1.length 1 1 (by omega) (by omega) (le_refl 1) (le_refl 1)
  obtain ⟨hu2, hl2⟩ := uniform_sortSegments hS hu1 count nH (by omega)
  generalize hg2 : hairs1.take (count + 1) ++
    L.sortSegments ((hairs1.drop (count + 1)).take (nH - 1)) ++ hairs1.drop (count + nH) = hairs2
    at hu2 hl2
  have hfull0 : AccumFull n (Hair.empty.resize cmp.size th,
      List.replicate (Hair.empty.resize cmp.size th).size (0 : Int)) := by
    simp [AccumFull, Hair.resize, Hair.empty, vresize, Hair.size, hcmpn]
  obtain ⟨st, hst, hfull⟩ := foldlM_total (AccumFull n) (accumHair L hairs2 count)
    (List.range' count same) (by
      intro s i hi hs
      rw [List.mem_range'_1] at hi
      exact accumHair_total L hu2 (by omega) (by omega) hs) _ hfull0
  obtain ⟨acc', hacc'⟩ := divideLoop_total st.1 st.2 (by rw [hfull.1, hfull.2.2])
  refine ⟨hairs2, acc', same, ?_, hl2.trans hl1, hu2, hs1, by omega⟩
  unfold lodStep
  rw [hrb, ok_bind]
  dsimp only
  rw [hmi, ok_bind, hcmp, ok_bind, hg1, hw, ok_bind]
  dsimp only
  rw [hg2, hst, ok_bind, hacc', ok_bind]
  rfl

theorem combineLoop_total {L : Lib} (hS : L.Sorts) {n : Nat} (hn : 1 ≤ n) (th : ℚ)
    (fuel : Nat) {hairs : List Hair} (hu : Uniform n hairs) (count : Nat) (combined : List Hair)
    (h1 : 1 ≤ hairs.length) (h2 : hairs.length < 2 ^ 64) (hc : count ≤ hairs.length - 1)
    (hf : hairs.length - 1 - count ≤ fuel) :
    ∃ res, combineLoop L th fuel hairs count combined = .ok res := by
  induction fuel generalizing hairs count combined with
  | zero =>
    unfold combineLoop
    rw [sizeMinusOne_eq h1 h2, if_pos (by omega)]
    exact ⟨combined, rfl⟩
  | succ fuel ih =>
    unfold combineLoop
    rw [sizeMinusOne_eq h1 h2]
    by_cases he : count = hairs.length - 1
    · rw [if_pos he]
      exact ⟨combined, rfl⟩
    · rw [if_neg he]
      obtain ⟨hairs', accum, same, hstep, hl, hu', hs1, hs2⟩ :=
        lodStep_total hS hn hu th count (by omega) h2
      rw [hstep, ok_bind]
      dsimp only
      exact ih hu' (count + same) (combined ++ [accum]) (by omega) (by omega) (by omega)
        (by omega)

theorem flattenHair_total (out : List ℚ × List ℚ) {h : Hair}
    (hr : h.radii.length = h.cps.length) : ∃ out', flattenHair out h = .ok out' := by
  unfold flattenHair
  obtain ⟨out', ho, -⟩ := foldlM_total (fun _ => True)
    (fun (out : List ℚ × List ℚ) j => do
      let p ← at? h.cps j
      let r ← at? h.radii j
      pure (out.1 ++ [p.x, p.y, p.z], out.2 ++ [r])) (List.range h.size) (by
    intro s j hj _
    rw [List.mem_range] at hj
    unfold Hair.size at hj
    obtain ⟨p, hp, -⟩ := at?_ok_of_lt hj
    obtain ⟨r, hr', -⟩ := at?_ok_of_lt (show j < h.radii.length by omega)
    exact ⟨_, by dsimp only; rw [hp, ok_bind, hr', ok_bind]; rfl, trivial⟩) out trivial
  exact ⟨out', ho⟩

theorem flatten_total {combined : List Hair} (hc : CombinedQuad combined)
    (out : List ℚ × List ℚ) : ∃ out', combined.foldlM flattenHair out = .ok out' := by
  obtain ⟨out', ho, -⟩ := foldlM_total (fun _ => True) flattenHair combined (by
    intro s h hh _
    obtain ⟨o, ho⟩ := flattenHair_total s (hc h hh).1
    exact ⟨o, ho, trivial⟩) out trivial
  exact ⟨out', ho⟩

theorem set_at_length {α : Type} (pre post : List α) (a b : α) :
    (pre ++ a :: post).set pre.length b = pre ++ b :: post := by
  induction pre with
  | nil => rfl
  | cons x pre ih => simp [ih]

theorem pushCps_at (pre post : List Hair) (h : Hair) (q : Fin 4 → real3) :
    pushCps (pre ++ h :: post) pre.length q =
      .ok (pre ++ { h with cps := h.cps ++ [q 0, q 1, q 2, q 3] } :: post) := by
  unfold pushCps
  have h1 : at? (pre ++ h :: post) pre.length = .ok h := by
    rw [at?_ok_iff, List.getElem?_append_right (le_refl _), Nat.sub_self]
    exact List.getElem?_cons_zero
  rw [h1, ok_bind, set_at_length]
  rfl

theorem curveStep_lod_at (sc tr : Fin 3 → ℚ) (th dth : ℚ) (lod : Int) (hl : 0 < lod)
    (pts : List real3) (m : Int) (pre post : List Hair) (v rr : List ℚ) (r : List ℚ)
    (c : List real3) (s : Int) :
    curveStep sc tr th dth lod pts m pre.length ⟨v, rr, pre ++ ⟨c, r⟩ :: post⟩ s =
      (do let q ← CamullRomToCubicBezier pts m (s - 1)
          pure ⟨v, rr, pre ++ ⟨c ++ fourPoints sc tr q, r⟩ :: post⟩) := by
  unfold curveStep
  dsimp only
  cases CamullRomToCubicBezier pts m (s - 1) with
  | error e => rfl
  | ok q =>
    rw [ok_bind, ok_bind, if_neg (by omega), pushCps_at, ok_bind]
    rfl

theorem curveLoop_lod (sc tr : Fin 3 → ℚ) (th dth : ℚ) (lod : Int) (hl : 0 < lod)
    (pts : List real3) (m : Int) (pre post : List Hair) (v rr : List ℚ) (r : List ℚ)
    (js : List Nat) (c : List real3) :
    js.foldlM (fun σ (j : Nat) => curveStep sc tr th dth lod pts m pre.length σ ((j : Int) + 1))
        ⟨v, rr, pre ++ ⟨c, r⟩ :: post⟩ =
      (do let qs ← js.mapM (fun (j : Nat) => CamullRomToCubicBezier pts m ((j : Int) + 1 - 1))
          pure ⟨v, rr, pre ++ ⟨c ++ qs.flatMap (fourPoints sc tr), r⟩ :: post⟩) := by
  induction js generalizing c with
  | nil =>
    rw [List.foldlM_nil, List.mapM_nil]
    simp only [pure_bind, List.flatMap_nil, List.append_nil]
  | cons j js ih =>
    rw [List.foldlM_cons, List.mapM_cons, curveStep_lod_at sc tr th dth lod hl]
    cases hq : CamullRomToCubicBezier pts m ((j : Int) + 1 - 1) with
    | error e => rfl
    | ok q =>
      simp only [ok_bind, pure_bind]
      rw [ih]
      cases List.mapM (fun (j : Nat) => CamullRomToCubicBezier pts m ((j : Int) + 1 - 1)) js with
      | error e => rfl
      | ok qs =>
        simp only [ok_bind, pure_bind, List.flatMap_cons, List.append_assoc]

theorem strandStep_lod_eq (d : CyHair) (sc tr : Fin 3 → ℚ) (th : ℚ) (lod : Int) (hl : 0 < lod)
    (pre post : List Hair) (v rr : List ℚ) :
    strandStep d sc tr th lod ⟨v, rr, pre ++ Hair.empty :: post⟩ pre.length =
      (do let qs ← strandCurves d pre.length
          pure ⟨v, rr, pre ++ hairOf sc tr qs :: post⟩) := by
  unfold strandStep strandCurves
  cases numSegments d pre.length with
  | error e => rfl
  | ok m =>
    simp only [ok_bind]
    split
    · rfl
    · cases readStrand d pre.length m with
      | error e => rfl
      | ok pts =>
        simp only [ok_bind]
        have := curveLoop_lod sc tr th d.default_thickness_ lod hl pts m pre post v rr []
          (List.range (m - 2).toNat) []
        simp only [List.nil_append] at this
        exact this

theorem mapM_append_ok {α β : Type} (f : α → Run β) (l1 l2 : List α) :
    (l1 ++ l2).mapM f = (do let a ← l1.mapM f; let b ← l2.mapM f; pure (a ++ b)) := by
  induction l1 with
  | nil =>
    rw [List.nil_append, List.mapM_nil]
    cases List.mapM f l2 <;> rfl
  | cons x l1 ih =>
    rw [List.cons_append, List.mapM_cons, List.mapM_cons, ih]
    cases f x with
    | error e => rfl
    | ok y =>
      cases List.mapM f l1 with
      | error e => rfl
      | ok ys =>
        cases List.mapM f l2 <;> rfl

theorem foldlM_append_ok {σ β : Type} (f : σ → β → Run σ) (l1 l2 : List β) (s : σ) :
    (l1 ++ l2).foldlM f s = (l1.foldlM f s >>= fun s' => l2.foldlM f s') := by
  induction l1 generalizing s with
  | nil => rfl
  | cons x l1 ih =>
    rw [List.cons_append, List.foldlM_cons, List.foldlM_cons]
    cases f s x with
    | error e => rfl
    | ok s1 => exact ih s1

/-- The strand loop with LOD on, in closed form: after the first `n` of `N` strands
the vector `hairs` holds the hairs of these strands followed by empty hairs, and the
output buffers are empty. -/
theorem strandLoop_lod_eq (d : CyHair) (sc tr : Fin 3 → ℚ) (th : ℚ) (lod : Int) (hl : 0 < lod)
    (N n : Nat) (hn : n ≤ N) :
    (List.range n).foldlM (strandStep d sc tr th lod) ⟨[], [], List.replicate N Hair.empty⟩ =
      (do let qss ← (List.range n).mapM (strandCurves d)
          pure ⟨[], [], qss.map (hairOf sc tr) ++ List.replicate (N - n) Hair.empty⟩) := by
  induction n with
  | zero => rfl
  | succ n ih =>
    rw [List.range_succ, foldlM_append_ok, mapM_append_ok, ih (by omega)]
    cases hq : List.mapM (strandCurves d) (List.range n) with
    | error e => rfl
    | ok qss =>
      have hlen : (qss.map (hairOf sc tr)).length = n := by
        rw [List.length_map, mapM_ok_length hq, List.length_range]
      have hrep : List.replicate (N - n) Hair.empty =
          Hair.empty :: List.replicate (N - (n + 1)) Hair.empty := by
        rw [show N - n = (N - (n + 1)) + 1 by omega]
        rfl
      have := strandStep_lod_eq d sc tr th lod hl (qss.map (hairOf sc tr))
        (List.replicate (N - (n + 1)) Hair.empty) [] []
      rw [hlen] at this
      simp only [ok_bind, pure_bind, List.foldlM_cons, List.foldlM_nil, List.mapM_cons,
        List.mapM_nil, hrep, this]
      cases strandCurves d n with
      | error e => rfl
      | ok qs => simp

/-- The conversion with LOD on, in closed form. -/
theorem toCubic_lod (L : Lib) (d : CyHair) (v r : List ℚ) (sc tr : Fin 3 → ℚ) (ms : Int)
    (th : ℚ) (lod : Int) (hl : 0 < lod)
    (hg : (d.points_.isEmpty || d.strand_offsets_.isEmpty) = false)
    (hn : 0 ≤ effStrands d ms) :
    ToCubicBezierCurves L d v r sc tr ms th lod =
      (do let qss ← (List.range (effStrands d ms).toNat).mapM (strandCurves d)
          let combined ← combineLoop L th (qss.map (hairOf sc tr)).length
            (qss.map (hairOf sc tr)) 0 []
          let out ← combined.foldlM flattenHair ([], [])
          pure (true, out.1, out.2)) := by
  rw [toCubic_unfold L d v r sc tr ms th lod hg, if_neg (by omega),
    strandLoop_lod_eq d sc tr th lod hl _ _ (le_refl _)]
  cases List.mapM (strandCurves d) (List.range (effStrands d ms).toNat) with
  | error e => rfl
  | ok qss =>
    simp only [ok_bind, pure_bind, if_pos hl, Nat.sub_self, List.replicate_zero, List.append_nil]

theorem effStrands_lt (d : CyHair) (ms : Int) : effStrands d ms < 2 ^ 31 := by
  have h : toInt32 d.num_strands_ < 2 ^ 31 := by
    unfold toInt32
    split <;> omega
  unfold effStrands
  dsimp only
  split <;> omega

theorem hairOf_length (sc tr : Fin 3 → ℚ) (qs : List (Fin 4 → real3)) :
    (hairOf sc tr qs).cps.length = 4 * qs.length :=
  length_flatMap_const qs (fourPoints sc tr) 4 (fun _ => rfl)

/-- With LOD on, sorting routines that rearrange their input, at least one converted
strand and converted strands that are readable and all have the same number
`m ≥ 3` of segments, the conversion completes and returns true. -/
theorem toCubic_lod_total (L : Lib) (hS : L.Sorts) (d : CyHair) (v0 r0 : List ℚ)
    (sc tr : Fin 3 → ℚ) (ms : Int) (th : ℚ) (lod : Int) (hl : 0 < lod)
    (hg : (d.points_.isEmpty || d.strand_offsets_.isEmpty) = false)
    (hn : 1 ≤ effStrands d ms) (m : Int) (hm : 3 ≤ m)
    (hr : ∀ i, i < (effStrands d ms).toNat → StrandReadable d i ∧ segCount d i = m) :
    ∃ v r, ToCubicBezierCurves L d v0 r0 sc tr ms th lod = .ok (true, v, r) := by
  obtain ⟨qss, hqss⟩ := mapM_strandCurves_ok (fun i hi => (hr i hi).1)
  have hlen : qss.length = (effStrands d ms).toNat := by
    rw [mapM_ok_length hqss, List.length_range]
  have hu : Uniform (4 * (m - 2).toNat) (qss.map (hairOf sc tr)) := by
    intro h hh
    rw [List.mem_map] at hh
    obtain ⟨qs, hqs, rfl⟩ := hh
    rw [hairOf_length]
    obtain ⟨i, hi, rfl⟩ := List.getElem_of_mem hqs
    obtain ⟨hb, hq⟩ := mapM_ok_getElem hqss i (by rw [List.length_range]; omega)
    have := strandCurves_length hq
    simp only [List.get_eq_getElem, List.getElem_range] at this
    rw [this, (hr i (by omega)).2]
  have hbound := effStrands_lt d ms
  have hl1 : 1 ≤ (qss.map (hairOf sc tr)).length := by rw [List.length_map, hlen]; omega
  have hl2 : (qss.map (hairOf sc tr)).length < 2 ^ 64 := by rw [List.length_map, hlen]; omega
  obtain ⟨combined, hcomb⟩ := combineLoop_total hS (show 1 ≤ 4 * (m - 2).toNat by omega) th
    (qss.map (hairOf sc tr)).length hu 0 [] hl1 hl2 (by omega) (by omega)
  have hquad : HairsQuad (qss.map (hairOf sc tr)) := fun h hh => ⟨_, hu h hh⟩
  have hcq := combineLoop_quad hS _ hquad
    (show CombinedQuad [] from fun _ hy => absurd hy (List.not_mem_nil _)) hcomb
  obtain ⟨out, hout⟩ := flatten_total hcq ([], [])
  refine ⟨out.1, out.2, ?_⟩
  rw [toCubic_lod L d v0 r0 sc tr ms th lod hl hg (by omega), hqss, ok_bind, hcomb, ok_bind,
    hout, ok_bind]
  rfl

/-! ## The return value -/

/-- The return value of `ToCubicBezierCurves`. The call returns false when `points_` or
`strand_offsets_` is empty, and then leaves the two buffers of the caller as they were;
when neither is empty every return value is true. The call does return true with LOD
off when the strand count is not negative as an `int` and the converted strands are
readable, and with LOD on when in addition there is at least one converted strand, all
converted strands have the same number of at least 3 segments and the sorting routines
rearrange their input. -/
theorem false_iff_empty_tables (L : Lib) (d : CyHair) (v0 r0 : List ℚ)
    (sc tr : Fin 3 → ℚ) (ms : Int) (th : ℚ) (lod : Int) :
    ((d.points_ = [] ∨ d.strand_offsets_ = []) →
      ToCubicBezierCurves L d v0 r0 sc tr ms th lod = .ok (false, v0, r0)) ∧
    (¬ (d.points_ = [] ∨ d.strand_offsets_ = []) →
      ∀ b v r, ToCubicBezierCurves L d v0 r0 sc tr ms th lod = .ok (b, v, r) → b = true) ∧
    (¬ (d.points_ = [] ∨ d.strand_offsets_ = []) → lod ≤ 0 → 0 ≤ effStrands d ms →
      (∀ i, i < (effStrands d ms).toNat → StrandReadable d i) →
      ∃ v r, ToCubicBezierCurves L d v0 r0 sc tr ms th lod = .ok (true, v, r)) ∧
    (¬ (d.points_ = [] ∨ d.strand_offsets_ = []) → 0 < lod → L.Sorts → 1 ≤ effStrands d ms →
      ∀ m : Int, 3 ≤ m →
      (∀ i, i < (effStrands d ms).toNat → StrandReadable d i ∧ segCount d i = m) →
      ∃ v r, ToCubicBezierCurves L d v0 r0 sc tr ms th lod = .ok (true, v, r)) := by
  have hguard : (d.points_.isEmpty || d.strand_offsets_.isEmpty) = true ↔
      (d.points_ = [] ∨ d.strand_offsets_ = []) := by
    simp [List.isEmpty_iff]
  have hfalse : ¬ (d.points_ = [] ∨ d.strand_offsets_ = []) →
      (d.points_.isEmpty || d.strand_offsets_.isEmpty) = false := by
    intro hg
    cases hb : (d.points_.isEmpty || d.strand_offsets_.isEmpty) with
    | false => rfl
    | true => exact absurd (hguard.1 hb) hg
  refine ⟨?_, ?_, ?_, ?_⟩
  · intro hg
    unfold ToCubicBezierCurves
    rw [if_pos (hguard.2 hg)]
    rfl
  · intro hg b v r h
    have hg' : (d.points_.isEmpty || d.strand_offsets_.isEmpty) = false := by
      cases hb : (d.points_.isEmpty || d.strand_offsets_.isEmpty) with
      | false => rfl
      | true => exact absurd (hguard.1 hb) hg
    rw [toCubic_unfold L d v0 r0 sc tr ms th lod hg'] at h
    split at h
    · cases h
    simp only [bind_ok_iff] at h
    obtain ⟨σ, -, h⟩ := h
    split at h
    · simp only [bind_ok_iff, pure_ok_iff] at h
      obtain ⟨combined, -, out, -, heq⟩ := h
      simp only [Prod.mk.injEq] at heq
      exact heq.1.symm
    · rw [pure_ok_iff] at h
      simp only [Prod.mk.injEq] at h
      exact h.1.symm
  · intro hg hl hn hr
    have hg' : (d.points_.isEmpty || d.strand_offsets_.isEmpty) = false := by
      cases hb : (d.points_.isEmpty || d.strand_offsets_.isEmpty) with
      | false => rfl
      | true => exact absurd (hguard.1 hb) hg
    obtain ⟨qss, hqss⟩ := mapM_strandCurves_ok hr
    rw [toCubic_noLod L d v0 r0 sc tr ms th lod hl hg' hn, hqss]
    exact ⟨_, _, rfl⟩
  · intro hg hl hS hn m hm hr
    exact toCubic_lod_total L hS d v0 r0 sc tr ms th lod hl (hfalse hg) hn m hm hr

/-! ## The matrix of each curve -/

/-- Every Bezier group of a strand after the first one is computed with the general
matrix, the last one included: in pass `j` of the loop over `s` the index `seg_idx = j`
stays below `num_segments - 2`, the only value that selects `toC2B1`. -/
theorem strandCurves_matrices {d : CyHair} {i : Nat} {qs : List (Fin 4 → real3)}
    (h : strandCurves d i = .ok qs) (j : Nat) (hj : j < qs.length) :
    (j = 0 → ∃ b c e, (swappedPoints d i)[0]? = some b ∧ (swappedPoints d i)[1]? = some c ∧
      (swappedPoints d i)[2]? = some e ∧
      qs.get ⟨j, hj⟩ = mul_matrix toC2B0 ![real3.splat 0, b, c, e]) ∧
    (j ≠ 0 → ∃ a b c e, (swappedPoints d i)[j - 1]? = some a ∧
      (swappedPoints d i)[j]? = some b ∧ (swappedPoints d i)[j + 1]? = some c ∧
      (swappedPoints d i)[j + 2]? = some e ∧
      qs.get ⟨j, hj⟩ = mul_matrix toC2B ![a, b, c, e]) := by
  have hspec := strandCurves_spec h j hj
  have hlen := strandCurves_length h
  obtain ⟨q, hq, h0, h1⟩ := camull_in_loop (swappedPoints d i) (segCount d i) j
    (by simp [swappedPoints]) (by omega)
  rw [show (j : Int) + 1 - 1 = (j : Int) by omega, hspec] at hq
  cases hq
  exact ⟨h0, h1⟩

/-- Claim C2 at a strand of five points (four segments), LOD off, unit scale: the call
emits two curves, the first from `toC2B0` with a zero phantom point in front, the
last from the general matrix `toC2B` over the points 0 to 3; the last curve differs
from the result of the trailing matrix `toC2B1` on each window of three points
followed by a zero phantom point. -/
theorem last_curve_general_matrix :
    ToCubicBezierCurves sampleLib sampleStrand5 [] [] ![1, 1, 1] ![0, 0, 0] (-1) (-1) (-1) =
      .ok (true,
        curveFloats (mul_matrix toC2B0 ![real3.splat 0, ⟨0, 0, 0⟩, ⟨1, 3, 2⟩, ⟨2, 4, 5⟩]) ++
        curveFloats (mul_matrix toC2B ![⟨0, 0, 0⟩, ⟨1, 3, 2⟩, ⟨2, 4, 5⟩, ⟨3, 9, 7⟩]),
        [1 / 10, 1 / 10, 1 / 10, 1 / 10, 1 / 10, 1 / 10, 1 / 10, 1 / 10]) ∧
    curveFloats (mul_matrix toC2B ![⟨0, 0, 0⟩, ⟨1, 3, 2⟩, ⟨2, 4, 5⟩, ⟨3, 9, 7⟩]) ≠
      curveFloats (mul_matrix toC2B1 ![⟨0, 0, 0⟩, ⟨1, 3, 2⟩, ⟨2, 4, 5⟩, real3.splat 0]) ∧
    curveFloats (mul_matrix toC2B ![⟨0, 0, 0⟩, ⟨1, 3, 2⟩, ⟨2, 4, 5⟩, ⟨3, 9, 7⟩]) ≠
      curveFloats (mul_matrix toC2B1 ![⟨1, 3, 2⟩, ⟨2, 4, 5⟩, ⟨3, 9, 7⟩, real3.splat 0]) ∧
    curveFloats (mul_matrix toC2B ![⟨0, 0, 0⟩, ⟨1, 3, 2⟩, ⟨2, 4, 5⟩, ⟨3, 9, 7⟩]) ≠
      curveFloats (mul_matrix toC2B1 ![⟨2, 4, 5⟩, ⟨3, 9, 7⟩, ⟨4, 1, 1⟩, real3.splat 0]) := by
  decide!

/-! ## Scale and translation with LOD on -/

/-- Counterexample to claim C6 with LOD on: for three strands that are copies shifted along x by 1
and 200, the call with `lod_level = 1` under scale `(10, 10, 10)` emits two curves,
under scale `(1, 1, 1)` it emits one merged curve, so the first output is not the
affine image of the second. -/
theorem scale_translate_lod_counterexample :
    ToCubicBezierCurves sampleLib sampleHair [] [] ![10, 10, 10] ![0, 0, 0] (-1) 1 1 =
      .ok (true,
        [0, 0, 0, 0, 0, 10 / 3, 0, 0, 20 / 3, 0, 0, 10,
         10, 0, 0, 10, 0, 10 / 3, 10, 0, 20 / 3, 10, 0, 10],
        [1, 1, 1, 1, 1, 1, 1, 1]) ∧
    ToCubicBezierCurves sampleLib sampleHair [] [] ![1, 1, 1] ![0, 0, 0] (-1) 1 1 =
      .ok (true, [1 / 2, 0, 0, 1 / 2, 0, 1 / 3, 1 / 2, 0, 2 / 3, 1 / 2, 0, 1], [1, 1, 1, 1]) ∧
    ([0, 0, 0, 0, 0, 10 / 3, 0, 0, 20 / 3, 0, 0, 10,
      10, 0, 0, 10, 0, 10 / 3, 10, 0, 20 / 3, 10, 0, 10] : List ℚ) ≠
      affineImage ![10, 10, 10] ![0, 0, 0]
        [1 / 2, 0, 0, 1 / 2, 0, 1 / 3, 1 / 2, 0, 2 / 3, 1 / 2, 0, 1] := by
  decide!

/-! ## Sample runs -/

/-- The sorting routines of the sample library rearrange their input. -/
theorem sampleLib_sorts : sampleLib.Sorts :=
  ⟨fun _ l => List.Perm.refl l, fun l => List.Perm.refl l⟩

/-- Witness of claim C1: three strands of 5, 2 and 4 points. -/
theorem curve_count_noLod_witness :
    (-1 : Int) ≤ 0 ∧ Convertible sampleMixed (-1) ∧
    ∃ v r, ToCubicBezierCurves sampleLib sampleMixed [] [] ![1, 1, 1] ![0, 0, 0] (-1) (-1) (-1) =
        .ok (true, v, r) ∧
      r.length / 4 = v.length / 12 ∧
      r.length / 4 = ((List.range (effStrands sampleMixed (-1)).toNat).map
        (fun i => (segCount sampleMixed i - 2).toNat)).sum :=
  ⟨by decide, by decide,
    let ⟨v, r, _, h1, _, _, _, _, _, _, h6, h7⟩ :=
      curve_count_noLod sampleLib sampleMixed [] [] ![1, 1, 1] ![0, 0, 0] (-1) (-1) (-1)
        (by decide) (by decide)
    ⟨v, r, h1, h6, h7⟩⟩

/-- Witness of claim C4: four points, the join of the general and the trailing matrix. -/
theorem camullRom_adjacent_join_witness :
    ((([⟨0, 0, 0⟩, ⟨1, 3, 2⟩, ⟨2, 4, 5⟩, ⟨3, 9, 7⟩] : List real3).length : Int) = 4) ∧
    (3 : Int) ≤ 4 ∧ (0 : Int) ≤ 1 ∧ (1 : Int) + 1 ≤ 4 - 2 ∧
    ∃ Q Q', CamullRomToCubicBezier [⟨0, 0, 0⟩, ⟨1, 3, 2⟩, ⟨2, 4, 5⟩, ⟨3, 9, 7⟩] 4 1 = .ok Q ∧
      CamullRomToCubicBezier [⟨0, 0, 0⟩, ⟨1, 3, 2⟩, ⟨2, 4, 5⟩, ⟨3, 9, 7⟩] 4 (1 + 1) = .ok Q' ∧
      Q 3 = Q' 0 ∧ Q 3 - Q 2 = Q' 1 - Q' 0 :=
  ⟨by decide, by decide, by decide, by decide,
    camullRom_adjacent_join [⟨0, 0, 0⟩, ⟨1, 3, 2⟩, ⟨2, 4, 5⟩, ⟨3, 9, 7⟩] 4 1
      (by decide) (by decide) (by decide) (by decide)⟩

/-- Witness of claim C6, amended: three strands with scale `(2, 3, 4)` and translate
`(1, 1, 1)`. -/
theorem scale_translate_noLod_witness :
    (-1 : Int) ≤ 0 ∧ Convertible sampleMixed (-1) ∧
    ∃ v v1 r, ToCubicBezierCurves sampleLib sampleMixed [] [] ![2, 3, 4] ![1, 1, 1] (-1) (-1) (-1) =
        .ok (true, v, r) ∧
      ToCubicBezierCurves sampleLib sampleMixed [] [] ![1, 1, 1] ![0, 0, 0] (-1) (-1) (-1) =
        .ok (true, v1, r) ∧
      v = affineImage ![2, 3, 4] ![1, 1, 1] v1 :=
  ⟨by decide, by decide,
    let ⟨v, v1, r, _, h1, h2, h3, _⟩ :=
      scale_translate_noLod sampleLib sampleMixed [] [] ![2, 3, 4] ![1, 1, 1] (-1) (-1) (-1)
        (by decide) (by decide)
    ⟨v, v1, r, h1, h2, h3⟩⟩

/-- Witness of claim C7: three strands with the user thickness 1/2. -/
theorem radius_noLod_witness :
    (0 : Int) ≤ 0 ∧ Convertible sampleMixed (-1) ∧
    ∃ v r, ToCubicBezierCurves sampleLib sampleMixed [] [] ![1, 1, 1] ![0, 0, 0] (-1) (1 / 2) 0 =
        .ok (true, v, r) ∧
      ((0 : ℚ) < 1 / 2 → ∀ ρ ∈ r, ρ = 1 / 2) ∧
      (¬ (0 : ℚ) < 1 / 2 → ∀ ρ ∈ r, ρ = sampleMixed.default_thickness_) ∧
      (∀ c k, k < 4 → r[4 * c + k]? = r[4 * c]?) :=
  ⟨by decide, by decide,
    radius_noLod sampleLib sampleMixed [] [] ![1, 1, 1] ![0, 0, 0] (-1) (1 / 2) 0
      (by decide) (by decide)⟩

/-- Witness of claim C9: a run with LOD on that merges two of three strands. -/
theorem output_whole_curves_witness :
    sampleLib.Sorts ∧
    ToCubicBezierCurves sampleLib sampleHair [] [] ![1, 1, 1] ![0, 0, 0] (-1) 1 1 =
      .ok (true, [1 / 2, 0, 0, 1 / 2, 0, 1 / 3, 1 / 2, 0, 2 / 3, 1 / 2, 0, 1], [1, 1, 1, 1]) ∧
    ((∃ num_curves,
        ([1 / 2, 0, 0, 1 / 2, 0, 1 / 3, 1 / 2, 0, 2 / 3, 1 / 2, 0, 1] : List ℚ).length =
          12 * num_curves ∧
        ([1, 1, 1, 1] : List ℚ).length = 4 * num_curves) ∧
      ([1 / 2, 0, 0, 1 / 2, 0, 1 / 3, 1 / 2, 0, 2 / 3, 1 / 2, 0, 1] : List ℚ).length =
        3 * ([1, 1, 1, 1] : List ℚ).length ∧
      4 ∣ ([1, 1, 1, 1] : List ℚ).length) :=
  ⟨sampleLib_sorts, by decide!,
    output_whole_curves sampleLib sampleLib_sorts sampleHair [] [] ![1, 1, 1] ![0, 0, 0] (-1) 1 1
      _ _ (by decide!)⟩

/-- Sample runs for the return value: a dataset without points, three strands with LOD
off and three strands of one size with LOD on. -/
theorem false_iff_empty_tables_witness :
    (sampleEmpty.points_ = [] ∨ sampleEmpty.strand_offsets_ = []) ∧
    ToCubicBezierCurves sampleLib sampleEmpty [7] [8] ![1, 1, 1] ![0, 0, 0] (-1) (-1) (-1) =
      .ok (false, [7], [8]) ∧
    ¬ (sampleMixed.points_ = [] ∨ sampleMixed.strand_offsets_ = []) ∧
    (∃ v r, ToCubicBezierCurves sampleLib sampleMixed [7] [8] ![1, 1, 1] ![0, 0, 0] (-1) (-1)
      (-1) = .ok (true, v, r)) ∧
    ¬ (sampleHair.points_ = [] ∨ sampleHair.strand_offsets_ = []) ∧
    (∃ v r, ToCubicBezierCurves sampleLib sampleHair [7] [8] ![1, 1, 1] ![0, 0, 0] (-1) (-1) 1 =
      .ok (true, v, r)) :=
  ⟨by decide,
    (false_iff_empty_tables sampleLib sampleEmpty [7] [8] ![1, 1, 1] ![0, 0, 0] (-1) (-1) (-1)).1
      (by decide),
    by decide,
    (false_iff_empty_tables sampleLib sampleMixed [7] [8] ![1, 1, 1] ![0, 0, 0] (-1) (-1)
      (-1)).2.2.1 (by decide) (by decide) (by decide) (by decide),
    by decide,
    (false_iff_empty_tables sampleLib sampleHair [7] [8] ![1, 1, 1] ![0, 0, 0] (-1) (-1)
      1).2.2.2 (by decide) (by decide) sampleLib_sorts (by decide) 3 (by decide) (by decide)⟩

/-! ## The passes of the LOD merge -/

theorem lodStep_eq_pass (L : Lib) (th : ℚ) (hairs : List Hair) (count : Nat) :
    lodStep L th hairs count =
      (fun p => (p.hairs, p.accum, p.nHairs)) <$> lodPass L th hairs count := by
  unfold lodStep lodPass
  cases rootBoundsLoop hairs count with
  | error e => rfl
  | ok b =>
    simp only [ok_bind]
    cases minIndLoop hairs count b.MaximumExtent with
    | error e => rfl
    | ok mi =>
      simp only [ok_bind]
      cases at? hairs mi with
      | error e => rfl
      | ok c =>
        simp only [ok_bind]
        cases walk L c (List.take count hairs ++ L.sortSample c (List.drop count hairs)) count
            (List.take count hairs ++ L.sortSample c (List.drop count hairs)).length 1 1 with
        | error e => rfl
        | ok w =>
          obtain ⟨w1, w2⟩ := w
          simp only [ok_bind]
          generalize @List.foldlM (Except Fault) _ _ _ _ _ (List.range' count w2) = r
          cases r with
          | error e => rfl
          | ok st =>
            obtain ⟨s1, s2⟩ := st
            simp only [ok_bind]
            cases divideLoop s1 s2 with
            | error e => rfl
            | ok a => rfl

theorem combineLoop_eq_trace (L : Lib) (th : ℚ) (fuel : Nat) :
    ∀ (hairs : List Hair) (count : Nat) (c0 : List Hair) (passes : List Pass),
      combineLoop L th fuel hairs count (c0 ++ passes.map Pass.accum) =
        (fun r => c0 ++ r.2.map Pass.accum) <$> combineTrace L th fuel hairs count passes := by
  induction fuel with
  | zero =>
    intro hairs count c0 passes
    unfold combineLoop combineTrace
    split_ifs <;> rfl
  | succ n ih =>
    intro hairs count c0 passes
    unfold combineLoop combineTrace
    split_ifs
    · rfl
    · rw [lodStep_eq_pass]
      cases lodPass L th hairs count with
      | error e => rfl
      | ok p =>
        have := ih p.hairs (count + p.nHairs) c0 (passes ++ [p])
        simp only [List.map_append, List.map_cons, List.map_nil, ← List.append_assoc] at this
        simpa using this

theorem lodPass_ok_iff (L : Lib) (th : ℚ) (hairs : List Hair) (count : Nat) (p : Pass) :
    lodPass L th hairs count = .ok p ↔
      p.count = count ∧
      rootBoundsLoop hairs count = .ok p.rootBounds ∧
      p.axis = p.rootBounds.MaximumExtent ∧
      minIndLoop hairs count p.axis = .ok p.min_ind ∧
      at? hairs p.min_ind = .ok p.cmp_hair ∧
      p.sorted = hairs.take count ++ L.sortSample p.cmp_hair (hairs.drop count) ∧
      walk L p.cmp_hair p.sorted count p.sorted.length 1 1 = .ok (p.walked, p.nHairs) ∧
      p.hairs = p.sorted.take (count + 1) ++
        L.sortSegments ((p.sorted.drop (count + 1)).take (p.walked - 1)) ++
        p.sorted.drop (count + p.walked) ∧
      (List.range' count p.nHairs).foldlM (accumHair L p.hairs count)
        (Hair.empty.resize p.cmp_hair.size th,
          List.replicate (Hair.empty.resize p.cmp_hair.size th).size 0) =
        .ok (p.sums, p.additions) ∧
      divideLoop p.sums p.additions = .ok p.accum := by
  unfold lodPass
  simp only [bind_ok_iff, pure_ok_iff]
  constructor
  · rintro ⟨b, hb, mi, hmi, c, hc, ⟨w, s⟩, hw, ⟨sm, ad⟩, hacc, a, ha, rfl⟩
    exact ⟨rfl, hb, rfl, hmi, hc, rfl, hw, rfl, hacc, ha⟩
  · rintro ⟨h1, h2, h3, h4, h5, h6, h7, h8, h9, h10⟩
    obtain ⟨count', rootBounds, axis, min_ind, cmp_hair, sorted, walked, hairs', nHairs, sums,
      additions, accum⟩ := p
    simp only at h1 h2 h3 h4 h5 h6 h7 h8 h9 h10
    subst h1 h3 h6 h8
    exact ⟨_, h2, _, h4, _, h5, (walked, nHairs), h7, (sums, additions), h9, _, h10, rfl⟩

theorem at?_ok_lt {α : Type} {v : List α} {i : Nat} {a : α} (h : at? v i = .ok a) :
    i < v.length := by
  rw [at?_ok_iff] at h
  exact (List.getElem?_eq_some.mp h).1

theorem at?_error {α : Type} {v : List α} {i : Nat} {e : Fault} (h : at? v i = .error e) :
    e = .outOfRange := by
  unfold at? at h
  split at h
  · simp at h
  · simpa using h.symm

theorem drop_take_succ {α : Type} (l : List α) (i m : Nat) (a : α) (h : l[i]? = some a) :
    (l.drop i).take (m + 1) = a :: (l.drop (i + 1)).take m := by
  obtain ⟨hi, ha⟩ := List.getElem?_eq_some.mp h
  rw [List.drop_eq_getElem_cons hi, List.take_succ_cons, ha]

/-- What a completed walk returns. -/
theorem walk_spec (L : Lib) (cmp_hair : Hair) (hairs : List Hair) (count : Nat) :
    ∀ (fuel n s n' s' : Nat), walk L cmp_hair hairs count fuel n s = .ok (n', s') →
      n ≤ n' ∧
      s' = s + ((hairs.drop (count + n)).take (n' - n)).countP
        (fun h => decide (h.size ≤ cmp_hair.size)) ∧
      (count + n ≤ sizeMinusOne hairs.length → count + n' ≤ sizeMinusOne hairs.length) ∧
      (∀ h ∈ (hairs.drop (count + n)).take (n' - n), ∃ c0 q, at? cmp_hair.cps 0 = .ok c0 ∧
        at? h.cps 0 = .ok q ∧ distance L c0 q < MAX_DISTANCE) ∧
      (count + n' = sizeMinusOne hairs.length ∨
        ∃ c0 hi q, at? cmp_hair.cps 0 = .ok c0 ∧ at? hairs (count + n') = .ok hi ∧
          at? hi.cps 0 = .ok q ∧ MAX_DISTANCE ≤ distance L c0 q) ∧
      (count + n ≤ hairs.length → count + n' ≤ hairs.length) := by
  intro fuel
  induction fuel with
  | zero => intro n s n' s' h; simp [walk] at h
  | succ f ih =>
    intro n s n' s' h
    unfold walk at h
    dsimp only at h
    split_ifs at h with h1
    · simp only [pure_ok_iff, Prod.mk.injEq] at h
      obtain ⟨rfl, rfl⟩ := h
      simp [h1]
    · simp only [bind_ok_iff] at h
      obtain ⟨c0, hc0, hi, hhi, q, hq, h⟩ := h
      by_cases h2 : distance L c0 q ≥ MAX_DISTANCE
      · rw [if_pos h2] at h
        simp only [pure_ok_iff, Prod.mk.injEq] at h
        obtain ⟨rfl, rfl⟩ := h
        refine ⟨le_refl _, by simp, fun hh => hh, by simp,
          Or.inr ⟨c0, hi, q, hc0, hhi, hq, h2⟩, fun hh => hh⟩
      · rw [if_neg h2] at h
        obtain ⟨a1, a2, a3, a4, a5, a6⟩ := ih _ _ _ _ h
        have hget : hairs[count + n]? = some hi := at?_ok_iff.mp hhi
        have hlt := at?_ok_lt hhi
        have hsplit : (hairs.drop (count + n)).take (n' - n) =
            hi :: (hairs.drop (count + n + 1)).take (n' - (n + 1)) := by
          have : n' - n = (n' - (n + 1)) + 1 := by omega
          rw [this, drop_take_succ _ _ _ _ hget]
        refine ⟨by omega, ?_, ?_, ?_, a5, fun _ => a6 (by omega)⟩
        · rw [hsplit, List.countP_cons, a2]
          simp only [ge_iff_le, decide_eq_true_eq]
          rw [show count + (n + 1) = count + n + 1 by omega]
          split_ifs <;> omega
        · intro hh
          apply a3
          omega
        · intro h hmem
          rw [hsplit] at hmem
          rcases List.mem_cons.mp hmem with rfl | hmem
          · exact ⟨c0, q, hc0, hq, lt_of_not_ge h2⟩
          · rw [show count + (n + 1) = count + n + 1 by omega] at a4
            exact a4 h hmem

/-- The walk does not use up a budget that exceeds the number of hairs that are left. -/
theorem walk_no_fuel (L : Lib) (cmp_hair : Hair) (hairs : List Hair) (count : Nat) :
    ∀ (fuel n s : Nat), count + n ≤ hairs.length → hairs.length < fuel + (count + n) →
      walk L cmp_hair hairs count fuel n s ≠ .error .fuel := by
  intro fuel
  induction fuel with
  | zero => intro n s h1 h2; omega
  | succ f ih =>
    intro n s h1 h2
    unfold walk
    dsimp only
    split_ifs with h3
    · simp [pure, Except.pure]
    · cases hc : at? cmp_hair.cps 0 with
      | error e =>
        simp only [error_bind, at?_error hc]
        simp
      | ok c0 =>
        simp only [ok_bind]
        cases hh : at? hairs (count + n) with
        | error e =>
          simp only [error_bind, at?_error hh]
          simp
        | ok hi =>
          simp only [ok_bind]
          cases hq : at? hi.cps 0 with
          | error e =>
            simp only [error_bind, at?_error hq]
            simp
          | ok q =>
            simp only [ok_bind]
            have hlt := at?_ok_lt hh
            split_ifs
            · simp [pure, Except.pure]
            · exact ih _ _ (by omega) (by omega)
            · exact ih _ _ (by omega) (by omega)

theorem at?_zero_root {h : Hair} {p : real3} (hp : at? h.cps 0 = .ok p) : h.root = p := by
  rw [at?_ok_iff] at hp
  unfold Hair.root
  rw [List.getD_eq_getElem?_getD, hp]
  rfl

theorem Min_get (a b : real3) (c : Int) : (Min a b).get c = min (a.get c) (b.get c) := by
  unfold Min real3.get
  split_ifs <;> rfl

theorem Max_get (a b : real3) (c : Int) : (Max a b).get c = max (a.get c) (b.get c) := by
  unfold Max real3.get
  split_ifs <;> rfl

theorem sub_get (a b : real3) (c : Int) : (a - b).get c = a.get c - b.get c := by
  unfold real3.get
  split_ifs <;> rfl

/-- The axis that `MaximumExtent` returns has an extent that is at least the extent
of every axis. -/
theorem get_le_of (p : real3) (c : Int) (m : ℚ) (hx : p.x ≤ m) (hy : p.y ≤ m) (hz : p.z ≤ m) :
    p.get c ≤ m := by
  unfold real3.get
  split_ifs <;> assumption

/-- The axis that `MaximumExtent` returns has an extent that is at least the extent
of every axis. -/
theorem maximumExtent_widest (b : Bounds3f) (c : Int) :
    (b.pMax - b.pMin).get c ≤ (b.pMax - b.pMin).get b.MaximumExtent := by
  unfold Bounds3f.MaximumExtent
  dsimp only
  by_cases h1 : (b.pMax - b.pMin).x > (b.pMax - b.pMin).y ∧
      (b.pMax - b.pMin).x > (b.pMax - b.pMin).z
  · rw [if_pos h1]
    exact get_le_of _ _ _ (le_refl _) (le_of_lt h1.1) (le_of_lt h1.2)
  · rw [if_neg h1]
    by_cases h2 : (b.pMax - b.pMin).y > (b.pMax - b.pMin).z
    · rw [if_pos h2]
      refine get_le_of _ _ _ ?_ (le_refl _) (le_of_lt h2)
      show (b.pMax - b.pMin).x ≤ (b.pMax - b.pMin).y
      by_contra h3
      exact h1 ⟨lt_of_not_ge h3, lt_trans h2 (lt_of_not_ge h3)⟩
    · rw [if_neg h2]
      refine get_le_of _ _ _ ?_ (le_of_not_gt h2) (le_refl _)
      show (b.pMax - b.pMin).x ≤ (b.pMax - b.pMin).z
      by_contra h3
      exact h1 ⟨lt_of_le_of_lt (le_of_not_gt h2) (lt_of_not_ge h3), lt_of_not_ge h3⟩

theorem maximumExtent_range (b : Bounds3f) :
    b.MaximumExtent = 0 ∨ b.MaximumExtent = 1 ∨ b.MaximumExtent = 2 := by
  unfold Bounds3f.MaximumExtent
  dsimp only
  split_ifs <;> simp

/-- The bounds after the first `for_each` of a pass, componentwise. -/
theorem rootBoundsFold_spec (l : List Hair) :
    ∀ (b0 b : Bounds3f),
      l.foldlM (fun (rootBounds : Bounds3f) (h : Hair) => do
        let p ← at? h.cps 0
        pure (Union rootBounds p)) b0 = .ok b →
      (∀ h ∈ l, h.cps ≠ []) ∧
      ∀ c : Int,
        (b.pMin.get c ≤ b0.pMin.get c ∧ b0.pMax.get c ≤ b.pMax.get c) ∧
        (∀ h ∈ l, b.pMin.get c ≤ h.root.get c ∧ h.root.get c ≤ b.pMax.get c) ∧
        (b.pMin.get c = b0.pMin.get c ∨ ∃ h ∈ l, h.root.get c = b.pMin.get c) ∧
        (b.pMax.get c = b0.pMax.get c ∨ ∃ h ∈ l, h.root.get c = b.pMax.get c) := by
  induction l with
  | nil =>
    intro b0 b h
    simp only [List.foldlM_nil, pure_ok_iff] at h
    subst h
    simp
  | cons x l ih =>
    intro b0 b h
    rw [List.foldlM_cons, bind_ok_iff] at h
    obtain ⟨b1, hb1, h⟩ := h
    simp only [bind_ok_iff, pure_ok_iff] at hb1
    obtain ⟨p, hp, rfl⟩ := hb1
    obtain ⟨hne, hall⟩ := ih _ _ h
    have hroot := at?_zero_root hp
    have hxne : x.cps ≠ [] := by
      intro he
      have := at?_ok_lt hp
      rw [he] at this
      simp at this
    refine ⟨?_, ?_⟩
    · intro y hy
      rcases List.mem_cons.mp hy with rfl | hy
      · exact hxne
      · exact hne y hy
    · intro c
      obtain ⟨⟨a1, a2⟩, a3, a4, a5⟩ := hall c
      simp only [Union, Min_get, Max_get] at a1 a2 a4 a5
      rw [← hroot] at a1 a2 a4 a5
      refine ⟨⟨le_trans a1 (min_le_left _ _), le_trans (le_max_left _ _) a2⟩, ?_, ?_, ?_⟩
      · intro y hy
        rcases List.mem_cons.mp hy with rfl | hy
        · exact ⟨le_trans a1 (min_le_right _ _), le_trans (le_max_right _ _) a2⟩
        · exact a3 y hy
      · rcases a4 with a4 | ⟨y, hy, hyc⟩
        · rcases min_choice (b0.pMin.get c) (x.root.get c) with hm | hm
          · left; rw [a4, hm]
          · right; exact ⟨x, List.mem_cons_self _ _, by rw [a4, hm]⟩
        · right; exact ⟨y, List.mem_cons_of_mem _ hy, hyc⟩
      · rcases a5 with a5 | ⟨y, hy, hyc⟩
        · rcases max_choice (b0.pMax.get c) (x.root.get c) with hm | hm
          · left; rw [a5, hm]
          · right; exact ⟨x, List.mem_cons_self _ _, by rw [a5, hm]⟩
        · right; exact ⟨y, List.mem_cons_of_mem _ hy, hyc⟩

theorem empty_get (c : Int) :
    Bounds3f.empty.pMin.get c = FLT_MAX ∧ Bounds3f.empty.pMax.get c = -FLT_MAX := by
  unfold Bounds3f.empty real3.get
  split_ifs <;> simp

theorem inFloatRange_get {p : real3} (h : InFloatRange p) (c : Int) :
    -FLT_MAX ≤ p.get c ∧ p.get c ≤ FLT_MAX := by
  obtain ⟨hx, hy, hz⟩ := h
  unfold real3.get
  split_ifs <;> assumption

/-- The first `for_each` of a pass computes the bounding box of the root points of the
hairs that are left, when there is such a hair and the root points are finite. -/
theorem rootBoundsLoop_box {hairs : List Hair} {count : Nat} {b : Bounds3f}
    (h : rootBoundsLoop hairs count = .ok b) (hc : count < hairs.length)
    (hfl : ∀ x ∈ hairs.drop count, InFloatRange x.root) :
    IsBoundingBox b ((hairs.drop count).map Hair.root) := by
  unfold rootBoundsLoop at h
  obtain ⟨-, hall⟩ := rootBoundsFold_spec _ _ _ h
  have hne : hairs.drop count ≠ [] := by
    intro he
    have := congrArg List.length he
    simp at this
    omega
  obtain ⟨x0, hx0⟩ := List.exists_mem_of_ne_nil _ hne
  intro c
  obtain ⟨-, a3, a4, a5⟩ := hall c
  obtain ⟨e1, e2⟩ := empty_get c
  refine ⟨?_, ?_, ?_⟩
  · intro p hp
    obtain ⟨y, hy, rfl⟩ := List.mem_map.mp hp
    exact a3 y hy
  · rcases a4 with a4 | ⟨y, hy, hyc⟩
    · refine ⟨x0.root, List.mem_map_of_mem _ hx0, ?_⟩
      have := (a3 x0 hx0).1
      have := (inFloatRange_get (hfl x0 hx0) c).2
      rw [a4, e1] at *
      linarith
    · exact ⟨y.root, List.mem_map_of_mem _ hy, hyc⟩
  · rcases a5 with a5 | ⟨y, hy, hyc⟩
    · refine ⟨x0.root, List.mem_map_of_mem _ hx0, ?_⟩
      have := (a3 x0 hx0).2
      have := (inFloatRange_get (hfl x0 hx0) c).1
      rw [a5, e2] at *
      linarith
    · exact ⟨y.root, List.mem_map_of_mem _ hy, hyc⟩

theorem rootBoundsLoop_ok_of_nonempty (hairs : List Hair) (count : Nat)
    (hne : ∀ x ∈ hairs.drop count, x.cps ≠ []) : ∃ b, rootBoundsLoop hairs count = .ok b := by
  unfold rootBoundsLoop
  obtain ⟨b, hb, -⟩ := foldlM_total (fun _ => True)
    (fun (rootBounds : Bounds3f) (h : Hair) => do
      let p ← at? h.cps 0
      pure (Union rootBounds p)) (hairs.drop count) (by
    intro s h hh _
    obtain ⟨p, hp, -⟩ := at?_ok_of_lt (show 0 < h.cps.length from
      List.length_pos.mpr (hne h hh))
    exact ⟨Union s p, by dsimp only; rw [hp]; rfl, trivial⟩) Bounds3f.empty trivial
  exact ⟨b, hb⟩

theorem minIndFold_spec (hairs : List Hair) (count : Nat) (axis : Int) :
    ∀ (l : List Hair) (c m : Nat) (st' : Nat × Nat), hairs.drop c = l → count ≤ c →
      MinIndInv hairs count axis c m →
      l.foldlM
        (fun (st : Nat × Nat) h => do
          let p ← at? h.cps 0
          let hm ← at? hairs st.2
          let pm ← at? hm.cps 0
          pure (st.1 + 1, if p.get axis < pm.get axis then st.1 else st.2)) (c, m) = .ok st' →
      MinIndInv hairs count axis (c + l.length) st'.2 := by
  intro l
  induction l with
  | nil =>
    intro c m st' _ _ hinv h
    simp only [List.foldlM_nil, pure_ok_iff] at h
    subst h
    simpa using hinv
  | cons x l ih =>
    intro c m st' hdrop hc hinv h
    rw [List.foldlM_cons, bind_ok_iff] at h
    obtain ⟨st1, hst1, h⟩ := h
    simp only [bind_ok_iff, pure_ok_iff] at hst1
    obtain ⟨p, hp, hm, hhm, pm, hpm, rfl⟩ := hst1
    have hclt : c < hairs.length := by
      by_contra hge
      rw [List.drop_eq_nil_of_le (by omega)] at hdrop
      simp at hdrop
    have hxc : hairs[c]? = some x := by
      rw [List.drop_eq_getElem_cons hclt] at hdrop
      rw [List.getElem?_eq_getElem hclt]
      simp only [List.cons.injEq] at hdrop
      rw [hdrop.1]
    have hdrop' : hairs.drop (c + 1) = l := by
      rw [List.drop_eq_getElem_cons hclt] at hdrop
      simp only [List.cons.injEq] at hdrop
      exact hdrop.2
    have hrx := at?_zero_root hp
    have hrm := at?_zero_root hpm
    rw [at?_ok_iff] at hhm
    obtain ⟨i1, i2, i3⟩ := hinv
    have := ih (c + 1) (if p.get axis < pm.get axis then c else m) st' hdrop' (by omega) (by
      by_cases hlt : p.get axis < pm.get axis
      · rw [if_pos hlt]
        refine ⟨hc, Or.inl (by omega), ?_⟩
        intro j hj1 hj2 hm' hj' hm'e hj'e
        rw [hxc] at hm'e
        simp only [Option.some.injEq] at hm'e
        subst hm'e
        rw [hrx]
        by_cases hjc : j = c
        · subst hjc
          rw [hxc] at hj'e
          simp only [Option.some.injEq] at hj'e
          subst hj'e
          rw [hrx]
        · have := i3 j hj1 (by omega) hm hj' hhm hj'e
          rw [hrm] at this
          linarith
      · rw [if_neg hlt]
        refine ⟨i1, ?_, ?_⟩
        · rcases i2 with i2 | i2
          · left; omega
          · right; exact i2
        · intro j hj1 hj2 hm' hj' hm'e hj'e
          rw [hhm] at hm'e
          simp only [Option.some.injEq] at hm'e
          subst hm'e
          by_cases hjc : j = c
          · subst hjc
            rw [hxc] at hj'e
            simp only [Option.some.injEq] at hj'e
            subst hj'e
            rw [hrx, hrm]
            exact le_of_not_lt hlt
          · exact i3 j hj1 (by omega) _ hj' hhm hj'e) h
    rw [List.length_cons]
    rw [show c + (l.length + 1) = c + 1 + l.length by omega]
    exact this

/-- The index that the second `for_each` of a pass leaves in `min_ind`. -/
theorem minIndLoop_spec {hairs : List Hair} {count : Nat} {axis : Int} {mi : Nat}
    (h : minIndLoop hairs count axis = .ok mi) (hc : count < hairs.length) :
    count ≤ mi ∧ mi < hairs.length ∧
      ∀ hm, hairs[mi]? = some hm → ∀ x ∈ hairs.drop count,
        hm.root.get axis ≤ x.root.get axis := by
  unfold minIndLoop at h
  simp only [bind_ok_iff, pure_ok_iff] at h
  obtain ⟨st, hst, rfl⟩ := h
  have := minIndFold_spec hairs count axis (hairs.drop count) count count st rfl (le_refl _)
    ⟨le_refl _, Or.inr rfl, fun j h1 h2 => by omega⟩ hst
  obtain ⟨i1, i2, i3⟩ := this
  rw [List.length_drop] at i2 i3
  refine ⟨i1, by omega, ?_⟩
  intro hm hhm x hx
  obtain ⟨j, hj, hjx⟩ := List.getElem_of_mem hx
  rw [List.length_drop] at hj
  rw [List.getElem_drop] at hjx
  refine i3 (count + j) (by omega) (by omega) hm x hhm ?_
  rw [List.getElem?_eq_getElem (by omega), hjx]

theorem mem_drop_of_getElem? {α : Type} {l : List α} {n i : Nat} {a : α} (h : l[i]? = some a)
    (hn : n ≤ i) : a ∈ l.drop n := by
  obtain ⟨hi, ha⟩ := List.getElem?_eq_some.mp h
  rw [List.mem_iff_getElem]
  refine ⟨i - n, by rw [List.length_drop]; omega, ?_⟩
  rw [List.getElem_drop]
  simp only [show n + (i - n) = i by omega]
  exact ha

theorem minIndLoop_ok_of_nonempty (hairs : List Hair) (count : Nat) (axis : Int)
    (hc : count < hairs.length) (hne : ∀ x ∈ hairs.drop count, x.cps ≠ []) :
    ∃ mi, minIndLoop hairs count axis = .ok mi := by
  have key : ∀ (l : List Hair) (c m : Nat), hairs.drop c = l → count ≤ c → count ≤ m →
      m < hairs.length →
      ∃ st', l.foldlM
        (fun (st : Nat × Nat) h => do
          let p ← at? h.cps 0
          let hm ← at? hairs st.2
          let pm ← at? hm.cps 0
          pure (st.1 + 1, if p.get axis < pm.get axis then st.1 else st.2)) (c, m) = .ok st' := by
    intro l
    induction l with
    | nil => intro c m _ _ _ _; exact ⟨_, rfl⟩
    | cons x l ih =>
      intro c m hdrop hc1 hm1 hm2
      have hclt : c < hairs.length := by
        by_contra hge
        rw [List.drop_eq_nil_of_le (by omega)] at hdrop
        simp at hdrop
      have hdrop' : hairs.drop (c + 1) = l := by
        rw [List.drop_eq_getElem_cons hclt] at hdrop
        simp only [List.cons.injEq] at hdrop
        exact hdrop.2
      have hxc : hairs[c]? = some x := by
        rw [List.drop_eq_getElem_cons hclt] at hdrop
        rw [List.getElem?_eq_getElem hclt]
        simp only [List.cons.injEq] at hdrop
        rw [hdrop.1]
      have hx := hne x (mem_drop_of_getElem? hxc hc1)
      obtain ⟨p, hp, -⟩ := at?_ok_of_lt (List.length_pos.mpr hx)
      obtain ⟨hm, hhm, -⟩ := at?_ok_of_lt hm2
      have hhm' := hne hm (mem_drop_of_getElem? (at?_ok_iff.mp hhm) hm1)
      obtain ⟨pm, hpm, -⟩ := at?_ok_of_lt (List.length_pos.mpr hhm')
      obtain ⟨st', hst'⟩ := ih (c + 1) (if p.get axis < pm.get axis then c else m) hdrop'
        (by omega) (by split <;> omega) (by split <;> omega)
      refine ⟨st', ?_⟩
      rw [List.foldlM_cons, hp, ok_bind, hhm, ok_bind, hpm, ok_bind]
      exact hst'
  obtain ⟨st, hst⟩ := key (hairs.drop count) count count rfl (le_refl _) (le_refl _) hc
  refine ⟨st.2, ?_⟩
  unfold minIndLoop
  rw [hst]
  rfl

theorem getD_of_at? {α : Type} {v : List α} {i : Nat} {a : α} (d : α) (h : at? v i = .ok a) :
    v.getD i d = a := by
  rw [at?_ok_iff] at h
  rw [List.getD_eq_getElem?_getD, h]
  rfl

theorem getD_set {α : Type} (l : List α) (k j : Nat) (v d : α) (hk : k < l.length) :
    (l.set k v).getD j d = if j = k then v else l.getD j d := by
  rw [List.getD_eq_getElem?_getD, List.getD_eq_getElem?_getD, List.getElem?_set]
  by_cases h : k = j
  · subst h
    simp [hk]
  · rw [if_neg h, if_neg (fun e => h e.symm)]

theorem accumStep_entry {L : Lib} {hairs : List Hair} {count i k : Nat} {st st' : Hair × List Int}
    {h h0 : Hair} (hs : accumStep L hairs count i st k = .ok st') (hi : hairs[i]? = some h)
    (hc : hairs[count]? = some h0) :
    st'.1.cps.length = st.1.cps.length ∧ st'.1.radii.length = st.1.radii.length ∧
    st'.2.length = st.2.length ∧ k < h.size ∧
    ∀ j, entry st' j = if j = k then addAt L h0 h k (entry st k) else entry st j := by
  unfold accumStep at hs
  simp only [bind_ok_iff, pure_ok_iff] at hs
  obtain ⟨hi', hhi, a, ha, p, hp, n, hn, h0', hh0, p0, hp0, r, hr, rfl⟩ := hs
  rw [at?_ok_iff, hi] at hhi
  rw [at?_ok_iff, hc] at hh0
  simp only [Option.some.injEq] at hhi hh0
  subst hhi hh0
  have hk : k < h.size := at?_ok_lt hp
  refine ⟨by simp, by simp, by simp, hk, ?_⟩
  intro j
  unfold entry
  dsimp only
  rw [getD_set _ _ _ _ _ (at?_ok_lt ha), getD_set _ _ _ _ _ (at?_ok_lt hn),
    getD_set _ _ _ _ _ (at?_ok_lt hr)]
  by_cases hj : j = k
  · subst hj
    simp only [if_true]
    unfold addAt
    rw [if_pos hk]
    dsimp only
    rw [getD_of_at? _ ha, getD_of_at? _ hp, getD_of_at? _ hn, getD_of_at? _ hp0,
      getD_of_at? _ hr]
  · simp only [if_neg hj]

theorem foldlM_range_succ {σ : Type} (f : σ → Nat → Run σ) (m : Nat) (s s' : σ) :
    (List.range (m + 1)).foldlM f s = .ok s' ↔
      ∃ s1, (List.range m).foldlM f s = .ok s1 ∧ f s1 m = .ok s' := by
  rw [List.range_succ, List.foldlM_append, bind_ok_iff]
  simp only [List.foldlM_cons, List.foldlM_nil, bind_ok_iff, pure_ok_iff]
  constructor
  · rintro ⟨s1, h1, s2, h2, rfl⟩
    exact ⟨s1, h1, h2⟩
  · rintro ⟨s1, h1, h2⟩
    exact ⟨s1, h1, s', h2, rfl⟩

theorem accumSteps_entry {L : Lib} {hairs : List Hair} {count i : Nat}
    {h h0 : Hair} (hi : hairs[i]? = some h) (hc : hairs[count]? = some h0) :
    ∀ (m : Nat) (st st' : Hair × List Int),
      (List.range m).foldlM (accumStep L hairs count i) st = .ok st' →
      st'.1.cps.length = st.1.cps.length ∧ st'.1.radii.length = st.1.radii.length ∧
      st'.2.length = st.2.length ∧ m ≤ h.size ∧
      ∀ j, entry st' j = if j < m then addAt L h0 h j (entry st j) else entry st j := by
  intro m
  induction m with
  | zero =>
    intro st st' hs
    simp only [List.range_zero, List.foldlM_nil, pure_ok_iff] at hs
    subst hs
    simp
  | succ m ih =>
    intro st st' hs
    rw [foldlM_range_succ] at hs
    obtain ⟨s1, h1, h2⟩ := hs
    obtain ⟨a1, a2, a3, a4, a5⟩ := ih _ _ h1
    obtain ⟨b1, b2, b3, b4, b5⟩ := accumStep_entry h2 hi hc
    refine ⟨b1.trans a1, b2.trans a2, b3.trans a3, by omega, ?_⟩
    intro j
    rw [b5 j]
    by_cases hj : j = m
    · subst hj
      rw [if_pos rfl, if_pos (by omega), a5 j, if_neg (by omega)]
    · rw [if_neg hj, a5 j]
      by_cases hjm : j < m
      · rw [if_pos hjm, if_pos (by omega)]
      · rw [if_neg hjm, if_neg (by omega)]

/-- The loop over `k` for one admitted hair, entry by entry. -/
theorem accumHair_entry {L : Lib} {hairs : List Hair} {count i : Nat} {st st' : Hair × List Int}
    {h0 : Hair} (hs : accumHair L hairs count st i = .ok st') (hc : hairs[count]? = some h0) :
    ∃ h, hairs[i]? = some h ∧
      st'.1.cps.length = st.1.cps.length ∧ st'.1.radii.length = st.1.radii.length ∧
      st'.2.length = st.2.length ∧
      ∀ j, entry st' j = addAt L h0 h j (entry st j) := by
  unfold accumHair at hs
  simp only [bind_ok_iff] at hs
  obtain ⟨h, hh, hs⟩ := hs
  rw [at?_ok_iff] at hh
  obtain ⟨a1, a2, a3, -, a5⟩ := accumSteps_entry hh hc _ _ _ hs
  refine ⟨h, hh, a1, a2, a3, ?_⟩
  intro j
  rw [a5 j]
  split_ifs with hj
  · rfl
  · unfold addAt
    rw [if_neg hj]

/-- The loop over the admitted hairs, entry by entry. -/
theorem accumLoop_entry {L : Lib} {hairs : List Hair} {count : Nat} {h0 : Hair}
    (hc : hairs[count]? = some h0) :
    ∀ (n s : Nat) (st st' : Hair × List Int),
      (List.range' s n).foldlM (accumHair L hairs count) st = .ok st' →
      st'.1.cps.length = st.1.cps.length ∧ st'.1.radii.length = st.1.radii.length ∧
      st'.2.length = st.2.length ∧
      ∀ j, entry st' j =
        ((hairs.drop s).take n).foldl (fun e h => addAt L h0 h j e) (entry st j) := by
  intro n
  induction n with
  | zero =>
    intro s st st' hs
    simp only [List.range'_zero, List.foldlM_nil, pure_ok_iff] at hs
    subst hs
    simp
  | succ n ih =>
    intro s st st' hs
    rw [List.range'_succ, List.foldlM_cons, bind_ok_iff] at hs
    obtain ⟨s1, h1, h2⟩ := hs
    obtain ⟨h, hh, a1, a2, a3, a4⟩ := accumHair_entry h1 hc
    obtain ⟨b1, b2, b3, b4⟩ := ih _ _ _ h2
    refine ⟨b1.trans a1, b2.trans a2, b3.trans a3, ?_⟩
    intro j
    rw [b4 j, drop_take_succ _ _ _ _ hh, List.foldl_cons, a4 j]

theorem divideFold_spec :
    ∀ (l : List Int) (c0 : Nat) (acc : Hair) (st' : Nat × Hair),
      l.foldlM
        (fun (st : Nat × Hair) (a : Int) => do
          let p ← at? st.2.cps st.1
          pure (st.1 + 1, { st.2 with cps := st.2.cps.set st.1 (p.divf (a : ℚ)) }))
        (c0, acc) = .ok st' →
      st'.2.radii = acc.radii ∧ st'.2.cps.length = acc.cps.length ∧
      ∀ c, st'.2.cps.getD c real3.zero =
        if c0 ≤ c ∧ c < c0 + l.length then
          (acc.cps.getD c real3.zero).divf ((l.getD (c - c0) 0 : Int) : ℚ)
        else acc.cps.getD c real3.zero := by
  intro l
  induction l with
  | nil =>
    intro c0 acc st' h
    simp only [List.foldlM_nil, pure_ok_iff] at h
    subst h
    refine ⟨rfl, rfl, ?_⟩
    intro c
    rw [if_neg (by simp)]
  | cons a l ih =>
    intro c0 acc st' h
    rw [List.foldlM_cons, bind_ok_iff] at h
    obtain ⟨s1, h1, h2⟩ := h
    simp only [bind_ok_iff, pure_ok_iff] at h1
    obtain ⟨p, hp, rfl⟩ := h1
    obtain ⟨a1, a2, a3⟩ := ih _ _ _ h2
    dsimp only at a1 a2 a3
    refine ⟨a1, by rw [a2, List.length_set], ?_⟩
    intro c
    rw [a3 c, getD_set _ _ _ _ _ (at?_ok_lt hp), List.length_cons]
    by_cases hc : c = c0
    · subst hc
      rw [if_neg (by omega), if_pos rfl, if_pos (by omega), getD_of_at? _ hp]
      simp
    · rw [if_neg hc]
      by_cases hr : c0 + 1 ≤ c ∧ c < c0 + 1 + l.length
      · rw [if_pos hr, if_pos (by omega)]
        have : c - c0 = (c - (c0 + 1)) + 1 := by omega
        rw [this, List.getD_cons_succ]
      · rw [if_neg hr, if_neg (by omega)]

/-- The last `for_each` of a pass: every control point with a counter is divided by
its counter, the radii stay. -/
theorem divideLoop_spec {accum accum' : Hair} {additions : List Int}
    (h : divideLoop accum additions = .ok accum') :
    accum'.radii = accum.radii ∧ accum'.cps.length = accum.cps.length ∧
    ∀ c, c < additions.length → accum'.cps.getD c real3.zero =
      (accum.cps.getD c real3.zero).divf ((additions.getD c 0 : Int) : ℚ) := by
  unfold divideLoop at h
  simp only [bind_ok_iff, pure_ok_iff] at h
  obtain ⟨st, hst, rfl⟩ := h
  obtain ⟨a1, a2, a3⟩ := divideFold_spec _ _ _ _ hst
  refine ⟨a1, a2, ?_⟩
  intro c hc
  rw [a3 c, if_pos (by omega)]
  simp

/-- The entry `k` after the loop over the admitted hairs, by component. -/
theorem foldl_addAt (L : Lib) (h0 : Hair) (k : Nat) :
    ∀ (hs : List Hair) (e : real3 × Int × ℚ),
      hs.foldl (fun e h => addAt L h0 h k e) e =
        ((contributors k hs).foldl (fun a h => a + h.cps.getD k real3.zero) e.1,
         e.2.1 + ((contributors k hs).length : Int),
         (contributors k hs).foldl (fun r h => min (max r
           (distance L (h.cps.getD k real3.zero) (h0.cps.getD k real3.zero))) MAX_HAIR_RADIUS)
           e.2.2) := by
  intro hs
  induction hs with
  | nil => intro e; simp [contributors]
  | cons h hs ih =>
    intro e
    rw [List.foldl_cons, ih]
    unfold contributors addAt
    by_cases hk : k < h.size
    · rw [if_pos hk, List.filter_cons_of_pos (by simpa using hk)]
      simp only [List.foldl_cons, List.length_cons]
      push_cast
      rw [add_assoc, add_comm (1 : Int)]
    · rw [if_neg hk, List.filter_cons_of_neg (by simpa using hk)]

theorem entry_init (N : Nat) (th : ℚ) (k : Nat) (hk : k < N) :
    entry (Hair.empty.resize N th, List.replicate (Hair.empty.resize N th).size (0 : Int)) k =
      (real3.zero, 0, th) := by
  unfold entry Hair.resize Hair.empty vresize Hair.size
  simp [List.getD_eq_getElem?_getD, List.getElem?_replicate, hk]

/-- The accumulator of a completed pass, entry by entry: the sum and the counter run
over the admitted hairs that have the index, the radius starts from the thickness. -/
theorem pass_entries {L : Lib} {th : ℚ} {hairs : List Hair} {count : Nat} {p : Pass}
    (h : lodPass L th hairs count = .ok p) :
    1 ≤ p.nHairs ∧
    ∃ h0, p.hairs[count]? = some h0 ∧
      p.accum.cps.length = p.cmp_hair.size ∧ p.accum.radii.length = p.cmp_hair.size ∧
      p.additions.length = p.cmp_hair.size ∧
      ∀ k, k < p.cmp_hair.size →
        p.additions.getD k 0 = ((contributors k p.admitted).length : Int) ∧
        p.sums.cps.getD k real3.zero =
          (contributors k p.admitted).foldl (fun a x => a + x.cps.getD k real3.zero)
            real3.zero ∧
        p.accum.cps.getD k real3.zero =
          (p.sums.cps.getD k real3.zero).divf ((p.additions.getD k 0 : Int) : ℚ) ∧
        p.accum.radii.getD k 0 =
          (contributors k p.admitted).foldl (fun r x => min (max r
            (distance L (x.cps.getD k real3.zero) (h0.cps.getD k real3.zero))) MAX_HAIR_RADIUS)
            th := by
  rw [lodPass_ok_iff] at h
  obtain ⟨h1, h2, h3, h4, h5, h6, h7, h8, h9, h10⟩ := h
  obtain ⟨-, w2, -, -, -⟩ := walk_spec _ _ _ _ _ _ _ _ _ h7
  have hn : 1 ≤ p.nHairs := by omega
  refine ⟨hn, ?_⟩
  obtain ⟨m, hm⟩ : ∃ m, p.nHairs = m + 1 := ⟨p.nHairs - 1, by omega⟩
  have h9' := h9
  rw [hm, List.range'_succ, List.foldlM_cons, bind_ok_iff] at h9'
  obtain ⟨s1, hs1, -⟩ := h9'
  unfold accumHair at hs1
  simp only [bind_ok_iff] at hs1
  obtain ⟨h0, hh0, -⟩ := hs1
  rw [at?_ok_iff] at hh0
  obtain ⟨a1, a2, a3, a4⟩ := accumLoop_entry hh0 _ _ _ _ h9
  obtain ⟨d1, d2, d3⟩ := divideLoop_spec h10
  dsimp only at a1 a2 a3
  have l1 : p.sums.cps.length = p.cmp_hair.size := by
    rw [a1]; simp [Hair.resize, Hair.empty, vresize]
  have l2 : p.sums.radii.length = p.cmp_hair.size := by
    rw [a2]; simp [Hair.resize, Hair.empty, vresize]
  have l3 : p.additions.length = p.cmp_hair.size := by
    rw [a3]; simp [Hair.resize, Hair.empty, vresize, Hair.size]
  refine ⟨h0, hh0, by rw [d2, l1], by rw [d1, l2], l3, ?_⟩
  intro k hk
  have e := a4 k
  rw [entry_init _ _ _ hk, foldl_addAt] at e
  unfold entry at e
  simp only [Prod.mk.injEq, zero_add] at e
  obtain ⟨e1, e2, e3⟩ := e
  have hadm : p.admitted = (p.hairs.drop count).take p.nHairs := by
    unfold Pass.admitted; rw [h1]
  rw [hadm]
  refine ⟨e2, e1, d3 k (by omega), ?_⟩
  rw [d1]
  exact e3

theorem take_drop_take_drop {α : Type} (l : List α) (c w : Nat) (hw : 1 ≤ w) :
    l.take (c + 1) ++ (l.drop (c + 1)).take (w - 1) ++ l.drop (c + w) = l := by
  have : l.drop (c + w) = (l.drop (c + 1)).drop (w - 1) := by
    rw [List.drop_drop]
    congr 1
    omega
  rw [this, List.append_assoc, List.take_append_drop, List.take_append_drop]

/-- What one completed pass does to the vector and to the cursor. -/
theorem pass_bounds {L : Lib} (hS : L.Sorts) {th : ℚ} {hairs : List Hair} {count : Nat} {p : Pass}
    (h : lodPass L th hairs count = .ok p) (hlen : hairs.length < 2 ^ 64)
    (hc : count + 1 < hairs.length) :
    p.count = count ∧ p.sorted.length = hairs.length ∧ p.hairs.length = hairs.length ∧
    p.sorted.Perm hairs ∧ p.hairs.Perm hairs ∧ p.hairs.take count = hairs.take count ∧
    1 ≤ p.nHairs ∧ p.nHairs ≤ p.walked ∧ count + p.walked ≤ hairs.length - 1 := by
  rw [lodPass_ok_iff] at h
  obtain ⟨h1, h2, h3, h4, h5, h6, h7, h8, h9, h10⟩ := h
  have hperm1 : p.sorted.Perm hairs := by
    rw [h6]
    exact ((hS.1 _ _).append_left _).trans (by rw [List.take_append_drop])
  have hl1 : p.sorted.length = hairs.length := hperm1.length_eq
  obtain ⟨w1, w2, w3, -, -⟩ := walk_spec _ _ _ _ _ _ _ _ _ h7
  rw [hl1, sizeMinusOne_eq (by omega) hlen] at w3
  have w3' := w3 (by omega)
  have hperm2 : p.hairs.Perm p.sorted := by
    rw [h8]
    refine (((hS.2 _).append_left _).append_right _).trans ?_
    rw [take_drop_take_drop _ _ _ w1]
  have hcnt : p.nHairs ≤ p.walked := by
    rw [w2]
    have := List.countP_le_length (fun h => decide (h.size ≤ p.cmp_hair.size))
      (l := List.take (p.walked - 1) (List.drop (count + 1) p.sorted))
    rw [List.length_take] at this
    omega
  refine ⟨h1, hl1, by rw [hperm2.length_eq, hl1], hperm1, hperm2.trans hperm1, ?_, by omega,
    hcnt, w3'⟩
  rw [h8, List.append_assoc, List.take_append_of_le_length (by
    rw [List.length_take]; omega), List.take_take, min_eq_left (by omega), h6,
    List.take_append_of_le_length (by rw [List.length_take]; omega), List.take_take,
    min_eq_left (le_refl _)]

theorem foldlM_no_fuel {σ β : Type} (f : σ → β → Run σ) (hf : ∀ s b, f s b ≠ .error .fuel) :
    ∀ (l : List β) (s : σ), l.foldlM f s ≠ .error .fuel := by
  intro l
  induction l with
  | nil => intro s; simp [pure, Except.pure]
  | cons b l ih =>
    intro s
    rw [List.foldlM_cons]
    cases hb : f s b with
    | error e =>
      rw [error_bind]
      intro he
      simp only [Except.error.injEq] at he
      exact hf s b (by rw [hb, he])
    | ok s1 =>
      rw [ok_bind]
      exact ih s1

theorem bind_no_fuel {α β : Type} {x : Run α} {f : α → Run β} (hx : x ≠ .error .fuel)
    (hf : ∀ a, x = .ok a → f a ≠ .error .fuel) : (x >>= f) ≠ .error .fuel := by
  cases x with
  | error e =>
    rw [error_bind]
    intro he
    simp only [Except.error.injEq] at he
    exact hx (by rw [he])
  | ok a =>
    rw [ok_bind]
    exact hf a rfl

theorem at?_no_fuel {α : Type} (v : List α) (i : Nat) : at? v i ≠ .error .fuel := by
  intro h
  have := at?_error h
  simp at this

theorem pure_no_fuel {α : Type} (a : α) : (pure a : Run α) ≠ .error .fuel := by
  simp [pure, Except.pure]

theorem rootBoundsLoop_no_fuel (hairs : List Hair) (count : Nat) :
    rootBoundsLoop hairs count ≠ .error .fuel := by
  unfold rootBoundsLoop
  apply foldlM_no_fuel
  intro s b
  exact bind_no_fuel (at?_no_fuel _ _) (fun _ _ => pure_no_fuel _)

theorem minIndLoop_no_fuel (hairs : List Hair) (count : Nat) (axis : Int) :
    minIndLoop hairs count axis ≠ .error .fuel := by
  unfold minIndLoop
  refine bind_no_fuel ?_ (fun _ _ => pure_no_fuel _)
  apply foldlM_no_fuel
  intro s b
  exact bind_no_fuel (at?_no_fuel _ _) (fun _ _ => bind_no_fuel (at?_no_fuel _ _)
    (fun _ _ => bind_no_fuel (at?_no_fuel _ _) (fun _ _ => pure_no_fuel _)))

theorem accumStep_no_fuel (L : Lib) (hairs : List Hair) (count i : Nat) (st : Hair × List Int)
    (k : Nat) : accumStep L hairs count i st k ≠ .error .fuel := by
  unfold accumStep
  exact bind_no_fuel (at?_no_fuel _ _) (fun _ _ => bind_no_fuel (at?_no_fuel _ _)
    (fun _ _ => bind_no_fuel (at?_no_fuel _ _) (fun _ _ => bind_no_fuel (at?_no_fuel _ _)
    (fun _ _ => bind_no_fuel (at?_no_fuel _ _) (fun _ _ => bind_no_fuel (at?_no_fuel _ _)
    (fun _ _ => bind_no_fuel (at?_no_fuel _ _) (fun _ _ => pure_no_fuel _)))))))

theorem accumHair_no_fuel (L : Lib) (hairs : List Hair) (count : Nat) (st : Hair × List Int)
    (i : Nat) : accumHair L hairs count st i ≠ .error .fuel := by
  unfold accumHair
  exact bind_no_fuel (at?_no_fuel _ _)
    (fun _ _ => foldlM_no_fuel _ (accumStep_no_fuel L hairs count i) _ _)

theorem divideLoop_no_fuel (accum : Hair) (additions : List Int) :
    divideLoop accum additions ≠ .error .fuel := by
  unfold divideLoop
  refine bind_no_fuel ?_ (fun _ _ => pure_no_fuel _)
  apply foldlM_no_fuel
  intro s b
  exact bind_no_fuel (at?_no_fuel _ _) (fun _ _ => pure_no_fuel _)

/-- A pass never runs out of the budget of its walk. -/
theorem lodPass_no_fuel {L : Lib} (hS : L.Sorts) (th : ℚ) (hairs : List Hair) (count : Nat) :
    lodPass L th hairs count ≠ .error .fuel := by
  unfold lodPass
  refine bind_no_fuel (rootBoundsLoop_no_fuel _ _) (fun b _ => ?_)
  refine bind_no_fuel (minIndLoop_no_fuel _ _ _) (fun mi hmi => ?_)
  refine bind_no_fuel (at?_no_fuel _ _) (fun c hcmp => ?_)
  have hlt := at?_ok_lt hcmp
  have hcount : count < hairs.length := by
    by_contra hge
    unfold minIndLoop at hmi
    rw [List.drop_eq_nil_of_le (by omega)] at hmi
    simp only [List.foldlM_nil, pure_bind, pure_ok_iff] at hmi
    omega
  have hl : (hairs.take count ++ L.sortSample c (hairs.drop count)).length = hairs.length := by
    rw [List.length_append, (hS.1 _ _).length_eq, ← List.length_append, List.take_append_drop]
  refine bind_no_fuel (walk_no_fuel _ _ _ _ _ _ _ (by rw [hl]; omega) (by omega)) ?_
  rintro ⟨w, s⟩ -
  refine bind_no_fuel (foldlM_no_fuel _ (accumHair_no_fuel L _ count) _ _) ?_
  rintro ⟨sm, ad⟩ -
  exact bind_no_fuel (divideLoop_no_fuel _ _) (fun _ _ => pure_no_fuel _)

theorem drop_take_of_take_eq {α : Type} {l l' : List α} {c n : Nat}
    (h : l.take (c + n) = l'.take (c + n)) : (l.drop c).take n = (l'.drop c).take n := by
  have key : ∀ (x : List α), (x.drop c).take n = (x.take (c + n)).drop c := by
    intro x
    rw [List.drop_take]
    simp
  rw [key, key, h]

theorem take_of_take_eq {α : Type} {l l' : List α} {c m : Nat} (hcm : c ≤ m)
    (h : l.take m = l'.take m) : l.take c = l'.take c := by
  have := congrArg (List.take c) h
  rwa [List.take_take, List.take_take, min_eq_left hcm] at this

/-- What a completed run of the combination loop leaves behind: the passes occupy
consecutive blocks of the final vector, which is a rearrangement of the input, and
the blocks end at the index `hairs.size() - 1`. -/
theorem combineTrace_spec {L : Lib} (hS : L.Sorts) (th : ℚ) :
    ∀ (fuel : Nat) (hairs : List Hair) (count : Nat) (ps : List Pass) (hs' : List Hair)
      (ps' : List Pass), 1 ≤ hairs.length → hairs.length < 2 ^ 64 → count ≤ hairs.length - 1 →
      combineTrace L th fuel hairs count ps = .ok (hs', ps') →
      ∃ new, ps' = ps ++ new ∧ hs'.Perm hairs ∧ hs'.take count = hairs.take count ∧
        count + (new.map Pass.nHairs).sum = hairs.length - 1 ∧
        (∀ i p, new[i]? = some p → p.count = count + ((new.take i).map Pass.nHairs).sum) ∧
        (∀ p ∈ new, 1 ≤ p.nHairs ∧ p.count + p.nHairs ≤ hairs.length - 1 ∧
          p.admitted = (hs'.drop p.count).take p.nHairs) := by
  intro fuel
  induction fuel with
  | zero =>
    intro hairs count ps hs' ps' h1 h2 hc h
    unfold combineTrace at h
    rw [sizeMinusOne_eq h1 h2] at h
    split_ifs at h with he
    simp only [pure_ok_iff, Prod.mk.injEq] at h
    obtain ⟨rfl, rfl⟩ := h
    exact ⟨[], by simp, List.Perm.refl _, rfl, by simpa using he, by simp, by simp⟩
  | succ f ih =>
    intro hairs count ps hs' ps' h1 h2 hc h
    unfold combineTrace at h
    rw [sizeMinusOne_eq h1 h2] at h
    split_ifs at h with he
    · simp only [pure_ok_iff, Prod.mk.injEq] at h
      obtain ⟨rfl, rfl⟩ := h
      exact ⟨[], by simp, List.Perm.refl _, rfl, by simpa using he, by simp, by simp⟩
    · simp only [bind_ok_iff] at h
      obtain ⟨p, hp, h⟩ := h
      obtain ⟨b1, b2, b3, b4, b5, b6, b7, b8, b9⟩ := pass_bounds hS hp h2 (by omega)
      obtain ⟨new, n1, n2, n3, n4, n5, n6⟩ := ih p.hairs (count + p.nHairs) (ps ++ [p]) hs' ps'
        (by omega) (by omega) (by omega) h
      rw [b3] at n4 n6
      refine ⟨p :: new, by rw [n1]; simp, n2.trans b5, ?_, ?_, ?_, ?_⟩
      · rw [take_of_take_eq (Nat.le_add_right _ _) n3, b6]
      · rw [List.map_cons, List.sum_cons]
        omega
      · intro i q hq
        cases i with
        | zero =>
          simp only [List.getElem?_cons_zero, Option.some.injEq] at hq
          subst hq
          simpa using b1
        | succ i =>
          simp only [List.getElem?_cons_succ] at hq
          rw [n5 i q hq, List.take_succ_cons, List.map_cons, List.sum_cons]
          omega
      · intro q hq
        rcases List.mem_cons.mp hq with rfl | hq
        · refine ⟨b7, by omega, ?_⟩
          unfold Pass.admitted
          rw [b1]
          exact (drop_take_of_take_eq n3).symm
        · exact n6 q hq

/-- The combination loop does not use up a budget of `hairs.size()` passes. -/
theorem combineTrace_no_fuel {L : Lib} (hS : L.Sorts) (th : ℚ) :
    ∀ (fuel : Nat) (hairs : List Hair) (count : Nat) (ps : List Pass), 1 ≤ hairs.length →
      hairs.length < 2 ^ 64 → count ≤ hairs.length - 1 → hairs.length - 1 - count ≤ fuel →
      combineTrace L th fuel hairs count ps ≠ .error .fuel := by
  intro fuel
  induction fuel with
  | zero =>
    intro hairs count ps h1 h2 hc hf
    unfold combineTrace
    rw [sizeMinusOne_eq h1 h2, if_pos (by omega)]
    exact pure_no_fuel _
  | succ f ih =>
    intro hairs count ps h1 h2 hc hf
    unfold combineTrace
    rw [sizeMinusOne_eq h1 h2]
    split_ifs with he
    · exact pure_no_fuel _
    · refine bind_no_fuel (lodPass_no_fuel hS _ _ _) (fun p hp => ?_)
      obtain ⟨b1, b2, b3, b4, b5, b6, b7, b8, b9⟩ := pass_bounds hS hp h2 (by omega)
      exact ih _ _ _ (by omega) (by omega) (by omega) (by omega)

theorem combineTrace_single (L : Lib) (th : ℚ) (fuel : Nat) (h : Hair) (ps : List Pass) :
    combineTrace L th fuel [h] 0 ps = .ok ([h], ps) := by
  have hs : sizeMinusOne 1 = 0 := sizeMinusOne_eq (le_refl 1) (by norm_num)
  cases fuel <;> simp [combineTrace, hs, pure, Except.pure]

theorem combineLoop_single (L : Lib) (th : ℚ) (fuel : Nat) (h : Hair) (combined : List Hair) :
    combineLoop L th fuel [h] 0 combined = .ok combined := by
  have hs : sizeMinusOne 1 = 0 := sizeMinusOne_eq (le_refl 1) (by norm_num)
  cases fuel <;> simp [combineLoop, hs, pure, Except.pure]

theorem combineTrace_total {L : Lib} (hS : L.Sorts) {n : Nat} (hn : 1 ≤ n) (th : ℚ)
    {hairs : List Hair} (hu : Uniform n hairs) (h1 : 1 ≤ hairs.length)
    (h2 : hairs.length < 2 ^ 64) :
    ∃ res, combineTrace L th hairs.length hairs 0 [] = .ok res := by
  obtain ⟨res, hres⟩ := combineLoop_total hS hn th hairs.length hu 0 [] h1 h2 (by omega)
    (by omega)
  have := combineLoop_eq_trace L th hairs.length hairs 0 [] []
  simp only [List.map_nil, List.append_nil, List.nil_append] at this
  rw [this] at hres
  cases ht : combineTrace L th hairs.length hairs 0 [] with
  | error e => rw [ht] at hres; simp [Functor.map, Except.map] at hres
  | ok r => exact ⟨r, rfl⟩

theorem map_ok_of_ne_error {α β : Type} {x : Run α} {f : α → β} {e : Fault}
    (h : x ≠ .error e) : f <$> x ≠ .error e := by
  cases x with
  | error e' =>
    intro he
    simp only [Functor.map, Except.map, Except.error.injEq] at he
    exact h (by rw [he])
  | ok a => simp [Functor.map, Except.map]

/-- The conversion with LOD on, written with the passes of the merge. -/
theorem toCubic_lod_trace (L : Lib) (d : CyHair) (v r : List ℚ) (sc tr : Fin 3 → ℚ) (ms : Int)
    (th : ℚ) (lod : Int) (hl : 0 < lod)
    (hg : (d.points_.isEmpty || d.strand_offsets_.isEmpty) = false)
    (hn : 0 ≤ effStrands d ms) :
    ToCubicBezierCurves L d v r sc tr ms th lod =
      (do let hairs ← lodHairs d sc tr ms
          let res ← combineTrace L th hairs.length hairs 0 []
          let out ← (res.2.map Pass.accum).foldlM flattenHair ([], [])
          pure (true, out.1, out.2)) := by
  rw [toCubic_lod L d v r sc tr ms th lod hl hg hn]
  unfold lodHairs
  cases List.mapM (strandCurves d) (List.range (effStrands d ms).toNat) with
  | error e => rfl
  | ok qss =>
    simp only [ok_bind, pure_bind]
    have := combineLoop_eq_trace L th (qss.map (hairOf sc tr)).length (qss.map (hairOf sc tr))
      0 [] []
    simp only [List.map_nil, List.append_nil, List.nil_append] at this
    rw [this]
    cases combineTrace L th (qss.map (hairOf sc tr)).length (qss.map (hairOf sc tr)) 0 [] with
    | error e => rfl
    | ok res => rfl

/-! ## The hairs that the merge groups -/

/-- The groups of a completed run, one after the other, are the final vector without
its last element. -/
theorem combineTrace_tiles {L : Lib} (hS : L.Sorts) (th : ℚ) {hairs hs : List Hair}
    {ps : List Pass} (h1 : 1 ≤ hairs.length) (h2 : hairs.length < 2 ^ 64)
    (h : combineTrace L th hairs.length hairs 0 [] = .ok (hs, ps)) :
    hs.Perm hairs ∧ (ps.map Pass.nHairs).sum = hairs.length - 1 ∧
      ps.flatMap Pass.admitted = hs.take (hairs.length - 1) := by
  obtain ⟨new, n1, n2, n3, n4, n5, n6⟩ := combineTrace_spec hS th _ _ _ _ _ _ h1 h2
    (by omega) h
  rw [List.nil_append] at n1
  subst n1
  refine ⟨n2, by omega, ?_⟩
  have key : ∀ i, i ≤ ps.length →
      (ps.take i).flatMap Pass.admitted = hs.take ((ps.take i).map Pass.nHairs).sum := by
    intro i
    induction i with
    | zero => intro _; simp
    | succ i ih =>
      intro hi
      have hlt : i < ps.length := by omega
      have hget : ps[i]? = some ps[i] := List.getElem?_eq_getElem hlt
      have hc := n5 i _ hget
      have ha := (n6 _ (List.getElem?_mem hget)).2.2
      rw [List.take_succ, hget]
      simp only [Option.toList_some, List.flatMap_append, List.flatMap_cons, List.flatMap_nil,
        List.append_nil, List.map_append, List.map_cons, List.map_nil, List.sum_append,
        List.sum_cons, List.sum_nil, add_zero]
      rw [ih (by omega), ha, hc, zero_add, List.take_add]
  have := key ps.length (le_refl _)
  rw [List.take_length] at this
  rw [this]
  congr 1
  omega

/-- Claim C11 (failing input). The dataset `sampleHair` with LOD on: three hairs enter
the merge. The merge makes one pass, with the cursor at 0, which admits the first two
hairs, and stops with the cursor at 2, the value of `hairs.size() - 1`. The third hair
is in no group: the group sizes sum to 2 and not to `hairs.size()`, which is 3, and the
output is the single curve that averages the first two hairs. -/
theorem lod_merge_leaves_last_hair_out :
    lodHairs sampleHair ![1, 1, 1] ![0, 0, 0] (-1) = .ok sampleHairs ∧
    sampleHairs.length = 3 ∧
    (fun r => (r.1, r.2.map Pass.count, r.2.map Pass.nHairs, r.2.map Pass.admitted)) <$>
      combineTrace sampleLib 1 sampleHairs.length sampleHairs 0 [] =
      .ok (sampleHairs, [0], [2], [sampleHairs.take 2]) ∧
    ToCubicBezierCurves sampleLib sampleHair [] [] ![1, 1, 1] ![0, 0, 0] (-1) 1 1 =
      .ok (true, [1 / 2, 0, 0, 1 / 2, 0, 1 / 3, 1 / 2, 0, 2 / 3, 1 / 2, 0, 1], [1, 1, 1, 1]) := by
  decide!

/-! ## A single hair -/

/-- With LOD on and a single converted strand the call returns true and writes
nothing: the combination loop makes no pass. -/
theorem toCubic_lod_single (L : Lib) (d : CyHair) (v r : List ℚ) (sc tr : Fin 3 → ℚ) (ms : Int)
    (th : ℚ) (lod : Int) (hl : 0 < lod)
    (hg : (d.points_.isEmpty || d.strand_offsets_.isEmpty) = false)
    (hn : effStrands d ms = 1) (hr : StrandReadable d 0) :
    ToCubicBezierCurves L d v r sc tr ms th lod = .ok (true, [], []) := by
  rw [toCubic_lod L d v r sc tr ms th lod hl hg (by omega), hn]
  obtain ⟨qss, hqss⟩ := mapM_strandCurves_ok (d := d) (n := 1) (fun i hi => by
    have : i = 0 := by omega
    subst this
    exact hr)
  have hlen := mapM_ok_length hqss
  simp only [List.length_range] at hlen
  obtain ⟨qs, rfl⟩ : ∃ qs, qss = [qs] := by
    match qss, hlen with
    | [qs], _ => exact ⟨qs, rfl⟩
  have h1 : (1 : Int).toNat = 1 := rfl
  rw [h1, hqss, ok_bind]
  simp only [List.map_cons, List.map_nil, List.length_cons, List.length_nil]
  rw [combineLoop_single, ok_bind]
  rfl

/-- Claim C12 (failing input). The dataset `sampleStrand5`, one strand of five points,
with LOD on and thickness 1: one hair of eight control points enters the merge, the
combination loop makes no pass since the cursor 0 already equals `hairs.size() - 1`,
and the call returns true with empty output buffers: no combined hair is produced. -/
theorem lod_single_hair_no_output :
    List.length <$> lodHairs sampleStrand5 ![1, 1, 1] ![0, 0, 0] (-1) = .ok 1 ∧
    (fun hairs => (hairs.map Hair.size, sizeMinusOne hairs.length)) <$>
      lodHairs sampleStrand5 ![1, 1, 1] ![0, 0, 0] (-1) = .ok ([8], 0) ∧
    (lodHairs sampleStrand5 ![1, 1, 1] ![0, 0, 0] (-1) >>= fun hairs =>
      (fun r => r.2.length) <$> combineTrace sampleLib 1 hairs.length hairs 0 []) = .ok 0 ∧
    ToCubicBezierCurves sampleLib sampleStrand5 [] [] ![1, 1, 1] ![0, 0, 0] (-1) 1 1 =
      .ok (true, [], []) := by
  decide!

/-! ## The pivot of a pass -/

theorem root_of_nonempty {x : Hair} (h : x.cps ≠ []) : at? x.cps 0 = .ok x.root := by
  obtain ⟨p, hp, -⟩ := at?_ok_of_lt (List.length_pos.mpr h)
  rw [hp, at?_zero_root hp]

/-- Claim C19. In a pass of the combination loop that starts with the cursor `count`
below `hairs.size()`, on hairs that are left with at least one control point and finite
root points: the first `for_each` computes the bounding box `b` of the root points
`cps[0]` of the hairs that are left; the axis `b.MaximumExtent()` has an extent
`pMax - pMin` that is at least the extent of every axis; the second `for_each` yields an
index `min_ind` at or after the cursor, so the pivot `cmp_hair = hairs[min_ind]` is one
of the hairs that are left, and its root coordinate on that axis is least among the
hairs that are left. These are the values that every completed pass uses. -/
theorem pivot_minimal_on_widest_axis (L : Lib) (th : ℚ) (hairs : List Hair) (count : Nat)
    (hc : count < hairs.length) (hne : ∀ x ∈ hairs.drop count, x.cps ≠ [])
    (hfl : ∀ x ∈ hairs.drop count, InFloatRange x.root) :
    ∃ b mi cmp, rootBoundsLoop hairs count = .ok b ∧
      minIndLoop hairs count b.MaximumExtent = .ok mi ∧ at? hairs mi = .ok cmp ∧
      (∀ x ∈ hairs.drop count, at? x.cps 0 = .ok x.root) ∧
      IsBoundingBox b ((hairs.drop count).map Hair.root) ∧
      (b.MaximumExtent = 0 ∨ b.MaximumExtent = 1 ∨ b.MaximumExtent = 2) ∧
      (∀ c : Int, (b.pMax - b.pMin).get c ≤ (b.pMax - b.pMin).get b.MaximumExtent) ∧
      count ≤ mi ∧ cmp ∈ hairs.drop count ∧
      (∀ x ∈ hairs.drop count, cmp.root.get b.MaximumExtent ≤ x.root.get b.MaximumExtent) ∧
      (∀ p, lodPass L th hairs count = .ok p →
        p.rootBounds = b ∧ p.axis = b.MaximumExtent ∧ p.min_ind = mi ∧ p.cmp_hair = cmp) := by
  obtain ⟨b, hb⟩ := rootBoundsLoop_ok_of_nonempty hairs count hne
  obtain ⟨mi, hmi⟩ := minIndLoop_ok_of_nonempty hairs count b.MaximumExtent hc hne
  obtain ⟨m1, m2, m3⟩ := minIndLoop_spec hmi hc
  obtain ⟨cmp, hcmp, -⟩ := at?_ok_of_lt m2
  have hcmp' := at?_ok_iff.mp hcmp
  refine ⟨b, mi, cmp, hb, hmi, hcmp, fun x hx => root_of_nonempty (hne x hx),
    rootBoundsLoop_box hb hc hfl, maximumExtent_range b, maximumExtent_widest b, m1,
    mem_drop_of_getElem? hcmp' m1, m3 cmp hcmp', ?_⟩
  intro p hp
  rw [lodPass_ok_iff] at hp
  obtain ⟨h1, h2, h3, h4, h5, -⟩ := hp
  rw [hb] at h2
  simp only [Except.ok.injEq] at h2
  subst h2
  rw [h3, hmi] at h4
  simp only [Except.ok.injEq] at h4
  subst h4
  rw [hcmp] at h5
  simp only [Except.ok.injEq] at h5
  exact ⟨rfl, h3, rfl, h5.symm⟩

/-- Witness of claim C19: the three hairs of `sampleShort` with the cursor at 0. -/
theorem pivot_minimal_on_widest_axis_witness :
    (0 < sampleShortHairs.length ∧ (∀ x ∈ sampleShortHairs.drop 0, x.cps ≠ []) ∧
      (∀ x ∈ sampleShortHairs.drop 0, InFloatRange x.root)) ∧
    ∃ b mi cmp, rootBoundsLoop sampleShortHairs 0 = .ok b ∧
      minIndLoop sampleShortHairs 0 b.MaximumExtent = .ok mi ∧
      at? sampleShortHairs mi = .ok cmp ∧
      (∀ x ∈ sampleShortHairs.drop 0, at? x.cps 0 = .ok x.root) ∧
      IsBoundingBox b ((sampleShortHairs.drop 0).map Hair.root) ∧
      (b.MaximumExtent = 0 ∨ b.MaximumExtent = 1 ∨ b.MaximumExtent = 2) ∧
      (∀ c : Int, (b.pMax - b.pMin).get c ≤ (b.pMax - b.pMin).get b.MaximumExtent) ∧
      0 ≤ mi ∧ cmp ∈ sampleShortHairs.drop 0 ∧
      (∀ x ∈ sampleShortHairs.drop 0,
        cmp.root.get b.MaximumExtent ≤ x.root.get b.MaximumExtent) ∧
      (∀ p, lodPass sampleLib 1 sampleShortHairs 0 = .ok p →
        p.rootBounds = b ∧ p.axis = b.MaximumExtent ∧ p.min_ind = mi ∧ p.cmp_hair = cmp) :=
  ⟨⟨by decide, by decide!, by decide!⟩,
    pivot_minimal_on_widest_axis sampleLib 1 sampleShortHairs 0 (by decide) (by decide!)
      (by decide!)⟩

/-! ## The size of a group -/

/-- Claim C20 (counterexample). Two passes with the cursor at 0 and thickness 1. On the
hairs of `sampleShort` the pivot has 8 control points and the walk steps over one hair,
of 4 control points: the final `nHairs` is 2, while 1 plus the number of walked hairs
with at least as many control points as the pivot is 1. On the hairs of `sampleLong` the
pivot has 4 control points and the walk steps over one hair, of 8 control points: the
final `nHairs` is 1, while 1 plus the number of walked hairs with at least as many
control points as the pivot is 2. -/
theorem final_nHairs_counterexample :
    (fun p => (p.cmp_hair.size, p.walkedHairs.map Hair.size, p.walked, p.nHairs,
        1 + p.walkedHairs.countP (fun x => decide (p.cmp_hair.size ≤ x.size)))) <$>
      lodPass sampleLib 1 sampleShortHairs 0 = .ok (8, [4], 2, 2, 1) ∧
    (fun p => (p.cmp_hair.size, p.walkedHairs.map Hair.size, p.walked, p.nHairs,
        1 + p.walkedHairs.countP (fun x => decide (p.cmp_hair.size ≤ x.size)))) <$>
      lodPass sampleLib 1 sampleLongHairs 0 = .ok (4, [8], 2, 1, 2) ∧
    lodHairs sampleShort ![1, 1, 1] ![0, 0, 0] (-1) = .ok sampleShortHairs ∧
    lodHairs sampleLong ![1, 1, 1] ![0, 0, 0] (-1) = .ok sampleLongHairs := by
  decide!

/-- Claim C20 (amended). In every completed pass of the combination loop the walk
steps over the `walked - 1` hairs after `hairs[count]` of the vector sorted by sample
distance, and the final `nHairs`, the number of hairs admitted for averaging, is 1 plus
the number of walked hairs whose control-point count is the same as or smaller than
the control-point count of the pivot (`cmp_hair.size() >= hairs[i].size()`). It is at
most the full walked count, and equal to it exactly when no walked hair has more
control points than the pivot. -/
theorem final_nHairs_counts_not_larger (L : Lib) (hS : L.Sorts) (th : ℚ) (hairs : List Hair)
    (count : Nat) (p : Pass) (h : lodPass L th hairs count = .ok p) :
    1 ≤ p.walked ∧ p.walkedHairs.length = p.walked - 1 ∧
    p.nHairs = 1 + p.walkedHairs.countP (fun x => decide (x.size ≤ p.cmp_hair.size)) ∧
    p.nHairs ≤ p.walked ∧
    (p.nHairs = p.walked ↔ ∀ x ∈ p.walkedHairs, x.size ≤ p.cmp_hair.size) := by
  rw [lodPass_ok_iff] at h
  obtain ⟨h1, h2, h3, h4, h5, h6, h7, h8, h9, h10⟩ := h
  obtain ⟨w1, w2, -, -, -, w6⟩ := walk_spec _ _ _ _ _ _ _ _ _ h7
  have hmi := at?_ok_lt h5
  have hcount : count < hairs.length := by
    by_contra hge
    unfold minIndLoop at h4
    rw [List.drop_eq_nil_of_le (by omega)] at h4
    simp only [List.foldlM_nil, pure_bind, pure_ok_iff] at h4
    omega
  have hl : p.sorted.length = hairs.length := by
    rw [h6, List.length_append, (hS.1 _ _).length_eq, ← List.length_append,
      List.take_append_drop]
  have hw := w6 (by omega)
  have hlen : p.walkedHairs.length = p.walked - 1 := by
    unfold Pass.walkedHairs
    rw [h1, List.length_take, List.length_drop]
    omega
  have hcnt : p.nHairs =
      1 + p.walkedHairs.countP (fun x => decide (x.size ≤ p.cmp_hair.size)) := by
    unfold Pass.walkedHairs
    rw [h1]
    exact w2
  have hle := List.countP_le_length (fun x => decide (x.size ≤ p.cmp_hair.size))
    (l := p.walkedHairs)
  refine ⟨w1, hlen, hcnt, by omega, ?_⟩
  constructor
  · intro he
    have : p.walkedHairs.countP (fun x => decide (x.size ≤ p.cmp_hair.size)) =
        p.walkedHairs.length := by omega
    rw [List.countP_eq_length] at this
    intro x hx
    simpa using this x hx
  · intro hall
    have : p.walkedHairs.countP (fun x => decide (x.size ≤ p.cmp_hair.size)) =
        p.walkedHairs.length := by
      rw [List.countP_eq_length]
      intro x hx
      simpa using hall x hx
    omega

/-- Witness of claim C20: the pass on the hairs of `sampleShort`. -/
theorem final_nHairs_counts_not_larger_witness :
    sampleLib.Sorts ∧ lodPass sampleLib 1 sampleShortHairs 0 = .ok sampleShortPass ∧
    (1 ≤ sampleShortPass.walked ∧
      sampleShortPass.walkedHairs.length = sampleShortPass.walked - 1 ∧
      sampleShortPass.nHairs = 1 + sampleShortPass.walkedHairs.countP
        (fun x => decide (x.size ≤ sampleShortPass.cmp_hair.size)) ∧
      sampleShortPass.nHairs ≤ sampleShortPass.walked ∧
      (sampleShortPass.nHairs = sampleShortPass.walked ↔
        ∀ x ∈ sampleShortPass.walkedHairs, x.size ≤ sampleShortPass.cmp_hair.size)) :=
  ⟨sampleLib_sorts, by decide!,
    final_nHairs_counts_not_larger sampleLib sampleLib_sorts 1 sampleShortHairs 0
      sampleShortPass (by decide!)⟩

/-! ## The accumulator of a pass -/

theorem foldl_add_points (f : Hair → real3) :
    ∀ (l : List Hair) (e : real3),
      l.foldl (fun a h => a + f h) e =
        ⟨e.x + (l.map (fun h => (f h).x)).sum, e.y + (l.map (fun h => (f h).y)).sum,
          e.z + (l.map (fun h => (f h).z)).sum⟩ := by
  intro l
  induction l with
  | nil => intro e; simp
  | cons h l ih =>
    intro e
    rw [List.foldl_cons, ih]
    simp only [List.map_cons, List.sum_cons, real3.add_x, real3.add_y, real3.add_z, add_assoc]

theorem clamp_congr (M : ℚ) :
    ∀ (ds : List ℚ) (a b : ℚ), min a M = min b M →
      min (ds.foldl max a) M = min (ds.foldl max b) M := by
  intro ds
  induction ds with
  | nil => intro a b h; simpa using h
  | cons d ds ih =>
    intro a b h
    rw [List.foldl_cons, List.foldl_cons]
    apply ih
    rw [inf_sup_right, inf_sup_right, h]

/-- Capping after every step gives the cap of the greatest value. -/
theorem foldl_clamp (M : ℚ) :
    ∀ (ds : List ℚ) (r : ℚ), ds ≠ [] →
      ds.foldl (fun r d => min (max r d) M) r = min (ds.foldl max r) M := by
  intro ds
  induction ds with
  | nil => intro r h; exact absurd rfl h
  | cons d ds ih =>
    intro r _
    rw [List.foldl_cons, List.foldl_cons]
    by_cases hds : ds = []
    · subst hds
      rfl
    · rw [ih _ hds]
      apply clamp_congr
      rw [min_assoc, min_self]

theorem foldl_clamp_le (M : ℚ) :
    ∀ (ds : List ℚ) (r : ℚ), ds ≠ [] ∨ r ≤ M →
      ds.foldl (fun r d => min (max r d) M) r ≤ M := by
  intro ds
  induction ds with
  | nil =>
    intro r h
    rcases h with h | h
    · exact absurd rfl h
    · exact h
  | cons d ds ih =>
    intro r _
    rw [List.foldl_cons]
    exact ih _ (Or.inr (min_le_right _ _))

theorem foldl_map_comp {α β γ : Type} (f : γ → β → γ) (g : α → β) (l : List α) (e : γ) :
    (l.map g).foldl f e = l.foldl (fun r a => f r (g a)) e := by
  rw [List.foldl_map]

/-- The hair at the cursor is the first admitted hair, and it contributes to every
index that it has. -/
theorem first_admitted {p : Pass} {h0 : Hair} {count : Nat} (hc : p.count = count)
    (hn : 1 ≤ p.nHairs) (h : p.hairs[count]? = some h0) :
    p.admitted.head? = some h0 ∧ ∀ k, k < h0.size → contributors k p.admitted ≠ [] := by
  obtain ⟨m, hm⟩ : ∃ m, p.nHairs = m + 1 := ⟨p.nHairs - 1, by omega⟩
  have hadm : p.admitted = h0 :: (p.hairs.drop (count + 1)).take m := by
    unfold Pass.admitted
    rw [hc, hm, drop_take_succ _ _ _ _ h]
  refine ⟨by rw [hadm]; rfl, ?_⟩
  intro k hk
  rw [hadm]
  unfold contributors
  rw [List.filter_cons_of_pos (by simpa using hk)]
  simp

/-- The control points of the hair that a completed pass emits: below the control-point
count of the pivot, every control point is the arithmetic mean of the control points
with that index of the admitted hairs that have the index, and its counter is the
number of these hairs. The counter is at least 1 at every index that the first
admitted hair has. -/
theorem pass_mean {L : Lib} {th : ℚ} {hairs : List Hair} {count : Nat} {p : Pass}
    (h : lodPass L th hairs count = .ok p) :
    p.accum.cps.length = p.cmp_hair.size ∧
    ∃ h0, p.admitted.head? = some h0 ∧
      ∀ k, k < p.cmp_hair.size →
        p.additions.getD k 0 = ((pointsAt k p.admitted).length : Int) ∧
        p.accum.cps.getD k real3.zero = meanPoint (pointsAt k p.admitted) ∧
        (k < h0.size → 1 ≤ p.additions.getD k 0) := by
  obtain ⟨hn, h0, hh0, l1, l2, l3, hk⟩ := pass_entries h
  have hc : p.count = count := ((lodPass_ok_iff _ _ _ _ _).mp h).1
  obtain ⟨f1, f2⟩ := first_admitted hc hn hh0
  refine ⟨l1, h0, f1, ?_⟩
  intro k hklt
  obtain ⟨e1, e2, e3, e4⟩ := hk k hklt
  have hlen : (pointsAt k p.admitted).length = (contributors k p.admitted).length := by
    unfold pointsAt
    rw [List.length_map]
  refine ⟨by rw [e1, hlen], ?_, ?_⟩
  · rw [e3, e2, e1, foldl_add_points]
    unfold meanPoint pointsAt real3.divf real3.zero
    simp only [List.map_map, List.length_map, zero_add, Function.comp_def]
    simp only [one_div, div_eq_mul_inv, Int.cast_natCast, one_mul]
  · intro hk0
    rw [e1]
    have := List.length_pos.mpr (f2 k hk0)
    omega

/-- The radii of the hair that a completed pass emits: at an index that an admitted
hair has, the radius is the greatest of the thickness and of the distances to the
control point of the first admitted hair, capped at `MAX_HAIR_RADIUS`; at an index
that no admitted hair has, the radius is the thickness. -/
theorem pass_radius {L : Lib} {th : ℚ} {hairs : List Hair} {count : Nat} {p : Pass}
    (h : lodPass L th hairs count = .ok p) :
    p.accum.radii.length = p.cmp_hair.size ∧
    ∃ h0, p.admitted.head? = some h0 ∧
      ∀ k, k < p.cmp_hair.size →
        (k < h0.size → pointsAt k p.admitted ≠ []) ∧
        (pointsAt k p.admitted ≠ [] →
          p.accum.radii.getD k 0 = starRadius L th h0 p.admitted k ∧
          p.accum.radii.getD k 0 ≤ MAX_HAIR_RADIUS) ∧
        (pointsAt k p.admitted = [] → p.accum.radii.getD k 0 = th) := by
  obtain ⟨hn, h0, hh0, l1, l2, l3, hk⟩ := pass_entries h
  have hc : p.count = count := ((lodPass_ok_iff _ _ _ _ _).mp h).1
  obtain ⟨f1, f2⟩ := first_admitted hc hn hh0
  refine ⟨l2, h0, f1, ?_⟩
  intro k hklt
  obtain ⟨e1, e2, e3, e4⟩ := hk k hklt
  have hpts : pointsAt k p.admitted = [] ↔ contributors k p.admitted = [] := by
    unfold pointsAt
    simp
  have hfold : (contributors k p.admitted).foldl (fun r x => min (max r
        (distance L (x.cps.getD k real3.zero) (h0.cps.getD k real3.zero))) MAX_HAIR_RADIUS) th =
      ((pointsAt k p.admitted).map
        (fun a => distance L a (h0.cps.getD k real3.zero))).foldl
        (fun r d => min (max r d) MAX_HAIR_RADIUS) th := by
    unfold pointsAt
    rw [List.map_map, List.foldl_map]
    rfl
  refine ⟨fun hk0 => by rw [Ne, hpts]; exact f2 k hk0, ?_, ?_⟩
  · intro hne
    have hne' : (pointsAt k p.admitted).map
        (fun a => distance L a (h0.cps.getD k real3.zero)) ≠ [] := by
      simpa using hne
    rw [e4, hfold]
    exact ⟨foldl_clamp _ _ _ hne', foldl_clamp_le _ _ _ (Or.inl hne')⟩
  · intro he
    rw [e4, hpts.mp he]
    rfl

/-- In a completed pass every radius of the emitted hair is at most `MAX_HAIR_RADIUS`
when the thickness is, or when the first admitted hair has at least as many control
points as the pivot. -/
theorem pass_radii_le {L : Lib} {th : ℚ} {hairs : List Hair} {count : Nat} {p : Pass}
    (h : lodPass L th hairs count = .ok p)
    (hcase : th ≤ MAX_HAIR_RADIUS ∨
      ∀ h0, p.admitted.head? = some h0 → p.cmp_hair.size ≤ h0.size) :
    ∀ r ∈ p.accum.radii, r ≤ MAX_HAIR_RADIUS := by
  obtain ⟨l2, h0, f1, hk⟩ := pass_radius h
  intro r hr
  obtain ⟨k, hklt, rfl⟩ := List.getElem_of_mem hr
  rw [l2] at hklt
  have hget : p.accum.radii.getD k 0 = p.accum.radii[k] := by
    rw [List.getD_eq_getElem?_getD, List.getElem?_eq_getElem (by omega)]
    rfl
  rw [← hget]
  obtain ⟨a1, a2, a3⟩ := hk k hklt
  by_cases hne : pointsAt k p.admitted = []
  · rcases hcase with hth | hsz
    · rw [a3 hne]
      exact hth
    · exact absurd hne (a1 (lt_of_lt_of_le hklt (hsz h0 f1)))
  · exact (a2 hne).2

/-! ## The radius of a combined hair -/

/-- Claim C15 (counterexample). The four hairs of `sampleFan`, with the cursor at 0: the
pass admits the hair at the origin, which is the pivot and `hairs[count]`, and the two
hairs at distance 1 from it, which are at distance 8/5 from one another. With thickness
1/2 every radius of the emitted hair is 1, the greatest distance to the first hair, and
with thickness 9/5 every radius is 9/5, the thickness, while the greatest distance
between two admitted hairs, capped at `MAX_HAIR_RADIUS`, is 8/5 at every index. -/
theorem radius_not_pairwise_counterexample :
    lodHairs sampleFan ![1, 1, 1] ![0, 0, 0] (-1) = .ok sampleFanHairs ∧
    (fun p => (p.nHairs, p.accum.radii,
        (List.range 4).map (pairwiseRadius sampleLib p.admitted))) <$>
      lodPass sampleLib (1 / 2) sampleFanHairs 0 =
      .ok (3, [1, 1, 1, 1], [8 / 5, 8 / 5, 8 / 5, 8 / 5]) ∧
    (fun p => (p.nHairs, p.accum.radii,
        (List.range 4).map (pairwiseRadius sampleLib p.admitted))) <$>
      lodPass sampleLib (9 / 5) sampleFanHairs 0 =
      .ok (3, [9 / 5, 9 / 5, 9 / 5, 9 / 5], [8 / 5, 8 / 5, 8 / 5, 8 / 5]) := by
  decide!

/-- Claim C15 (amended). In every completed pass of the combination loop the emitted
hair has one radius per control point of the pivot, and at every index `k` below that
count that at least one admitted hair has, the radius `radii[k]` is the greatest of the
initial thickness and of the distances between the control points `cps[k]` of the
admitted hairs that have the index and the control point `cps[k]` of the first
admitted hair `hairs[count]`, capped at `MAX_HAIR_RADIUS`. Every index of the first
admitted hair is such an index. -/
theorem radius_is_capped_distance_to_first (L : Lib) (th : ℚ) (hairs : List Hair)
    (count : Nat) (p : Pass) (h : lodPass L th hairs count = .ok p) :
    p.accum.radii.length = p.cmp_hair.size ∧
    ∃ h0, p.admitted.head? = some h0 ∧
      ∀ k, k < p.cmp_hair.size →
        (k < h0.size → pointsAt k p.admitted ≠ []) ∧
        (pointsAt k p.admitted ≠ [] →
          p.accum.radii.getD k 0 = starRadius L th h0 p.admitted k) := by
  obtain ⟨l2, h0, f1, hk⟩ := pass_radius h
  refine ⟨l2, h0, f1, ?_⟩
  intro k hklt
  obtain ⟨a1, a2, -⟩ := hk k hklt
  exact ⟨a1, fun hne => (a2 hne).1⟩

/-- Witness of claim C15: the pass on the hairs of `sampleShort` with thickness 1. -/
theorem radius_is_capped_distance_to_first_witness :
    lodPass sampleLib 1 sampleShortHairs 0 = .ok sampleShortPass ∧
    (sampleShortPass.accum.radii.length = sampleShortPass.cmp_hair.size ∧
    ∃ h0, sampleShortPass.admitted.head? = some h0 ∧
      ∀ k, k < sampleShortPass.cmp_hair.size →
        (k < h0.size → pointsAt k sampleShortPass.admitted ≠ []) ∧
        (pointsAt k sampleShortPass.admitted ≠ [] →
          sampleShortPass.accum.radii.getD k 0 =
            starRadius sampleLib 1 h0 sampleShortPass.admitted k)) :=
  ⟨by decide!,
    radius_is_capped_distance_to_first sampleLib 1 sampleShortHairs 0 sampleShortPass
      (by decide!)⟩

/-! ## A group whose first hair is shorter than the pivot -/

/-- Claim C13 (failing input). The dataset `sampleTie` with LOD on and thickness 5: two
hairs enter the merge, of 4 and of 8 control points. The pivot is the second hair
(`min_ind = 1`), the hairs stay in place in the sort, and the pass admits the first
hair only. The accumulator has the 8 control points of the pivot, the loop over `k`
visits the indices 0 to 3, and the radii with the indices 4 to 7 keep the thickness:
the call returns four radii 2 and four radii 5, above `MAX_HAIR_RADIUS`. -/
theorem lod_radius_exceeds_cap :
    lodHairs sampleTie ![1, 1, 1] ![0, 0, 0] (-1) = .ok sampleTieHairs ∧
    (fun p => (p.min_ind, p.cmp_hair.size, p.admitted.map Hair.size, p.accum.radii)) <$>
      lodPass sampleLib 5 sampleTieHairs 0 = .ok (1, 8, [4], [2, 2, 2, 2, 5, 5, 5, 5]) ∧
    ToCubicBezierCurves sampleLib sampleTie [] [] ![1, 1, 1] ![0, 0, 0] (-1) 5 1 =
      .ok (true,
        [1, 0, 0, 1 / 2, 0, 1 / 3, 1 / 6, 0, 2 / 3, 0, 0, 1,
         0, 0, 0, 0, 0, 0, 0, 0, 0, 0, 0, 0],
        [2, 2, 2, 2, 5, 5, 5, 5]) ∧
    MAX_HAIR_RADIUS < 5 := by
  decide!

/-- Claim C14 (failing input). The dataset `sampleTie` with LOD on and thickness 1: the
pass admits the first hair only, of 4 control points, while the pivot has 8. The
counters with the indices 4 to 7, below the control-point count of the pivot, are 0: no
admitted hair has these indices, and the emitted control points are the sums `real3()`
divided by the counter 0 (a component is `0 * (1 / 0)`, which is 0 over the rationals
and not a number in float arithmetic). -/
theorem lod_counter_zero :
    (fun p => (p.min_ind, p.cmp_hair.size, p.admitted.map Hair.size, p.additions)) <$>
      lodPass sampleLib 1 sampleTieHairs 0 = .ok (1, 8, [4], [1, 1, 1, 1, 0, 0, 0, 0]) ∧
    (fun p => (p.sums.cps.drop 4, p.accum.cps.drop 4)) <$>
      lodPass sampleLib 1 sampleTieHairs 0 =
      .ok ([real3.zero, real3.zero, real3.zero, real3.zero],
        [real3.zero, real3.zero, real3.zero, real3.zero]) ∧
    (fun p => (List.range 8).map (fun k => (pointsAt k p.admitted).length)) <$>
      lodPass sampleLib 1 sampleTieHairs 0 = .ok [1, 1, 1, 1, 0, 0, 0, 0] ∧
    ToCubicBezierCurves sampleLib sampleTie [] [] ![1, 1, 1] ![0, 0, 0] (-1) 1 1 =
      .ok (true,
        [1, 0, 0, 1 / 2, 0, 1 / 3, 1 / 6, 0, 2 / 3, 0, 0, 1,
         0, 0, 0, 0, 0, 0, 0, 0, 0, 0, 0, 0],
        [1, 1, 1, 1, 1, 1, 1, 1]) := by
  decide!

/-! ## The strand offset table of `Load` -/

theorem offsetSum_zero (d : CyHair) : offsetSum d 0 = 0 := by
  simp [offsetSum]

theorem offsetSum_succ (d : CyHair) (i : Nat) :
    offsetSum d (i + 1) = (offsetSum d i + toUInt32 (segCount d i + 1)) % 2 ^ 32 := by
  unfold offsetSum toUInt32
  rw [List.range_succ, List.map_append, List.sum_append]
  simp only [List.map_cons, List.map_nil, List.sum_cons, List.sum_nil, add_zero]
  generalize ((List.range i).map (fun j => segCount d j + 1)).sum = a
  generalize segCount d i + 1 = b
  omega

theorem offsetSteps_spec (d : CyHair) (n : Nat) :
    ∀ (m s : Nat) (offs offs' : List Nat), 1 ≤ s → offs.length = n →
      (∀ i, i < s → offs[i]? = some (offsetSum d i)) →
      (List.range' s m).foldlM (offsetStep d) offs = .ok offs' →
      offs'.length = n ∧ ∀ i, i < s + m → offs'[i]? = some (offsetSum d i) := by
  intro m
  induction m with
  | zero =>
    intro s offs offs' _ hl hinv h
    simp only [List.range'_zero, List.foldlM_nil, pure_ok_iff] at h
    subst h
    exact ⟨hl, by simpa using hinv⟩
  | succ m ih =>
    intro s offs offs' hs hl hinv h
    rw [List.range'_succ, List.foldlM_cons, bind_ok_iff] at h
    obtain ⟨o1, h1, h2⟩ := h
    unfold offsetStep at h1
    simp only [bind_ok_iff] at h1
    obtain ⟨ns, hns, prev, hprev, h1⟩ := h1
    split_ifs at h1 with hlt
    simp only [pure_ok_iff] at h1
    subst h1
    have hns' := numSegments_ok hns
    rw [at?_ok_iff, hinv (s - 1) (by omega)] at hprev
    simp only [Option.some.injEq] at hprev
    have := ih (s + 1) _ offs' (by omega) (by rw [List.length_set]; exact hl) (by
      intro i hi
      rw [List.getElem?_set]
      by_cases he : s = i
      · subst he
        rw [if_pos rfl, if_pos hlt, ← hprev, hns']
        have : s = (s - 1) + 1 := by omega
        conv_rhs => rw [this, offsetSum_succ]
      · rw [if_neg he]
        exact hinv i (by omega)) h2
    rw [show s + (m + 1) = s + 1 + m by omega]
    exact this

/-- The strand offset table that `Load` builds: one entry per strand, entry `i` is
the prefix sum of `seg_j + 1` modulo `2 ^ 32`. -/
theorem buildOffsets_spec {d : CyHair} {offs : List Nat} (h : buildOffsets d = .ok offs) :
    1 ≤ d.num_strands_ ∧ offs.length = d.num_strands_ ∧
      ∀ i, i < d.num_strands_ → offs[i]? = some (offsetSum d i) := by
  unfold buildOffsets at h
  simp only [pure_bind] at h
  have hlen : (vresize d.strand_offsets_ d.num_strands_ 0).length = d.num_strands_ := by
    unfold vresize
    rw [List.length_append, List.length_take, List.length_replicate]
    omega
  split_ifs at h with he
  have hpos : 1 ≤ d.num_strands_ := by
    rw [← hlen]
    rw [List.isEmpty_iff] at he
    exact List.length_pos.mpr he
  obtain ⟨a1, a2⟩ := offsetSteps_spec d d.num_strands_ _ 1 _ _ (le_refl 1)
    (by rw [List.length_set]; exact hlen) (by
      intro i hi
      have : i = 0 := by omega
      subst this
      rw [List.getElem?_set, if_pos rfl, if_pos (by omega), offsetSum_zero]) h
  refine ⟨hpos, a1, ?_⟩
  intro i hi
  exact a2 i (by omega)

theorem freadInto_ok_true {α : Type} {avail v w : List α} {n : Nat}
    (h : freadInto avail n v = .ok (true, w)) :
    n ≠ 0 ∧ n ≤ avail.length ∧ n ≤ v.length ∧ w = avail.take n ++ v.drop n := by
  unfold freadInto at h
  split_ifs at h with h1 h2
  simp only [pure_ok_iff, Prod.mk.injEq, decide_eq_true_eq] at h
  obtain ⟨⟨a1, a2⟩, a3⟩ := h
  have hmin : min n avail.length = n := min_eq_left a2
  rw [hmin] at a3 h2
  exact ⟨a1, a2, by omega, a3.symm⟩

theorem pure_false_ne {α : Type} (a b : α) : (pure (false, a) : Run (Bool × α)) ≠ .ok (true, b) := by
  simp [pure, Except.pure]

/-- What a call of `Load` that returns true has done. -/
theorem Load_ok_true {file : Option CyHairFile} {self d : CyHair}
    (h : Load file self = .ok (true, d)) :
    ∃ f hdr, file = some f ∧ f.header = some hdr ∧ hdr.magic = "HAIR" ∧
      (hdr.flags % 2 ^ 32).testBit 1 = true ∧
      d.num_strands_ = hdr.num_strands % 2 ^ 32 ∧
      d.default_segments_ = toInt32 hdr.default_segments ∧
      d.default_thickness_ = hdr.default_thickness ∧
      (if (hdr.flags % 2 ^ 32).testBit 0 = true then
        d.segments_ = f.segments.take d.num_strands_ ∧ d.num_strands_ ≤ f.segments.length
        else d.segments_ = self.segments_ ∧ 1 ≤ d.default_segments_) ∧
      d.points_ = f.points.take (3 * (hdr.total_points % 2 ^ 32)) ∧
      3 * (hdr.total_points % 2 ^ 32) ≤ f.points.length ∧
      1 ≤ hdr.total_points % 2 ^ 32 ∧
      buildOffsets { d with strand_offsets_ := self.strand_offsets_ } = .ok d.strand_offsets_ := by
  unfold Load at h
  cases file with
  | none => exact absurd h (pure_false_ne _ _)
  | some f =>
    dsimp only at h
    cases hh : f.header with
    | none => rw [hh] at h; exact absurd h (pure_false_ne _ _)
    | some hdr =>
      rw [hh] at h
      dsimp only at h
      by_cases hm : hdr.magic = "HAIR"
      swap
      · rw [if_pos hm] at h; exact absurd h (pure_false_ne _ _)
      rw [if_neg (not_not.mpr hm)] at h
      by_cases hp : (hdr.flags % 2 ^ 32).testBit 1 = true
      swap
      · rw [if_pos (by simpa using hp)] at h; exact absurd h (pure_false_ne _ _)
      rw [if_neg (by simpa using hp)] at h
      by_cases hds : toInt32 hdr.default_segments < 1 ∧ (!(hdr.flags % 2 ^ 32).testBit 0) = true
      · rw [if_pos hds] at h; exact absurd h (pure_false_ne _ _)
      rw [if_neg hds] at h
      simp only [bind_ok_iff] at h
      obtain ⟨r1, hr1, h⟩ := h
      by_cases c1 : (!r1.1) = true
      · rw [if_pos c1] at h; exact absurd h (pure_false_ne _ _)
      rw [if_neg c1] at h
      simp only [bind_ok_iff] at h
      obtain ⟨r2, hr2, h⟩ := h
      by_cases c2 : (!r2.1) = true
      · rw [if_pos c2] at h; exact absurd h (pure_false_ne _ _)
      rw [if_neg c2] at h
      simp only [bind_ok_iff] at h
      obtain ⟨r3, hr3, h⟩ := h
      by_cases c3 : (!r3.1) = true
      · rw [if_pos c3] at h; exact absurd h (pure_false_ne _ _)
      rw [if_neg c3] at h
      simp only [bind_ok_iff] at h
      obtain ⟨r4, hr4, h⟩ := h
      by_cases c4 : (!r4.1) = true
      · rw [if_pos c4] at h; exact absurd h (pure_false_ne _ _)
      rw [if_neg c4] at h
      simp only [bind_ok_iff] at h
      obtain ⟨r5, hr5, h⟩ := h
      by_cases c5 : (!r5.1) = true
      · rw [if_pos c5] at h; exact absurd h (pure_false_ne _ _)
      rw [if_neg c5] at h
      simp only [bind_ok_iff, pure_ok_iff, Prod.mk.injEq, true_and] at h
      obtain ⟨offs, hoffs, rfl⟩ := h
      obtain ⟨b1, s1⟩ := r1
      obtain ⟨b2, s2⟩ := r2
      simp only [Bool.not_eq_true', Bool.not_eq_false] at c1 c2
      subst c1 c2
      unfold readArray at hr1 hr2
      rw [if_pos hp] at hr2
      obtain ⟨p1, p2, p3, p4⟩ := freadInto_ok_true hr2
      have hlen : (vresize self.points_ (3 * (hdr.total_points % 2 ^ 32) % 2 ^ 32) 0).length =
          3 * (hdr.total_points % 2 ^ 32) % 2 ^ 32 := by
        unfold vresize
        rw [List.length_append, List.length_take, List.length_replicate]
        omega
      rw [hlen] at p3
      have hnw : 3 * (hdr.total_points % 2 ^ 32) % 2 ^ 32 = 3 * (hdr.total_points % 2 ^ 32) := by
        omega
      have hdrop : (vresize self.points_ (3 * (hdr.total_points % 2 ^ 32) % 2 ^ 32) 0).drop
          (3 * (hdr.total_points % 2 ^ 32)) = [] := by
        apply List.drop_eq_nil_of_le
        rw [hlen]
        omega
      rw [hdrop, List.append_nil] at p4
      refine ⟨f, hdr, rfl, hh, hm, hp, rfl, rfl, rfl, ?_, p4, p2, by omega, hoffs⟩
      dsimp only
      by_cases hs : (hdr.flags % 2 ^ 32).testBit 0 = true
      · rw [if_pos hs] at hr1 ⊢
        obtain ⟨q1, q2, q3, q4⟩ := freadInto_ok_true hr1
        have hl : (vresize self.segments_ (hdr.num_strands % 2 ^ 32) 0).length =
            hdr.num_strands % 2 ^ 32 := by
          unfold vresize
          rw [List.length_append, List.length_take, List.length_replicate]
          omega
        have hd : (vresize self.segments_ (hdr.num_strands % 2 ^ 32) 0).drop
            (hdr.num_strands % 2 ^ 32) = [] := by
          apply List.drop_eq_nil_of_le
          rw [hl]
        rw [hd, List.append_nil] at q4
        exact ⟨q4, q2⟩
      · rw [if_neg hs] at hr1 ⊢
        simp only [pure_ok_iff, Prod.mk.injEq, true_and] at hr1
        refine ⟨hr1.symm, ?_⟩
        by_contra hlt
        exact hds ⟨by omega, by simpa using hs⟩

/-! ## The offsets after `Load` -/

/-- Claim C18. After a call of `Load` that returns true the object has at least one
strand, the table `strand_offsets_` has one entry per strand, entry 0 is 0 and for
every strand index `i` below `num_strands_` entry `i` is the sum over all `j < i` of
`seg_j + 1` modulo `2 ^ 32`, where `seg_j` is `segments_[j]` when `segments_` is not
empty and `default_segments_` otherwise. On an object whose `segments_` was empty
before the call, `segments_` is not empty after it exactly when the flag for per-strand
segment counts is set in the header. -/
theorem load_offsets_prefix_sum (file : Option CyHairFile) (self d : CyHair)
    (h : Load file self = .ok (true, d)) :
    1 ≤ d.num_strands_ ∧ d.strand_offsets_.length = d.num_strands_ ∧
    d.strand_offsets_[0]? = some 0 ∧
    (∀ i, i < d.num_strands_ → d.strand_offsets_[i]? = some
      ((((List.range i).map (fun j => segCount d j + 1)).sum % 2 ^ 32).toNat)) ∧
    (∀ j, segCount d j =
      if d.segments_.isEmpty then d.default_segments_ else ((d.segments_.getD j 0 : Nat) : Int)) ∧
    (self.segments_ = [] → ∃ f hdr, file = some f ∧ f.header = some hdr ∧
      (d.segments_.isEmpty = false ↔ (hdr.flags % 2 ^ 32).testBit 0 = true)) := by
  obtain ⟨f, hdr, e1, e2, e3, e4, e5, e6, e7, e8, e9, e10, e11, e12⟩ := Load_ok_true h
  obtain ⟨b1, b2, b3⟩ := buildOffsets_spec e12
  dsimp only at b1 b2 b3
  refine ⟨b1, b2, ?_, ?_, fun j => rfl, ?_⟩
  · have := b3 0 (by omega)
    rw [offsetSum_zero] at this
    exact this
  · intro i hi
    exact b3 i hi
  · intro hself
    refine ⟨f, hdr, e1, e2, ?_⟩
    by_cases hs : (hdr.flags % 2 ^ 32).testBit 0 = true
    · rw [if_pos hs] at e8
      obtain ⟨e8a, e8b⟩ := e8
      simp only [hs, iff_true]
      rw [e8a, List.isEmpty_eq_false_iff_exists_mem]
      have hpos : 0 < (f.segments.take d.num_strands_).length := by
        rw [List.length_take]
        omega
      obtain ⟨x, hx⟩ := List.exists_mem_of_length_pos hpos
      exact ⟨x, hx⟩
    · rw [if_neg hs] at e8
      rw [e8.1, hself]
      constructor
      · intro hc
        simp at hc
      · intro hc
        exact absurd hc hs

/-- Witness of claim C18: `Load` on a file with three strands of 4, 1 and 3 segments
returns true with the offsets 0, 5 and 7. -/
theorem load_offsets_prefix_sum_witness :
    Load (some sampleFileMixed) CyHair.new = .ok (true, sampleMixed) ∧
    (1 ≤ sampleMixed.num_strands_ ∧
    sampleMixed.strand_offsets_.length = sampleMixed.num_strands_ ∧
    sampleMixed.strand_offsets_[0]? = some 0 ∧
    (∀ i, i < sampleMixed.num_strands_ → sampleMixed.strand_offsets_[i]? = some
      ((((List.range i).map (fun j => segCount sampleMixed j + 1)).sum % 2 ^ 32).toNat)) ∧
    (∀ j, segCount sampleMixed j =
      if sampleMixed.segments_.isEmpty then sampleMixed.default_segments_
      else ((sampleMixed.segments_.getD j 0 : Nat) : Int)) ∧
    (CyHair.new.segments_ = [] → ∃ f hdr, some sampleFileMixed = some f ∧
      f.header = some hdr ∧
      (sampleMixed.segments_.isEmpty = false ↔ (hdr.flags % 2 ^ 32).testBit 0 = true))) :=
  ⟨by decide!,
    load_offsets_prefix_sum (some sampleFileMixed) CyHair.new sampleMixed (by decide!)⟩

/-! ## `main` on a file with one strand of four points -/

theorem freadInto_full {α : Type} (avail v : List α) (n : Nat) (h0 : n ≠ 0)
    (h1 : n ≤ avail.length) (h2 : v.length = n) :
    freadInto avail n v = .ok (true, avail.take n) := by
  unfold freadInto
  have hmin : min n avail.length = n := min_eq_left h1
  have hne : v.isEmpty = false := by
    cases v with
    | nil => simp at h2; omega
    | cons a t => rfl
  rw [hne, hmin, if_neg (by simp), if_neg (by omega), List.drop_eq_nil_of_le (by omega),
    List.append_nil]
  simp [pure, Except.pure, h0, h1]

/-- The object after `Load` on a file with one strand of four points, the flag for
points only and 3 default segments. -/
theorem Load_one_strand (f : CyHairFile) (hdr : CyHairHeader) (hh : f.header = some hdr)
    (hm : hdr.magic = "HAIR") (hs : hdr.num_strands = 1) (ht : hdr.total_points = 4)
    (hf : hdr.flags = 2) (hd : hdr.default_segments = 3) (hp : 12 ≤ f.points.length) :
    Load (some f) CyHair.new =
      .ok (true, ⟨[], f.points.take 12, 1, 3, hdr.default_thickness, [0]⟩) := by
  have t0 : (2 % 2 ^ 32 : Nat).testBit 0 = false := by decide
  have t1 : (2 % 2 ^ 32 : Nat).testBit 1 = true := by decide
  have t2 : (2 % 2 ^ 32 : Nat).testBit 2 = false := by decide
  have t3 : (2 % 2 ^ 32 : Nat).testBit 3 = false := by decide
  have t4 : (2 % 2 ^ 32 : Nat).testBit 4 = false := by decide
  have i3 : toInt32 3 = 3 := by decide
  have n1 : (1 % 2 ^ 32 : Nat) = 1 := by decide
  have n4 : (3 * (4 % 2 ^ 32) : Nat) = 12 := by decide
  have n12 : (12 % 2 ^ 32 : Nat) = 12 := by decide
  unfold Load
  simp only [hh, hm, hs, ht, hf, hd, t0, t1, t2, t3, t4, i3, n1, n4, n12, ne_eq, not_true_eq_false,
    if_false, Bool.not_true, Bool.not_false, Bool.false_eq_true, CyHair.new, readArray]
  rw [if_neg (by omega), pure_bind]
  simp only [Bool.not_true, Bool.false_eq_true, if_false, if_true, pure_bind]
  rw [freadInto_full f.points _ 12 (by omega) hp (by simp [vresize]), ok_bind]
  simp only [Bool.not_true, Bool.false_eq_true, if_false, pure_bind]
  have hb : buildOffsets ⟨[], f.points.take 12, 1, 3, hdr.default_thickness, []⟩ = .ok [0] := rfl
  rw [hb]
  rfl

/-- The conversion of one strand of four points with LOD off: one curve, with the
thickness of the caller when that is positive and the default thickness otherwise. -/
theorem convert_one_strand (L : Lib) (pts : List ℚ) (hp : pts.length = 12) (dt th : ℚ)
    (ms lod : Int) (hl : lod ≤ 0) :
    ∃ P : List ℚ, P.length = 12 ∧
      ToCubicBezierCurves L ⟨[], pts, 1, 3, dt, [0]⟩ [] [] ![1, 1, 1] ![0, 0, 0] ms th lod =
        .ok (true, P, [if th > 0 then th else dt, if th > 0 then th else dt,
          if th > 0 then th else dt, if th > 0 then th else dt]) := by
  have heff : effStrands ⟨[], pts, 1, 3, dt, [0]⟩ ms = 1 := by
    unfold effStrands
    have : toInt32 1 = 1 := by decide
    simp only [this]
    rw [if_neg (by omega)]
  have hg : ((⟨[], pts, 1, 3, dt, [0]⟩ : CyHair).points_.isEmpty ||
      (⟨[], pts, 1, 3, dt, [0]⟩ : CyHair).strand_offsets_.isEmpty) = false := by
    cases pts with
    | nil => simp at hp
    | cons a t => rfl
  have hr : StrandReadable ⟨[], pts, 1, 3, dt, [0]⟩ 0 := by
    unfold StrandReadable segCount
    simp only [List.isEmpty_nil, if_true]
    refine ⟨by simp, fun _ => ⟨by simp, ?_⟩⟩
    simp only [List.getD_cons_zero]
    rw [hp]
    decide
  obtain ⟨qs, hqs⟩ := strandCurves_of_readable hr
  have hlen := strandCurves_length hqs
  have hseg : segCount ⟨[], pts, 1, 3, dt, [0]⟩ 0 = 3 := rfl
  rw [hseg] at hlen
  obtain ⟨q, rfl⟩ : ∃ q, qs = [q] := by
    match qs, hlen with
    | [q], _ => exact ⟨q, rfl⟩
  rw [toCubic_noLod L _ [] [] _ _ ms th lod hl hg (by rw [heff]; omega), heff]
  have h1 : (1 : Int).toNat = 1 := rfl
  rw [h1]
  simp only [List.range_succ, List.range_zero, List.nil_append, List.mapM_cons, List.mapM_nil,
    hqs, ok_bind, pure_bind, bind_pure_comp]
  refine ⟨curveFloats (fun j => scaleTranslate ![1, 1, 1] ![0, 0, 0] (q j)), rfl, ?_⟩
  simp [curveRadius, Functor.map, Except.map, pure, Except.pure]

theorem mapM_at?_range {α : Type} (l : List α) :
    (List.range l.length).mapM (fun j => at? l (12 * 0 + j)) = .ok l := by
  rw [mapM_ok_iff, List.forall₂_iff_get]
  refine ⟨by simp, ?_⟩
  intro i h1 h2
  simp only [List.get_eq_getElem, List.getElem_range, Nat.mul_zero, Nat.zero_add]
  exact at?_eq_ok h2

theorem boundsLoop_total (points radiuss : List ℚ) (n : Nat) (hp : 3 * n ≤ points.length)
    (hr : n ≤ radiuss.length) (b : real3 × real3) :
    ∃ b', (List.range n).foldlM (boundsStep points radiuss) b = .ok b' := by
  obtain ⟨b', hb', -⟩ := foldlM_total (fun _ => True) (boundsStep points radiuss) (List.range n)
    (by
      intro s i hi _
      rw [List.mem_range] at hi
      obtain ⟨t, ht, -⟩ := at?_ok_of_lt (show i < radiuss.length by omega)
      obtain ⟨x, hx, -⟩ := at?_ok_of_lt (show 3 * i + 0 < points.length by omega)
      obtain ⟨y, hy, -⟩ := at?_ok_of_lt (show 3 * i + 1 < points.length by omega)
      obtain ⟨z, hz, -⟩ := at?_ok_of_lt (show 3 * i + 2 < points.length by omega)
      refine ⟨(⟨min s.1.x (x - t), min s.1.y (y - t), min s.1.z (z - t)⟩,
        ⟨max s.2.x (x + t), max s.2.y (y + t), max s.2.z (z + t)⟩), ?_, trivial⟩
      unfold boundsStep
      rw [ht, ok_bind, hx, ok_bind, hy, ok_bind, hz, ok_bind]
      rfl) b trivial
  exact ⟨b', hb'⟩

/-- The run of `main` on a file with one strand of four points, the flag for points
only and 3 default segments, with LOD off: one curve record, whose widths are the
thickness of `main` when that is positive and the default thickness of the file
otherwise. -/
theorem main_one_strand (L : Lib) (f : CyHairFile) (hdr : CyHairHeader) (argc : Nat)
    (argv1 : String) (argv3 argv4 : Int) (argv5 : ℚ) (hargc : 3 ≤ argc)
    (hhelp : argv1 ≠ "--help" ∧ argv1 ≠ "-h") (hh : f.header = some hdr)
    (hm : hdr.magic = "HAIR") (hs : hdr.num_strands = 1) (ht : hdr.total_points = 4)
    (hf : hdr.flags = 2) (hd : hdr.default_segments = 3) (hp : 12 ≤ f.points.length)
    (hlod : (if argc > 3 then argv3 else -1) ≤ 0) :
    ∃ out P, main L argc argv1 (some f) true argv3 argv4 argv5 = .ok (true, some out) ∧
      P.length = 12 ∧ out.num_strands = 1 ∧
      out.user_thickness = (if argc > 5 then argv5 else 1) ∧
      out.curves = [⟨P,
        if (if argc > 5 then argv5 else 1) > 0 then (if argc > 5 then argv5 else 1)
          else hdr.default_thickness,
        if (if argc > 5 then argv5 else 1) > 0 then (if argc > 5 then argv5 else 1)
          else hdr.default_thickness⟩] := by
  obtain ⟨P, hP, hconv⟩ := convert_one_strand L (f.points.take 12)
    (by rw [List.length_take]; omega) hdr.default_thickness (if argc > 5 then argv5 else 1)
    (if argc > 4 then argv4 else -1) (if argc > 3 then argv3 else -1) hlod
  generalize hr : (if (if argc > 5 then argv5 else 1) > 0 then (if argc > 5 then argv5 else 1)
    else hdr.default_thickness) = r at hconv ⊢
  obtain ⟨b, hb⟩ := boundsLoop_total P [r, r, r, r] 4 (by rw [hP]) (by simp)
    (⟨10 ^ 30, 10 ^ 30, 10 ^ 30⟩, ⟨-10 ^ 30, -10 ^ 30, -10 ^ 30⟩)
  have hrec : (List.range 1).mapM (curveRecord P [r, r, r, r]) = .ok [⟨P, r, r⟩] := by
    have hP' := mapM_at?_range P
    rw [hP] at hP'
    simp only [List.range_succ, List.range_zero, List.nil_append, List.mapM_cons,
      List.mapM_nil, curveRecord]
    simp only [List.range_succ, List.range_zero, List.nil_append] at hP'
    rw [hP']
    rfl
  have hn : toInt32 1 = 1 := by decide
  refine ⟨⟨toInt32 1, if argc > 5 then argv5 else 1, b.1, b.2, [⟨P, r, r⟩]⟩, P, ?_, hP,
    hn, rfl, rfl⟩
  unfold main
  rw [if_neg (by
    intro hc
    rcases hc with hc | hc | hc
    · omega
    · exact hhelp.1 hc
    · exact hhelp.2 hc)]
  simp only [Bool.not_true, Bool.false_eq_true, if_false]
  rw [Load_one_strand f hdr hh hm hs ht hf hd hp, ok_bind]
  simp only [Bool.not_true, Bool.false_eq_true, if_false]
  rw [hconv, ok_bind]
  simp only [Bool.not_true, Bool.false_eq_true, if_false, List.length_cons, List.length_nil]
  rw [hP]
  have h43 : 12 / 3 = 4 := rfl
  have h44 : (0 + 1 + 1 + 1 + 1) / 4 = 1 := rfl
  rw [h43, h44, hb, ok_bind, hrec, ok_bind]
  rfl

/-! ## The widths that `main` writes -/

/-- Claim C17 (counterexample). The run of `main` with the two path arguments only on
the file `sampleFile`, which has one strand of four points, the flag for points only and
default thickness 1/10: `main` returns `EXIT_SUCCESS` and writes one curve record, and
that record has `width0 = width1 = 1`, not 1/10. -/
theorem main_width_counterexample :
    main sampleLib 3 "in.hair" (some sampleFile) true 0 0 0 =
      .ok (true, some ⟨1, 1, ⟨-1, -1, -1⟩, ⟨1, 1, 2⟩,
        [⟨[0, 0, 0, 0, 0, 1 / 3, 0, 0, 2 / 3, 0, 0, 1], 1, 1⟩]⟩) ∧
    sampleFile.header = some ⟨"HAIR", 1, 4, 2, 3, 1 / 10⟩ ∧ (1 : ℚ) ≠ 1 / 10 := by
  decide!

/-- Claim C17 (amended). End to end, `main` with the input and output path arguments
only (so no LOD and no thickness argument), on a file with the magic `HAIR`, one strand
of four points, no optional flags and any default thickness: `main` returns
`EXIT_SUCCESS` and writes exactly one curve record, and that record has
`width0 = width1 = 1`, the value that `main` gives `user_thickness` when there is no
thickness argument. With an LOD argument and a thickness argument that are not positive
the record has the default thickness of the file as both widths. -/
theorem main_default_width (L : Lib) (f : CyHairFile) (hdr : CyHairHeader) (argv1 : String)
    (argv3 argv4 : Int) (argv5 : ℚ) (hhelp : argv1 ≠ "--help" ∧ argv1 ≠ "-h")
    (hh : f.header = some hdr) (hm : hdr.magic = "HAIR") (hs : hdr.num_strands = 1)
    (ht : hdr.total_points = 4) (hf : hdr.flags = 2) (hd : hdr.default_segments = 3)
    (hp : 12 ≤ f.points.length) :
    (∃ out P, main L 3 argv1 (some f) true argv3 argv4 argv5 = .ok (true, some out) ∧
      P.length = 12 ∧ out.user_thickness = 1 ∧ out.curves = [⟨P, 1, 1⟩]) ∧
    (argv3 ≤ 0 → argv5 ≤ 0 →
      ∃ out P, main L 6 argv1 (some f) true argv3 argv4 argv5 = .ok (true, some out) ∧
        P.length = 12 ∧ out.user_thickness = argv5 ∧
        out.curves = [⟨P, hdr.default_thickness, hdr.default_thickness⟩]) := by
  constructor
  · obtain ⟨out, P, h1, h2, -, h4, h5⟩ := main_one_strand L f hdr 3 argv1 argv3 argv4 argv5
      (le_refl 3) hhelp hh hm hs ht hf hd hp (by rw [if_neg (by omega)]; omega)
    simp only [gt_iff_lt, show ¬ (5 < 3) by decide, if_false, zero_lt_one, if_true] at h4 h5
    exact ⟨out, P, h1, h2, h4, h5⟩
  · intro h3 h5
    obtain ⟨out, P, h1, h2, -, h4, h5'⟩ := main_one_strand L f hdr 6 argv1 argv3 argv4 argv5
      (by omega) hhelp hh hm hs ht hf hd hp (by rw [if_pos (by omega)]; exact h3)
    simp only [gt_iff_lt, show (5 < 6) by decide, if_true] at h4 h5'
    rw [if_neg (by linarith)] at h5'
    exact ⟨out, P, h1, h2, h4, h5'⟩

/-- Witness of claim C17: the file `sampleFile`. -/
theorem main_default_width_witness :
    (("in.hair" : String) ≠ "--help" ∧ ("in.hair" : String) ≠ "-h") ∧
    sampleFile.header = some ⟨"HAIR", 1, 4, 2, 3, 1 / 10⟩ ∧ 12 ≤ sampleFile.points.length ∧
    ((∃ out P, main sampleLib 3 "in.hair" (some sampleFile) true 0 0 0 = .ok (true, some out) ∧
      P.length = 12 ∧ out.user_thickness = 1 ∧ out.curves = [⟨P, 1, 1⟩]) ∧
    ((0 : Int) ≤ 0 → (0 : ℚ) ≤ 0 →
      ∃ out P, main sampleLib 6 "in.hair" (some sampleFile) true 0 0 0 = .ok (true, some out) ∧
        P.length = 12 ∧ out.user_thickness = 0 ∧
        out.curves = [⟨P, (⟨"HAIR", 1, 4, 2, 3, 1 / 10⟩ : CyHairHeader).default_thickness,
          (⟨"HAIR", 1, 4, 2, 3, 1 / 10⟩ : CyHairHeader).default_thickness⟩])) :=
  ⟨by decide, by decide!, by decide,
    main_default_width sampleLib sampleFile ⟨"HAIR", 1, 4, 2, 3, 1 / 10⟩ "in.hair" 0 0 0
      (by decide) (by decide!) rfl rfl rfl rfl rfl (by decide)⟩

theorem bySize_le {L : Lib} (hB : L.BySize) (l : List Hair) :
    (L.sortSegments l).Pairwise (fun a b => a.size ≤ b.size) := by
  refine (hB l).imp ?_
  intro a b h
  unfold sortBySegments at h
  simp only [decide_eq_false_iff_not, not_lt] at h
  exact h

/-! ## The combination loop completes when the sorts keep their order -/

theorem sorted_take_countP (N : Nat) :
    ∀ (l : List Hair), l.Pairwise (fun a b => a.size ≤ b.size) →
      ∀ x ∈ l.take (l.countP (fun h => decide (h.size ≤ N))), x.size ≤ N := by
  intro l
  induction l with
  | nil => intro _ x hx; simp at hx
  | cons a t ih =>
    intro hp x hx
    rw [List.pairwise_cons] at hp
    by_cases ha : a.size ≤ N
    · rw [List.countP_cons_of_pos _ _ (by simpa using ha), List.take_succ_cons] at hx
      rcases List.mem_cons.mp hx with rfl | hx
      · exact ha
      · exact ih hp.2 x hx
    · have hzero : t.countP (fun h => decide (h.size ≤ N)) = 0 := by
        rw [List.countP_eq_zero]
        intro y hy
        have := hp.1 y hy
        simp only [decide_eq_true_eq]
        omega
      rw [List.countP_cons_of_neg _ _ (by simpa using ha), hzero] at hx
      simp at hx

theorem walk_total_nonempty (L : Lib) {cmp_hair : Hair} (hcmp : cmp_hair.cps ≠ [])
    {hairs : List Hair} (hne : NonEmptyHairs hairs) (count : Nat)
    (hlen1 : 1 ≤ hairs.length) (hlen2 : hairs.length < 2 ^ 64) (fuel nHairs same : Nat)
    (h1 : count + nHairs ≤ hairs.length - 1) (h2 : hairs.length - 1 - (count + nHairs) < fuel) :
    ∃ nHairs' same', walk L cmp_hair hairs count fuel nHairs same = .ok (nHairs', same') := by
  induction fuel generalizing nHairs same with
  | zero => omega
  | succ fuel ih =>
    unfold walk
    dsimp only
    rw [sizeMinusOne_eq hlen1 hlen2]
    by_cases hi : count + nHairs = hairs.length - 1
    · rw [if_pos hi]
      exact ⟨nHairs, same, rfl⟩
    · rw [if_neg hi]
      obtain ⟨c0, hc0, -⟩ := at?_ok_of_lt (List.length_pos.mpr hcmp)
      obtain ⟨x, hx, hxm⟩ := at?_ok_of_lt (show count + nHairs < hairs.length by omega)
      obtain ⟨p, hp, -⟩ := at?_ok_of_lt (List.length_pos.mpr (hne x hxm))
      rw [hc0, ok_bind, hx, ok_bind, hp, ok_bind]
      by_cases hd : distance L c0 p ≥ MAX_DISTANCE
      · rw [if_pos hd]
        exact ⟨nHairs, same, rfl⟩
      · rw [if_neg hd]
        apply ih
        · omega
        · omega

theorem accumStep_ok (L : Lib) {hairs : List Hair} {count i k n : Nat} {st : Hair × List Int}
    {h h0 : Hair} (hi : hairs[i]? = some h) (hc : hairs[count]? = some h0) (hk : k < h.size)
    (hk0 : k < h0.size) (hkn : k < n) (hs : AccumFull n st) :
    ∃ st', accumStep L hairs count i st k = .ok st' ∧ AccumFull n st' := by
  obtain ⟨hs1, hs2, hs3⟩ := hs
  have hx : at? hairs i = .ok h := at?_ok_iff.mpr hi
  have hh0 : at? hairs count = .ok h0 := at?_ok_iff.mpr hc
  obtain ⟨a, ha, -⟩ := at?_ok_of_lt (show k < st.1.cps.length by omega)
  obtain ⟨p, hp, -⟩ := at?_ok_of_lt (show k < h.cps.length from hk)
  obtain ⟨c, hc', -⟩ := at?_ok_of_lt (show k < st.2.length by omega)
  obtain ⟨p0, hp0, -⟩ := at?_ok_of_lt (show k < h0.cps.length from hk0)
  obtain ⟨r, hr, -⟩ := at?_ok_of_lt (show k < st.1.radii.length by omega)
  refine ⟨(⟨st.1.cps.set k (a + p),
    st.1.radii.set k (min (max r (distance L p p0)) MAX_HAIR_RADIUS)⟩, st.2.set k (c + 1)), ?_, ?_⟩
  · unfold accumStep
    rw [hx, ok_bind, ha, ok_bind, hp, ok_bind, hc', ok_bind, hh0, ok_bind, hp0, ok_bind, hr,
      ok_bind]
    rfl
  · exact ⟨by simpa using hs1, by simpa using hs2, by simpa using hs3⟩

theorem accumHair_ok (L : Lib) {hairs : List Hair} {count i n : Nat} {st : Hair × List Int}
    {h h0 : Hair} (hi : hairs[i]? = some h) (hc : hairs[count]? = some h0) (h1 : h.size ≤ h0.size)
    (h2 : h.size ≤ n) (hs : AccumFull n st) :
    ∃ st', accumHair L hairs count st i = .ok st' ∧ AccumFull n st' := by
  unfold accumHair
  rw [at?_ok_iff.mpr hi, ok_bind]
  apply foldlM_total (AccumFull n) (accumStep L hairs count i) _ _ st hs
  intro s k hk hs'
  rw [List.mem_range] at hk
  exact accumStep_ok L hi hc hk (by omega) (by omega) hs'

theorem getElem?_three {α : Type} (A B C : List α) (j : Nat) (hj : j < B.length) :
    (A ++ B ++ C)[A.length + j]? = B[j]? := by
  rw [List.append_assoc, List.getElem?_append_right (by omega)]
  simp only [Nat.add_sub_cancel_left]
  rw [List.getElem?_append_left hj]

theorem getElem?_three_left {α : Type} (A B C : List α) (i : Nat) (hi : i < A.length) :
    (A ++ B ++ C)[i]? = A[i]? := by
  rw [List.append_assoc, List.getElem?_append_left hi]

/-- One pass of the combination loop completes when every hair has a control point,
the sort by sample distance leaves the pivot in front and the sort by size sorts. -/
theorem lodPass_total_ordered {L : Lib} (hS : L.Sorts) (hP : L.PivotFirst) (hB : L.BySize)
    (th : ℚ) {hairs : List Hair} (hne : NonEmptyHairs hairs) (count : Nat)
    (hc : count + 1 < hairs.length) (hlen : hairs.length < 2 ^ 64) :
    ∃ p, lodPass L th hairs count = .ok p := by
  obtain ⟨rb, hrb⟩ := rootBoundsLoop_ok_of_nonempty hairs count
    (fun x hx => hne x (List.mem_of_mem_drop hx))
  obtain ⟨mi, hmi⟩ := minIndLoop_ok_of_nonempty hairs count rb.MaximumExtent (by omega)
    (fun x hx => hne x (List.mem_of_mem_drop hx))
  obtain ⟨m1, m2, -⟩ := minIndLoop_spec hmi (by omega)
  obtain ⟨cmp, hcmp, hcmpm⟩ := at?_ok_of_lt m2
  have hcmpd : cmp ∈ hairs.drop count := mem_drop_of_getElem? (at?_ok_iff.mp hcmp) m1
  generalize hsorted : hairs.take count ++ L.sortSample cmp (hairs.drop count) = sorted
  have hperm1 : sorted.Perm hairs := by
    rw [← hsorted]
    exact ((hS.1 _ _).append_left _).trans (by rw [List.take_append_drop])
  have hl1 : sorted.length = hairs.length := hperm1.length_eq
  have hne1 : NonEmptyHairs sorted := fun x hx => hne x (hperm1.subset hx)
  have hsc : sorted[count]? = some cmp := by
    rw [← hsorted, List.getElem?_append_right (by rw [List.length_take]; omega)]
    have : count - (List.take count hairs).length = 0 := by
      rw [List.length_take]; omega
    rw [this, ← List.head?_eq_getElem?]
    exact hP cmp _ hcmpd
  obtain ⟨w, s, hw⟩ := walk_total_nonempty L (hne cmp hcmpm) hne1 count (by omega) (by omega)
    sorted.length 1 1 (by omega) (by omega)
  obtain ⟨w1, w2, w3, -, -, w6⟩ := walk_spec _ _ _ _ _ _ _ _ _ hw
  have hw6 := w6 (by omega)
  generalize hwalked : (sorted.drop (count + 1)).take (w - 1) = walked at w2
  have hwl : walked.length = w - 1 := by
    rw [← hwalked, List.length_take, List.length_drop]
    omega
  generalize hhairs2 : sorted.take (count + 1) ++ L.sortSegments walked ++
    sorted.drop (count + w) = hairs2
  have hAl : (sorted.take (count + 1)).length = count + 1 := by
    rw [List.length_take]; omega
  have hBl : (L.sortSegments walked).length = w - 1 := by
    rw [(hS.2 _).length_eq, hwl]
  have h0 : hairs2[count]? = some cmp := by
    rw [← hhairs2, getElem?_three_left _ _ _ _ (by omega), List.getElem?_take_of_lt (by omega),
      hsc]
  have hcnt : s - 1 = (L.sortSegments walked).countP (fun h => decide (h.size ≤ cmp.size)) := by
    rw [(hS.2 _).countP_eq, w2]
    omega
  have hrest : ∀ j, j < s - 1 →
      ∃ h, hairs2[count + 1 + j]? = some h ∧ h.size ≤ cmp.size := by
    intro j hj
    have hle := List.countP_le_length (fun h => decide (h.size ≤ cmp.size))
      (l := L.sortSegments walked)
    have hjB : j < (L.sortSegments walked).length := by omega
    refine ⟨(L.sortSegments walked)[j], ?_, ?_⟩
    · have key := getElem?_three (sorted.take (count + 1)) (L.sortSegments walked)
        (sorted.drop (count + w)) j hjB
      rw [hAl] at key
      rw [← hhairs2, key, List.getElem?_eq_getElem hjB]
    · apply sorted_take_countP cmp.size _ (bySize_le hB walked)
      rw [← hcnt, List.mem_iff_getElem]
      refine ⟨j, by rw [List.length_take]; omega, ?_⟩
      rw [List.getElem_take]
  have hfull0 : AccumFull cmp.size (Hair.empty.resize cmp.size th,
      List.replicate (Hair.empty.resize cmp.size th).size (0 : Int)) := by
    simp [AccumFull, Hair.resize, Hair.empty, vresize, Hair.size]
  obtain ⟨st, hst, hfull⟩ := foldlM_total (AccumFull cmp.size) (accumHair L hairs2 count)
    (List.range' count s) (by
      intro st i hi hs
      rw [List.mem_range'_1] at hi
      by_cases hic : i = count
      · subst hic
        exact accumHair_ok L h0 h0 (le_refl _) (le_refl _) hs
      · obtain ⟨h, hh, hsz⟩ := hrest (i - count - 1) (by omega)
        rw [show count + 1 + (i - count - 1) = i by omega] at hh
        exact accumHair_ok L hh h0 hsz hsz hs) _ hfull0
  obtain ⟨acc', hacc'⟩ := divideLoop_total st.1 st.2 (by rw [hfull.1, hfull.2.2])
  refine ⟨⟨count, rb, rb.MaximumExtent, mi, cmp, sorted, w, hairs2, s, st.1, st.2, acc'⟩, ?_⟩
  rw [lodPass_ok_iff]
  dsimp only
  rw [hsorted, hwalked, hhairs2]
  exact ⟨rfl, hrb, rfl, hmi, hcmp, rfl, hw, rfl, hst, hacc'⟩

/-- The combination loop completes when every hair has a control point, the sort by
sample distance leaves the pivot in front and the sort by size sorts. -/
theorem combineTrace_total_ordered {L : Lib} (hS : L.Sorts) (hP : L.PivotFirst) (hB : L.BySize)
    (th : ℚ) :
    ∀ (fuel : Nat) (hairs : List Hair) (count : Nat) (ps : List Pass), NonEmptyHairs hairs →
      1 ≤ hairs.length → hairs.length < 2 ^ 64 → count ≤ hairs.length - 1 →
      hairs.length - 1 - count ≤ fuel →
      ∃ res, combineTrace L th fuel hairs count ps = .ok res := by
  intro fuel
  induction fuel with
  | zero =>
    intro hairs count ps hne h1 h2 hc hf
    unfold combineTrace
    rw [sizeMinusOne_eq h1 h2, if_pos (by omega)]
    exact ⟨_, rfl⟩
  | succ fuel ih =>
    intro hairs count ps hne h1 h2 hc hf
    unfold combineTrace
    rw [sizeMinusOne_eq h1 h2]
    by_cases he : count = hairs.length - 1
    · rw [if_pos he]
      exact ⟨_, rfl⟩
    · rw [if_neg he]
      obtain ⟨p, hp⟩ := lodPass_total_ordered hS hP hB th hne count (by omega) h2
      obtain ⟨b1, b2, b3, b4, b5, b6, b7, b8, b9⟩ := pass_bounds hS hp h2 (by omega)
      rw [hp, ok_bind]
      exact ih _ _ _ (fun x hx => hne x (b5.subset hx)) (by omega) (by omega) (by omega)
        (by omega)

theorem orderedLib_sorts : orderedLib.Sorts := by
  constructor
  · intro c l
    show (if c ∈ l then c :: l.erase c else l).Perm l
    split_ifs with h
    · exact (List.perm_cons_erase h).symm
    · exact List.Perm.refl _
  · intro l
    exact List.perm_insertionSort sizeLe l

theorem orderedLib_pivotFirst : orderedLib.PivotFirst := by
  intro c l h
  show (if c ∈ l then c :: l.erase c else l).head? = some c
  rw [if_pos h]
  rfl

theorem orderedLib_bySize : orderedLib.BySize := by
  intro l
  refine (List.sorted_insertionSort sizeLe l).imp ?_
  intro a b h
  unfold sortBySegments
  simp only [decide_eq_false_iff_not, not_lt]
  exact h

/-- The hairs of `sampleShort`, which are of different sizes, with the sorts of
`orderedLib`: the loop makes one pass and completes. -/
theorem orderedLib_run :
    (fun r => (r.2.map Pass.nHairs, r.2.map (fun p => p.accum.radii))) <$>
      combineTrace orderedLib 1 sampleShortHairs.length sampleShortHairs 0 [] =
      .ok ([2], [[1, 1, 1, 1, 1, 1, 1, 1]]) := by
  decide!

/-! ## The order of the sample vectors -/

theorem isqrt_sq (k : Nat) : isqrt (k * k) = k := by
  unfold isqrt
  have h : (List.range (k * k + 1)).filter (fun j => decide (j * j ≤ k * k)) =
      List.range (k + 1) := by
    have e : (fun j => decide (j * j ≤ k * k)) = (fun j => decide (j < k + 1)) := by
      funext j
      congr 1
      rw [eq_iff_iff, Nat.lt_succ_iff]
      exact ⟨fun h => by nlinarith, fun h => Nat.mul_le_mul h h⟩
    rw [e, ← List.Ico.zero_bot, List.Ico.filter_lt, List.Ico.zero_bot]
    congr 1
    rw [min_eq_right]
    nlinarith
  rw [h, List.length_range]
  rfl

theorem sampleLib_sqrt_nat (k : Nat) : sampleLib.sqrt ((k : ℚ) * (k : ℚ)) = (k : ℚ) := by
  show ((isqrt ((k : ℚ) * (k : ℚ)).num.toNat : ℚ)) / (isqrt ((k : ℚ) * (k : ℚ)).den : ℚ) = (k : ℚ)
  have e : ((k : ℚ) * (k : ℚ)) = ((k * k : Nat) : ℚ) := by push_cast; rfl
  rw [e, Rat.num_natCast, Rat.den_natCast, Int.toNat_natCast, isqrt_sq]
  have : isqrt 1 = 1 := by decide
  rw [this]
  simp

theorem sampleLib_sqrt_values :
    sampleLib.sqrt 0 = 0 ∧ sampleLib.sqrt 1 = 1 ∧ sampleLib.sqrt 40000 = 200 := by
  refine ⟨?_, ?_, ?_⟩
  · have := sampleLib_sqrt_nat 0
    norm_num at this
    exact this
  · have := sampleLib_sqrt_nat 1
    norm_num at this
    exact this
  · have := sampleLib_sqrt_nat 200
    norm_num at this
    exact this

/-- The sample runs use sorted vectors. Whatever index below 4 the generator draws,
`sampleHairs`, `sampleShortHairs`, `sampleLongHairs` and `sampleFanHairs` are sorted
for the comparator by sample distance with their first hair as pivot. -/
theorem sample_vectors_sorted (k : Nat) (hk : k < 4) :
    SortedBySample sampleLib (fun _ _ => k) (sampleHairs.getD 0 Hair.empty) sampleHairs ∧
    SortedBySample sampleLib (fun _ _ => k) (sampleShortHairs.getD 0 Hair.empty)
      sampleShortHairs ∧
    SortedBySample sampleLib (fun _ _ => k) (sampleLongHairs.getD 0 Hair.empty)
      sampleLongHairs ∧
    SortedBySample sampleLib (fun _ _ => k) (sampleFanHairs.getD 0 Hair.empty)
      sampleFanHairs := by
  have h4 : toInt32 4 = 4 := by decide
  have h1 : Int.tdiv 4 4 = 1 := by decide
  have h5 : ((1 : Int) % 2 ^ 64).toNat = 1 := by decide
  obtain ⟨s0, s1, s2⟩ := sampleLib_sqrt_values
  unfold SortedBySample
  interval_cases k <;>
  simp only [sampleHairs, sampleShortHairs, sampleLongHairs, sampleFanHairs,
    List.pairwise_cons, List.mem_cons, List.mem_singleton, forall_eq_or_imp, forall_eq,
    List.not_mem_nil, false_implies, implies_true, List.Pairwise.nil, and_true,
    sortBySamplePointDistance, List.getD_cons_zero, List.getD_cons_succ,
    List.length_cons, List.length_nil, min_self, Nat.reduceAdd, Nat.reduceLeDiff, h4, h1,
    min_eq_left, min_eq_right, h5,
    show min (1 : Int) 2 = 1 from rfl, List.range_succ, List.range_zero, List.nil_append,
    List.foldlM_cons, List.foldlM_nil, at?, List.getElem?_cons_succ, List.getElem?_cons_zero,
    ok_bind, distance] <;>
  norm_num [s0, s1, s2] <;>
  rfl

/-- On the two hairs of `sampleTie`, with the second hair as pivot and the sampled
index 3, the comparator by sample distance finds neither hair less than the other: both
hairs have the control point of the pivot there. The two hairs are sorted in either
order, so `std::sort` may leave the hair of 4 control points in front of the pivot. -/
theorem sampleTie_ties :
    SortedBySample sampleLib (fun _ _ => 3) (sampleTieHairs.getD 1 Hair.empty) sampleTieHairs ∧
    SortedBySample sampleLib (fun _ _ => 3) (sampleTieHairs.getD 1 Hair.empty)
      sampleTieHairs.reverse := by
  unfold SortedBySample
  decide!

/-! ## Termination of the combination loop -/

/-- Claim C16. For a vector `hairs` that is not empty the combination loop terminates:
with a budget of `hairs.size()` passes it never runs out of budget, so every run ends
with a result or with an element access out of range after at most that many passes.
Every pass that completes, from any cursor `count` below `hairs.size() - 1`, keeps the
size of the vector, admits at least one hair (`1 ≤ nHairs`) and moves the cursor to
`count + nHairs`, which is not past the stopping value `hairs.size() - 1`. In a run that
completes the cursor of each pass is the sum of the group sizes before it and the
group sizes sum to the stopping value. The run completes on hairs of one size with at
least one control point, and on hairs of any sizes with at least one control point each
when the sort by sample distance leaves the pivot in front and the sort by size sorts. -/
theorem combination_loop_terminates (L : Lib) (hS : L.Sorts) (th : ℚ) (hairs : List Hair)
    (h1 : hairs ≠ []) (h2 : hairs.length < 2 ^ 64) :
    combineTrace L th hairs.length hairs 0 [] ≠ .error .fuel ∧
    combineLoop L th hairs.length hairs 0 [] ≠ .error .fuel ∧
    (∀ (hs : List Hair) (count : Nat) (p : Pass), hs.length = hairs.length →
      count + 1 < hs.length → lodPass L th hs count = .ok p →
      p.hairs.length = hs.length ∧ 1 ≤ p.nHairs ∧ count < count + p.nHairs ∧
        count + p.nHairs ≤ sizeMinusOne hs.length) ∧
    (∀ (hs : List Hair) (ps : List Pass),
      combineTrace L th hairs.length hairs 0 [] = .ok (hs, ps) →
      (∀ i p, ps[i]? = some p → p.count = ((ps.take i).map Pass.nHairs).sum ∧
        1 ≤ p.nHairs ∧ p.count + p.nHairs ≤ sizeMinusOne hairs.length) ∧
      (ps.map Pass.nHairs).sum = sizeMinusOne hairs.length) ∧
    (∀ n, 1 ≤ n → Uniform n hairs →
      ∃ hs ps, combineTrace L th hairs.length hairs 0 [] = .ok (hs, ps)) ∧
    (NonEmptyHairs hairs → L.PivotFirst → L.BySize →
      ∃ hs ps, combineTrace L th hairs.length hairs 0 [] = .ok (hs, ps)) := by
  have hpos : 1 ≤ hairs.length := List.length_pos.mpr h1
  have hnf := combineTrace_no_fuel hS th hairs.length hairs 0 [] hpos h2 (by omega) (by omega)
  refine ⟨hnf, ?_, ?_, ?_, ?_, ?_⟩
  · have := combineLoop_eq_trace L th hairs.length hairs 0 [] []
    simp only [List.map_nil, List.append_nil, List.nil_append] at this
    rw [this]
    exact map_ok_of_ne_error hnf
  · intro hs count p hl hc hp
    obtain ⟨b1, b2, b3, b4, b5, b6, b7, b8, b9⟩ := pass_bounds hS hp (by omega) hc
    rw [sizeMinusOne_eq (by omega) (by omega)]
    exact ⟨b3, b7, by omega, by omega⟩
  · intro hs ps h
    obtain ⟨new, n1, n2, n3, n4, n5, n6⟩ := combineTrace_spec hS th _ _ _ _ _ _ hpos h2
      (by omega) h
    rw [List.nil_append] at n1
    subst n1
    rw [sizeMinusOne_eq hpos h2]
    refine ⟨?_, by omega⟩
    intro i p hp
    obtain ⟨c1, c2, -⟩ := n6 p (List.getElem?_mem hp)
    exact ⟨by rw [n5 i p hp, zero_add], c1, c2⟩
  · intro n hn hu
    obtain ⟨⟨hs, ps⟩, hres⟩ := combineTrace_total hS hn th hu hpos h2
    exact ⟨hs, ps, hres⟩
  · intro hne hP hB
    obtain ⟨⟨hs, ps⟩, hres⟩ := combineTrace_total_ordered hS hP hB th hairs.length hairs 0 []
      hne hpos h2 (by omega) (by omega)
    exact ⟨hs, ps, hres⟩

/-- Witness of claim C16: the three hairs of `sampleShort`, of 8, 4 and 4 control
points, with the sorts of `orderedLib`. -/
theorem combination_loop_terminates_witness :
    orderedLib.Sorts ∧ sampleShortHairs ≠ [] ∧ sampleShortHairs.length < 2 ^ 64 ∧
    (combineTrace orderedLib 1 sampleShortHairs.length sampleShortHairs 0 [] ≠ .error .fuel ∧
    combineLoop orderedLib 1 sampleShortHairs.length sampleShortHairs 0 [] ≠ .error .fuel ∧
    (∀ (hs : List Hair) (count : Nat) (p : Pass), hs.length = sampleShortHairs.length →
      count + 1 < hs.length → lodPass orderedLib 1 hs count = .ok p →
      p.hairs.length = hs.length ∧ 1 ≤ p.nHairs ∧ count < count + p.nHairs ∧
        count + p.nHairs ≤ sizeMinusOne hs.length) ∧
    (∀ (hs : List Hair) (ps : List Pass),
      combineTrace orderedLib 1 sampleShortHairs.length sampleShortHairs 0 [] = .ok (hs, ps) →
      (∀ i p, ps[i]? = some p → p.count = ((ps.take i).map Pass.nHairs).sum ∧
        1 ≤ p.nHairs ∧ p.count + p.nHairs ≤ sizeMinusOne sampleShortHairs.length) ∧
      (ps.map Pass.nHairs).sum = sizeMinusOne sampleShortHairs.length) ∧
    (∀ n, 1 ≤ n → Uniform n sampleShortHairs →
      ∃ hs ps, combineTrace orderedLib 1 sampleShortHairs.length sampleShortHairs 0 [] =
        .ok (hs, ps)) ∧
    (NonEmptyHairs sampleShortHairs → orderedLib.PivotFirst → orderedLib.BySize →
      ∃ hs ps, combineTrace orderedLib 1 sampleShortHairs.length sampleShortHairs 0 [] =
        .ok (hs, ps))) :=
  ⟨orderedLib_sorts, by decide, by decide,
    combination_loop_terminates orderedLib orderedLib_sorts 1 sampleShortHairs (by decide)
      (by decide)⟩

/-! ## The root distance of the admitted hairs -/

theorem distance_self (L : Lib) (p : real3) : distance L p p = L.sqrt 0 := by
  unfold distance
  simp

/-- In a completed pass every admitted hair after the first one was stepped over by
the walk, so its root is at a distance below `MAX_DISTANCE` from the root of the pivot.
The first admitted hair `hairs[count]` is not tested by the walk; when it is the pivot,
its distance is `sqrt(0)`. -/
theorem pass_admitted_near {L : Lib} (hS : L.Sorts) {th : ℚ} {hairs : List Hair} {count : Nat}
    {p : Pass} (h : lodPass L th hairs count = .ok p) :
    (∀ x ∈ p.admitted.tail, distance L p.cmp_hair.root x.root < MAX_DISTANCE) ∧
    (p.admitted.head? = some p.cmp_hair → L.sqrt 0 < MAX_DISTANCE →
      ∀ x ∈ p.admitted, distance L p.cmp_hair.root x.root < MAX_DISTANCE) := by
  have h' := h
  rw [lodPass_ok_iff] at h'
  obtain ⟨h1, h2, h3, h4, h5, h6, h7, h8, h9, h10⟩ := h'
  obtain ⟨w1, w2, -, w4, -, w6⟩ := walk_spec _ _ _ _ _ _ _ _ _ h7
  have hmi := at?_ok_lt h5
  have hcount : count < hairs.length := by
    by_contra hge
    unfold minIndLoop at h4
    rw [List.drop_eq_nil_of_le (by omega)] at h4
    simp only [List.foldlM_nil, pure_bind, pure_ok_iff] at h4
    omega
  have hl : p.sorted.length = hairs.length := by
    rw [h6, List.length_append, (hS.1 _ _).length_eq, ← List.length_append,
      List.take_append_drop]
  have hw := w6 (by omega)
  have hWl : ((p.sorted.drop (count + 1)).take (p.walked - 1)).length = p.walked - 1 := by
    rw [List.length_take, List.length_drop]
    omega
  have hcnt : p.nHairs - 1 ≤ p.walked - 1 := by
    have := List.countP_le_length (fun h => decide (h.size ≤ p.cmp_hair.size))
      (l := (p.sorted.drop (count + 1)).take (p.walked - 1))
    rw [hWl] at this
    omega
  have htail : ∀ x ∈ p.admitted.tail, distance L p.cmp_hair.root x.root < MAX_DISTANCE := by
    intro x hx
    have hAl : (p.sorted.take (count + 1)).length = count + 1 := by
      rw [List.length_take]; omega
    have hadm : p.admitted.tail =
        (L.sortSegments ((p.sorted.drop (count + 1)).take (p.walked - 1))).take (p.nHairs - 1) := by
      have hdrop : p.hairs.drop (count + 1) =
          L.sortSegments ((p.sorted.drop (count + 1)).take (p.walked - 1)) ++
            p.sorted.drop (count + p.walked) := by
        rw [h8, List.append_assoc]
        exact List.drop_left' hAl
      unfold Pass.admitted
      rw [h1, ← List.drop_one, List.drop_take, List.drop_drop]
      rw [hdrop,
        List.take_append_of_le_length (by rw [(hS.2 _).length_eq, hWl]; exact hcnt)]
    rw [hadm] at hx
    have hxW := (hS.2 _).subset (List.mem_of_mem_take hx)
    obtain ⟨c0, q, hc0, hq, hd⟩ := w4 x (by simpa using hxW)
    rw [at?_zero_root hc0, at?_zero_root hq]
    exact hd
  refine ⟨htail, ?_⟩
  intro hhead hsq x hx
  cases hadm : p.admitted with
  | nil => rw [hadm] at hx; cases hx
  | cons a t =>
    rw [hadm] at hx hhead
    simp only [List.head?_cons, Option.some.injEq] at hhead
    rcases List.mem_cons.mp hx with rfl | hxt
    · rw [hhead, distance_self]
      exact hsq
    · apply htail
      rw [hadm]
      exact hxt

/-! ## A group whose first hair is far from the pivot -/

/-- Claim C21 (failing input). The dataset `sampleFar` with LOD on: two hairs of 4
control points enter the merge. The pivot is the second hair (`min_ind = 1`), whose
root is the origin. The two hairs are sorted for the comparator by sample distance at
the sampled index 3, where both have the same control point, and stay in place. The
pass admits the first hair only, whose root `(5, 0, 0)` is at distance 5 from the root
of the pivot, not below `MAX_DISTANCE = 4`, and the call emits this hair. -/
theorem lod_admits_far_hair :
    lodHairs sampleFar ![1, 1, 1] ![0, 0, 0] (-1) = .ok sampleFarHairs ∧
    (fun p => (p.min_ind, p.cmp_hair.root, p.nHairs, p.admitted.map Hair.root)) <$>
      lodPass sampleLib 1 sampleFarHairs 0 = .ok (1, ⟨0, 0, 0⟩, 1, [⟨5, 0, 0⟩]) ∧
    (fun p => p.admitted.map (fun x => distance sampleLib p.cmp_hair.root x.root)) <$>
      lodPass sampleLib 1 sampleFarHairs 0 = .ok [5] ∧
    MAX_DISTANCE = 4 ∧
    SortedBySample sampleLib (fun _ _ => 3) (sampleFarHairs.getD 1 Hair.empty) sampleFarHairs ∧
    ToCubicBezierCurves sampleLib sampleFar [] [] ![1, 1, 1] ![0, 0, 0] (-1) 1 1 =
      .ok (true, [5, 0, 0, 5 / 2, 0, 1 / 3, 5 / 6, 0, 2 / 3, 0, 0, 1], [1, 1, 1, 1]) := by
  unfold SortedBySample
  decide!

/-! ## A group of one hair -/

theorem ext_getD {α : Type} {v w : List α} (a : α) (hl : v.length = w.length)
    (h : ∀ k, k < w.length → v.getD k a = w.getD k a) : v = w := by
  apply List.ext_getElem hl
  intro k h1 h2
  have := h k h2
  rw [List.getD_eq_getElem _ _ h1, List.getD_eq_getElem _ _ h2] at this
  exact this

theorem divf_one (p : real3) : p.divf 1 = p := by
  unfold real3.divf
  simp

theorem zero_add_point (p : real3) : real3.zero + p = p := by
  ext <;> simp [real3.zero]

/-- A completed pass that admits exactly one hair: the hair is `hairs[count]`. At every
index that the hair has, the emitted control point is the control point of the hair and
the radius is the thickness raised to `sqrt(0)` and capped at `MAX_HAIR_RADIUS`. At an
index of the accumulator that the hair does not have, the emitted control point is
`real3() / 0` and the radius is the thickness. When the hair has the control-point count
of the pivot and `sqrt(0) = 0`, the emitted hair has the control points of the hair and
every radius is `min(max(thickness, 0), MAX_HAIR_RADIUS)`. -/
theorem pass_single {L : Lib} {th : ℚ} {hairs : List Hair} {count : Nat} {p : Pass}
    (h : lodPass L th hairs count = .ok p) (h1 : p.nHairs = 1) :
    ∃ h0, p.hairs[count]? = some h0 ∧ p.admitted = [h0] ∧
      p.accum.cps.length = p.cmp_hair.size ∧ p.accum.radii.length = p.cmp_hair.size ∧
      (∀ k, k < p.cmp_hair.size → k < h0.size →
        p.accum.cps.getD k real3.zero = h0.cps.getD k real3.zero ∧
        p.accum.radii.getD k 0 = min (max th (L.sqrt 0)) MAX_HAIR_RADIUS) ∧
      (∀ k, k < p.cmp_hair.size → h0.size ≤ k →
        p.accum.cps.getD k real3.zero = real3.zero.divf 0 ∧ p.accum.radii.getD k 0 = th) ∧
      (h0.size = p.cmp_hair.size → L.sqrt 0 = 0 →
        p.accum = ⟨h0.cps, List.replicate h0.size (min (max th 0) MAX_HAIR_RADIUS)⟩) := by
  obtain ⟨hn, h0, hh0, l1, l2, l3, hk⟩ := pass_entries h
  have hc : p.count = count := ((lodPass_ok_iff _ _ _ _ _).mp h).1
  have hadm : p.admitted = [h0] := by
    unfold Pass.admitted
    rw [hc, h1, drop_take_succ _ _ 0 _ hh0, List.take_zero]
  have hin : ∀ k, k < p.cmp_hair.size → k < h0.size →
      p.accum.cps.getD k real3.zero = h0.cps.getD k real3.zero ∧
      p.accum.radii.getD k 0 = min (max th (L.sqrt 0)) MAX_HAIR_RADIUS := by
    intro k hkc hk0
    obtain ⟨e1, e2, e3, e4⟩ := hk k hkc
    have hcon : contributors k p.admitted = [h0] := by
      rw [hadm]
      unfold contributors
      rw [List.filter_cons_of_pos (by simpa using hk0), List.filter_nil]
    rw [hcon] at e1 e2 e4
    simp only [List.foldl_cons, List.foldl_nil, List.length_singleton, Nat.cast_one] at e1 e2 e4
    rw [e3, e2, e1, e4, distance_self, zero_add_point]
    exact ⟨by rw [Int.cast_one, divf_one], rfl⟩
  have hout : ∀ k, k < p.cmp_hair.size → h0.size ≤ k →
      p.accum.cps.getD k real3.zero = real3.zero.divf 0 ∧ p.accum.radii.getD k 0 = th := by
    intro k hkc hk0
    obtain ⟨e1, e2, e3, e4⟩ := hk k hkc
    have hcon : contributors k p.admitted = [] := by
      rw [hadm]
      unfold contributors
      rw [List.filter_cons_of_neg (by simpa using hk0), List.filter_nil]
    rw [hcon] at e1 e2 e4
    simp only [List.foldl_nil, List.length_nil, Nat.cast_zero] at e1 e2 e4
    rw [e3, e2, e1, e4]
    exact ⟨by rw [Int.cast_zero], rfl⟩
  refine ⟨h0, hh0, hadm, l1, l2, hin, hout, ?_⟩
  intro hsz hsq
  have hc1 : p.accum.cps = h0.cps := by
    apply ext_getD real3.zero (by rw [l1, ← hsz]; rfl)
    intro k hlt
    exact (hin k (by rw [← hsz]; exact hlt) hlt).1
  have hc2 : p.accum.radii = List.replicate h0.size (min (max th 0) MAX_HAIR_RADIUS) := by
    apply ext_getD 0 (by rw [l2, ← hsz, List.length_replicate])
    intro k hlt
    rw [List.length_replicate] at hlt
    rw [(hin k (by rw [← hsz]; exact hlt) hlt).2, hsq, List.getD_eq_getElem?_getD,
      List.getElem?_replicate, if_pos hlt, Option.getD_some]
  cases hp : p.accum with
  | mk c r =>
    rw [hp] at hc1 hc2
    simp only at hc1 hc2
    rw [hc1, hc2]

/-- Claim C22 (failing input). The dataset `sampleTie` with LOD on and thickness 3: the
pivot is the second hair, of 8 control points, and the pass admits exactly one hair,
the first one, of 4 control points. The emitted hair has the 8 control points of the
accumulator: the 4 control points of the admitted hair and 4 times `real3() / 0`, and
its radii are 2, the clamped thickness, at the indices 0 to 3 and the thickness 3 at
the indices 4 to 7. The call emits two curves for the one hair. -/
theorem lod_single_hair_not_copied :
    (fun p => (p.nHairs, p.min_ind, p.cmp_hair.size, p.admitted.map Hair.size)) <$>
      lodPass sampleLib 3 sampleTieHairs 0 = .ok (1, 1, 8, [4]) ∧
    (fun p => (p.admitted.map Hair.cps, p.accum.cps)) <$>
      lodPass sampleLib 3 sampleTieHairs 0 =
      .ok ([[⟨1, 0, 0⟩, ⟨1 / 2, 0, 1 / 3⟩, ⟨1 / 6, 0, 2 / 3⟩, ⟨0, 0, 1⟩]],
        [⟨1, 0, 0⟩, ⟨1 / 2, 0, 1 / 3⟩, ⟨1 / 6, 0, 2 / 3⟩, ⟨0, 0, 1⟩,
         real3.zero, real3.zero, real3.zero, real3.zero]) ∧
    (fun p => p.accum.radii) <$> lodPass sampleLib 3 sampleTieHairs 0 =
      .ok [2, 2, 2, 2, 3, 3, 3, 3] ∧
    min (max (3 : ℚ) 0) MAX_HAIR_RADIUS = 2 ∧
    ToCubicBezierCurves sampleLib sampleTie [] [] ![1, 1, 1] ![0, 0, 0] (-1) 3 1 =
      .ok (true,
        [1, 0, 0, 1 / 2, 0, 1 / 3, 1 / 6, 0, 2 / 3, 0, 0, 1,
         0, 0, 0, 0, 0, 0, 0, 0, 0, 0, 0, 0],
        [2, 2, 2, 2, 3, 3, 3, 3]) := by
  decide!

/-! ## The end points of a Bezier group -/

theorem atInt?_append {α : Type} (v more : List α) (i : Int) (a : α)
    (h : atInt? v i = .ok a) : atInt? (v ++ more) i = .ok a := by
  unfold atInt? at h ⊢
  split_ifs at h ⊢ with h0
  rw [at?_ok_iff] at h ⊢
  rw [List.getElem?_append_left (List.getElem?_eq_some.mp h).1]
  exact h

/-- Row 0 of each basis matrix selects the second point of the window and row 3 the
third one. -/
theorem mul_matrix_ends (P : Fin 4 → real3) :
    (mul_matrix toC2B0 P 0 = P 1 ∧ mul_matrix toC2B0 P 3 = P 2) ∧
    (mul_matrix toC2B1 P 0 = P 1 ∧ mul_matrix toC2B1 P 3 = P 2) ∧
    (mul_matrix toC2B P 0 = P 1 ∧ mul_matrix toC2B P 3 = P 2) := by
  refine ⟨⟨?_, ?_⟩, ⟨?_, ?_⟩, ⟨?_, ?_⟩⟩ <;> ext <;>
    simp [mul_matrix, toC2B, toC2B0, toC2B1, real3.fmul, Matrix.vecHead, Matrix.vecTail]

/-- Claim C23. For a control-point array `cps` of `sz ≥ 2` points and a segment index
`s` with `0 ≤ s ≤ sz - 2`, the call `CamullRomToCubicBezier(Q, cps, sz, s)` makes no
access outside the array, so it returns a group `Q`, and the group interpolates the two
spline points of the segment: `Q[0] = cps[s]` and `Q[3] = cps[s + 1]`. This holds in the
branch for two points and in the branches of `toC2B0`, `toC2B1` and `toC2B`, whose rows
0 and 3 select the second and the third point of the window. The call returns the same
group for every array that starts with the `sz` points: nothing behind the index
`sz - 1` is read. -/
theorem camullRom_interpolates_segment (cps : List real3) (sz s : Int)
    (hlen : (cps.length : Int) = sz) (hsz : 2 ≤ sz) (hs0 : 0 ≤ s) (hs1 : s ≤ sz - 2) :
    ∃ Q a b, atInt? cps s = .ok a ∧ atInt? cps (s + 1) = .ok b ∧
      CamullRomToCubicBezier cps sz s = .ok Q ∧ Q 0 = a ∧ Q 3 = b ∧
      (sz = 2 → Q = ![a, (a * real3.splat 2).divf 3 + (b * real3.splat 1).divf 3,
        (a * real3.splat 1).divf 3 + (b * real3.splat 2).divf 3, b]) ∧
      (sz ≠ 2 → s = 0 → ∃ e, Q = mul_matrix toC2B0 ![real3.splat 0, a, b, e]) ∧
      (sz ≠ 2 → s ≠ 0 → s = sz - 2 → ∃ p, Q = mul_matrix toC2B1 ![p, a, b, real3.splat 0]) ∧
      (sz ≠ 2 → s ≠ 0 → s ≠ sz - 2 → ∃ p e, Q = mul_matrix toC2B ![p, a, b, e]) ∧
      (∀ P : Fin 4 → real3,
        (mul_matrix toC2B0 P 0 = P 1 ∧ mul_matrix toC2B0 P 3 = P 2) ∧
        (mul_matrix toC2B1 P 0 = P 1 ∧ mul_matrix toC2B1 P 3 = P 2) ∧
        (mul_matrix toC2B P 0 = P 1 ∧ mul_matrix toC2B P 3 = P 2)) ∧
      ∀ more : List real3, CamullRomToCubicBezier (cps ++ more) sz s = .ok Q := by
  obtain ⟨a, ha⟩ := atInt?_ok cps s hs0 (by omega)
  obtain ⟨b, hb⟩ := atInt?_ok cps (s + 1) (by omega) (by omega)
  by_cases h2 : sz = 2
  · have hs : s = 0 := by omega
    subst hs
    have key : ∀ more : List real3, CamullRomToCubicBezier (cps ++ more) sz 0 =
        .ok ![a, (a * real3.splat 2).divf 3 + (b * real3.splat 1).divf 3,
          (a * real3.splat 1).divf 3 + (b * real3.splat 2).divf 3, b] := by
      intro more
      unfold CamullRomToCubicBezier CamullRomWith
      rw [if_pos h2, atInt?_append _ more _ _ ha, atInt?_append _ more _ _ hb]
      rfl
    have key0 := key []
    rw [List.append_nil] at key0
    exact ⟨_, a, b, ha, hb, key0, rfl, rfl, fun _ => rfl, fun h => absurd h2 h,
      fun h => absurd h2 h, fun h => absurd h2 h, mul_matrix_ends, key⟩
  · by_cases h0 : s = 0
    · subst h0
      obtain ⟨e, he⟩ := atInt?_ok cps 2 (by omega) (by omega)
      simp only [zero_add] at hb
      have key : ∀ more : List real3, CamullRomToCubicBezier (cps ++ more) sz 0 =
          .ok (mul_matrix toC2B0 ![real3.splat 0, a, b, e]) := fun more =>
        camull_first _ sz a b e h2 (atInt?_append _ more _ _ ha) (atInt?_append _ more _ _ hb)
          (atInt?_append _ more _ _ he)
      have key0 := key []
      rw [List.append_nil] at key0
      refine ⟨_, a, b, ha, by simpa using hb, key0, ?_, ?_, fun h => absurd h h2,
        fun _ _ => ⟨e, rfl⟩, fun _ h => absurd rfl h, fun _ h => absurd rfl h,
        mul_matrix_ends, key⟩
      · exact (mul_matrix_ends _).1.1
      · exact (mul_matrix_ends _).1.2
    · obtain ⟨p, hp⟩ := atInt?_ok cps (s - 1) (by omega) (by omega)
      by_cases hl : s = sz - 2
      · have key : ∀ more : List real3, CamullRomToCubicBezier (cps ++ more) sz s =
            .ok (mul_matrix toC2B1 ![p, a, b, real3.splat 0]) := fun more =>
          camull_last _ sz s p a b h2 h0 hl (atInt?_append _ more _ _ hp)
            (atInt?_append _ more _ _ ha) (atInt?_append _ more _ _ hb)
        have key0 := key []
        rw [List.append_nil] at key0
        refine ⟨_, a, b, ha, hb, key0, ?_, ?_, fun h => absurd h h2,
          fun _ h => absurd h h0, fun _ _ _ => ⟨p, rfl⟩, fun _ _ h => absurd hl h,
          mul_matrix_ends, key⟩
        · exact (mul_matrix_ends _).2.1.1
        · exact (mul_matrix_ends _).2.1.2
      · obtain ⟨e, he⟩ := atInt?_ok cps (s + 2) (by omega) (by omega)
        have key : ∀ more : List real3, CamullRomToCubicBezier (cps ++ more) sz s =
            .ok (mul_matrix toC2B ![p, a, b, e]) := fun more =>
          camull_mid _ sz s p a b e h2 h0 hl (atInt?_append _ more _ _ hp)
            (atInt?_append _ more _ _ ha) (atInt?_append _ more _ _ hb)
            (atInt?_append _ more _ _ he)
        have key0 := key []
        rw [List.append_nil] at key0
        refine ⟨_, a, b, ha, hb, key0, ?_, ?_, fun h => absurd h h2,
          fun _ h => absurd h h0, fun _ _ h => absurd h hl, fun _ _ _ => ⟨p, e, rfl⟩,
          mul_matrix_ends, key⟩
        · exact (mul_matrix_ends _).2.2.1
        · exact (mul_matrix_ends _).2.2.2

/-- Witness of claim C23: the last segment of four points, the branch of `toC2B1`. -/
theorem camullRom_interpolates_segment_witness :
    (samplePoints.length : Int) = 4 ∧ (2 : Int) ≤ 4 ∧ (0 : Int) ≤ 2 ∧ (2 : Int) ≤ 4 - 2 ∧
    ∃ Q a b, atInt? samplePoints 2 = .ok a ∧ atInt? samplePoints (2 + 1) = .ok b ∧
      CamullRomToCubicBezier samplePoints 4 2 = .ok Q ∧ Q 0 = a ∧ Q 3 = b ∧
      ((4 : Int) = 2 → Q = ![a, (a * real3.splat 2).divf 3 + (b * real3.splat 1).divf 3,
        (a * real3.splat 1).divf 3 + (b * real3.splat 2).divf 3, b]) ∧
      ((4 : Int) ≠ 2 → (2 : Int) = 0 → ∃ e, Q = mul_matrix toC2B0 ![real3.splat 0, a, b, e]) ∧
      ((4 : Int) ≠ 2 → (2 : Int) ≠ 0 → (2 : Int) = 4 - 2 →
        ∃ p, Q = mul_matrix toC2B1 ![p, a, b, real3.splat 0]) ∧
      ((4 : Int) ≠ 2 → (2 : Int) ≠ 0 → (2 : Int) ≠ 4 - 2 →
        ∃ p e, Q = mul_matrix toC2B ![p, a, b, e]) ∧
      (∀ P : Fin 4 → real3,
        (mul_matrix toC2B0 P 0 = P 1 ∧ mul_matrix toC2B0 P 3 = P 2) ∧
        (mul_matrix toC2B1 P 0 = P 1 ∧ mul_matrix toC2B1 P 3 = P 2) ∧
        (mul_matrix toC2B P 0 = P 1 ∧ mul_matrix toC2B P 3 = P 2)) ∧
      ∀ more : List real3, CamullRomToCubicBezier (samplePoints ++ more) 4 2 = .ok Q :=
  ⟨by decide, by decide, by decide, by decide,
    camullRom_interpolates_segment samplePoints 4 2 (by decide) (by decide) (by decide)
      (by decide)⟩

/-! ## The final point of a strand -/

theorem mapM_congr_mem {α β : Type} {f g : α → Run β} (l : List α)
    (h : ∀ a ∈ l, f a = g a) : l.mapM f = l.mapM g := by
  induction l with
  | nil => rfl
  | cons a l ih =>
    rw [List.mapM_cons, List.mapM_cons, h a (List.mem_cons_self _ _),
      ih (fun x hx => h x (List.mem_cons_of_mem _ hx))]

theorem pointsBefore_succ (d : CyHair) (i : Nat) :
    pointsBefore d (i + 1) = pointsBefore d i + (segCount d i + 1) := by
  unfold pointsBefore
  rw [List.range_succ, List.map_append, List.sum_append]
  simp

theorem pointsBefore_mono {d : CyHair} (h : ∀ j, 0 ≤ segCount d j) {i k : Nat} (hik : i ≤ k) :
    pointsBefore d i ≤ pointsBefore d k := by
  induction k with
  | zero =>
    have : i = 0 := by omega
    subst this
    exact le_refl _
  | succ k ih =>
    by_cases he : i = k + 1
    · subst he
      exact le_refl _
    · have := ih (by omega)
      rw [pointsBefore_succ]
      have := h k
      omega

theorem pointsBefore_nonneg {d : CyHair} (h : ∀ j, 0 ≤ segCount d j) (i : Nat) :
    0 ≤ pointsBefore d i := by
  have := pointsBefore_mono h (Nat.zero_le i)
  simpa [pointsBefore] using this

/-- When a strand has two segments or more, no strand has a negative segment count:
the counts are the entries of `segments_` or all of them are `default_segments_`. -/
theorem segCount_nonneg {d : CyHair} {i : Nat} (h : 2 ≤ segCount d i) (j : Nat) :
    0 ≤ segCount d j := by
  unfold segCount at h ⊢
  split_ifs at h ⊢
  · omega
  · exact Int.natCast_nonneg _

theorem offset_eq_pointsBefore {d : CyHair} (hp : PackedOffsets d)
    (hseg : ∀ j, 0 ≤ segCount d j) {i : Nat} (hi : i < d.num_strands_) :
    (d.strand_offsets_.getD i 0 : Int) = pointsBefore d i := by
  obtain ⟨h1, h2⟩ := hp i hi
  have h0 := pointsBefore_nonneg hseg i
  rw [pointsBefore_succ] at h2
  have hs := hseg i
  rw [List.getD_eq_getElem?_getD, h1, Option.getD_some]
  unfold offsetSum
  change ((pointsBefore d i % 2 ^ 32).toNat : Int) = pointsBefore d i
  omega

/-- With the offset table of `Load`, a point that the loop over `k` reads for a strand
is not the final point of any strand. -/
theorem read_ne_final {d : CyHair} (hp : PackedOffsets d) {r k : Nat}
    (hr : r < d.num_strands_) (h2 : 2 ≤ segCount d r) (hk : (k : Int) < segCount d r)
    {i : Nat} (hi : i < d.num_strands_) :
    (d.strand_offsets_.getD r 0 : Int) + k ≠ finalPoint d i := by
  have hseg := segCount_nonneg h2
  unfold finalPoint
  rw [offset_eq_pointsBefore hp hseg hr, offset_eq_pointsBefore hp hseg hi]
  have hsi := hseg i
  rcases Nat.lt_trichotomy r i with hlt | heq | hgt
  · have := pointsBefore_mono hseg (show r + 1 ≤ i by omega)
    rw [pointsBefore_succ] at this
    omega
  · subst heq
    omega
  · have := pointsBefore_mono hseg (show i + 1 ≤ r by omega)
    rw [pointsBefore_succ] at this
    omega

theorem points_agree {d e : CyHair} (hp : PackedOffsets d) (hs : SameUpToFinalPoints d e)
    {r k : Nat} (hr : r < d.num_strands_) (h2 : 2 ≤ segCount d r)
    (hk : (k : Int) < segCount d r) (c : Nat) (hc : c < 3) :
    e.points_[3 * (d.strand_offsets_.getD r 0 + k) + c]? =
      d.points_[3 * (d.strand_offsets_.getD r 0 + k) + c]? := by
  obtain ⟨-, -, -, -, -, hlen, hdiff⟩ := hs
  by_contra hne
  by_cases hlt : 3 * (d.strand_offsets_.getD r 0 + k) + c < d.points_.length
  · obtain ⟨i, hi, hfin⟩ := hdiff _ hlt hne
    have hdiv : (3 * (d.strand_offsets_.getD r 0 + k) + c) / 3 =
        d.strand_offsets_.getD r 0 + k := by omega
    rw [hdiv] at hfin
    exact read_ne_final hp hr h2 hk hi (by push_cast at hfin ⊢; exact hfin)
  · apply hne
    rw [List.getElem?_eq_none (by omega), List.getElem?_eq_none (by omega)]

theorem at?_congr {α : Type} {v w : List α} {i : Nat} (h : w[i]? = v[i]?) :
    at? w i = at? v i := by
  unfold at?
  rw [h]

theorem readPoint_congr {d e : CyHair} (hp : PackedOffsets d) (hs : SameUpToFinalPoints d e)
    {r k : Nat} (hr : r < d.num_strands_) (h2 : 2 ≤ segCount d r)
    (hk : (k : Int) < segCount d r) : readPoint e r k = readPoint d r k := by
  have hoff : e.strand_offsets_ = d.strand_offsets_ := hs.2.2.2.2.1
  unfold readPoint
  rw [hoff]
  cases ho : at? d.strand_offsets_ r with
  | error x => rfl
  | ok off =>
    have hget : d.strand_offsets_.getD r 0 = off := by
      rw [List.getD_eq_getElem?_getD, at?_ok_iff.mp ho, Option.getD_some]
    have a0 := points_agree hp hs hr h2 hk 0 (by omega)
    have a1 := points_agree hp hs hr h2 hk 1 (by omega)
    have a2 := points_agree hp hs hr h2 hk 2 (by omega)
    rw [hget] at a0 a1 a2
    simp only [ok_bind]
    rw [at?_congr a0, at?_congr a1, at?_congr a2]

theorem numSegments_congr {d e : CyHair} (hs : SameUpToFinalPoints d e) (r : Nat) :
    numSegments e r = numSegments d r := by
  unfold numSegments
  rw [hs.1, hs.2.2.1]

theorem readStrand_congr {d e : CyHair} (hp : PackedOffsets d) (hs : SameUpToFinalPoints d e)
    {r : Nat} (hr : r < d.num_strands_) (h2 : 2 ≤ segCount d r) :
    readStrand e r (segCount d r) = readStrand d r (segCount d r) := by
  unfold readStrand
  apply mapM_congr_mem
  intro k hk
  rw [List.mem_range] at hk
  exact readPoint_congr hp hs hr h2 (by omega)

theorem strandStep_congr {d e : CyHair} (hp : PackedOffsets d) (hs : SameUpToFinalPoints d e)
    (sc tr : Fin 3 → ℚ) (th : ℚ) (lod : Int) {r : Nat} (hr : r < d.num_strands_)
    (σ : ConvState) : strandStep e sc tr th lod σ r = strandStep d sc tr th lod σ r := by
  unfold strandStep
  rw [numSegments_congr hs, hs.2.2.2.1]
  cases hm : numSegments d r with
  | error x => rfl
  | ok m =>
    have := numSegments_ok hm
    subst this
    simp only [ok_bind]
    by_cases h2 : segCount d r < 2
    · rw [if_pos h2, if_pos h2]
    · rw [if_neg h2, if_neg h2, readStrand_congr hp hs hr (by omega)]

theorem strandCurves_congr {d e : CyHair} (hp : PackedOffsets d) (hs : SameUpToFinalPoints d e)
    {r : Nat} (hr : r < d.num_strands_) : strandCurves e r = strandCurves d r := by
  unfold strandCurves
  rw [numSegments_congr hs]
  cases hm : numSegments d r with
  | error x => rfl
  | ok m =>
    have := numSegments_ok hm
    subst this
    simp only [ok_bind]
    by_cases h2 : segCount d r < 2
    · rw [if_pos h2, if_pos h2]
    · rw [if_neg h2, if_neg h2, readStrand_congr hp hs hr (by omega)]

theorem effStrands_le (d : CyHair) (ms : Int) : effStrands d ms ≤ d.num_strands_ := by
  have h : toInt32 d.num_strands_ ≤ d.num_strands_ := by
    unfold toInt32
    split <;> omega
  unfold effStrands
  dsimp only
  split <;> omega

/-- The offset table that a successful `Load` builds is packed when the sums of `Load`
do not wrap. -/
theorem Load_packed {file : Option CyHairFile} {self d : CyHair}
    (h : Load file self = .ok (true, d))
    (hw : ∀ i, i < d.num_strands_ → pointsBefore d (i + 1) ≤ 2 ^ 32) : PackedOffsets d := by
  obtain ⟨f, hdr, e1, e2, e3, e4, e5, e6, e7, e8, e9, e10, e11, e12⟩ := Load_ok_true h
  obtain ⟨b1, b2, b3⟩ := buildOffsets_spec e12
  intro i hi
  exact ⟨b3 i hi, hw i hi⟩

theorem isEmpty_congr_length {α : Type} {v w : List α} (h : w.length = v.length) :
    w.isEmpty = v.isEmpty := by
  cases v <;> cases w <;> simp_all

/-- Claim C24. Take a dataset `d` whose strand offset table is the one that `Load`
builds (each strand of `num_segments + 1` points follows the strand before it, no sum
wraps), and a dataset `e` that is identical except for coordinates of the final point,
the point with the index `num_segments`, of one or more strands. Then
`ToCubicBezierCurves` gives the same result on both, for all arguments, with LOD off
and on: the same flag, vertices and radii, or the same fault. The Bezier groups of every
strand are the same, because the loop over `k` reads the `num_segments` points with the
indices `strand_offsets_[i] + k`, `k < num_segments`, and none of them is the final
point of a strand. -/
theorem output_ignores_final_points (L : Lib) (d e : CyHair) (hp : PackedOffsets d)
    (hs : SameUpToFinalPoints d e) (v r : List ℚ) (sc tr : Fin 3 → ℚ) (ms : Int) (th : ℚ)
    (lod : Int) :
    ToCubicBezierCurves L e v r sc tr ms th lod = ToCubicBezierCurves L d v r sc tr ms th lod ∧
    (∀ i, i < d.num_strands_ → strandCurves e i = strandCurves d i) ∧
    (∀ i pts, readStrand d i (segCount d i) = .ok pts → pts = swappedPoints d i) ∧
    (∀ (i k j : Nat), i < d.num_strands_ → 2 ≤ segCount d i → (k : Int) < segCount d i →
      j < d.num_strands_ → (d.strand_offsets_.getD i 0 : Int) + k ≠ finalPoint d j) := by
  refine ⟨?_, fun i hi => strandCurves_congr hp hs hi, fun i pts h => readStrand_eq_swapped h,
    fun i k j hi h2 hk hj => read_ne_final hp hi h2 hk hj⟩
  have hg : (e.points_.isEmpty || e.strand_offsets_.isEmpty) =
      (d.points_.isEmpty || d.strand_offsets_.isEmpty) := by
    rw [isEmpty_congr_length hs.2.2.2.2.2.1, hs.2.2.2.2.1]
  have heff : effStrands e ms = effStrands d ms := by
    unfold effStrands
    rw [hs.2.1]
  by_cases hd : (d.points_.isEmpty || d.strand_offsets_.isEmpty) = true
  · unfold ToCubicBezierCurves
    rw [hg, if_pos hd, if_pos hd]
  · have hd' : (d.points_.isEmpty || d.strand_offsets_.isEmpty) = false := by
      simpa using hd
    rw [toCubic_unfold L d v r sc tr ms th lod hd',
      toCubic_unfold L e v r sc tr ms th lod (by rw [hg]; exact hd'), heff]
    have hloop : ∀ σ, (List.range (effStrands d ms).toNat).foldlM (strandStep e sc tr th lod) σ =
        (List.range (effStrands d ms).toNat).foldlM (strandStep d sc tr th lod) σ := by
      intro σ
      apply foldlM_congr_mem
      intro i hi s
      rw [List.mem_range] at hi
      have := effStrands_le d ms
      exact strandStep_congr hp hs sc tr th lod (by omega) s
    rw [hloop]

/-- Witness of claim C24: `sampleMixed`, and `sampleMixedEnds` with other final points
for the strands 0 and 2, with LOD off. -/
theorem output_ignores_final_points_witness :
    PackedOffsets sampleMixed ∧ SameUpToFinalPoints sampleMixed sampleMixedEnds ∧
    (ToCubicBezierCurves sampleLib sampleMixedEnds [] [] ![1, 1, 1] ![0, 0, 0] (-1) 1 0 =
      ToCubicBezierCurves sampleLib sampleMixed [] [] ![1, 1, 1] ![0, 0, 0] (-1) 1 0 ∧
    (∀ i, i < sampleMixed.num_strands_ →
      strandCurves sampleMixedEnds i = strandCurves sampleMixed i) ∧
    (∀ i pts, readStrand sampleMixed i (segCount sampleMixed i) = .ok pts →
      pts = swappedPoints sampleMixed i) ∧
    (∀ (i k j : Nat), i < sampleMixed.num_strands_ → 2 ≤ segCount sampleMixed i →
      (k : Int) < segCount sampleMixed i → j < sampleMixed.num_strands_ →
      (sampleMixed.strand_offsets_.getD i 0 : Int) + k ≠ finalPoint sampleMixed j)) :=
  ⟨by decide, by decide!,
    output_ignores_final_points sampleLib sampleMixed sampleMixedEnds (by decide) (by decide!)
      [] [] ![1, 1, 1] ![0, 0, 0] (-1) 1 0⟩

/-- The two sample datasets differ in six floats, and the conversion of either gives
three curves, with LOD off, and one combined hair of eight control points with LOD
on. -/
theorem sampleMixedEnds_run :
    sampleMixedEnds.points_ ≠ sampleMixed.points_ ∧
    (List.range 33).filter (fun j => decide (sampleMixedEnds.points_[j]? ≠ sampleMixed.points_[j]?)) =
      [12, 13, 14, 30, 31, 32] ∧
    (fun res => (res.1, res.2.1.length, res.2.2)) <$>
      ToCubicBezierCurves sampleLib sampleMixedEnds [] [] ![1, 1, 1] ![0, 0, 0] (-1) 1 0 =
      .ok (true, 36, [1, 1, 1, 1, 1, 1, 1, 1, 1, 1, 1, 1]) ∧
    Load (some sampleFileMixed) CyHair.new = .ok (true, sampleMixed) := by
  decide!

/-! ## The merge on a strand of fewer than three segments -/

theorem rootBoundsFold_empty_hair (l : List Hair) (b : Bounds3f) (x : Hair) (hx : x ∈ l)
    (he : x.cps = []) :
    l.foldlM (fun rootBounds (h : Hair) => do
        let p ← at? h.cps 0
        pure (Union rootBounds p)) b = (.error .outOfRange : Run Bounds3f) := by
  induction l generalizing b with
  | nil => cases hx
  | cons a t ih =>
    rw [List.foldlM_cons]
    cases ha : at? a.cps 0 with
    | error e =>
      rw [at?_error ha]
      rfl
    | ok p =>
      rw [ok_bind]
      rcases List.mem_cons.mp hx with rfl | hxt
      · rw [he] at ha
        cases ha
      · exact ih _ hxt

/-- The first `std::for_each` of a pass reads `cps[0]` of every hair from the cursor
on: a hair without control points among them is an access out of range. -/
theorem rootBoundsLoop_empty_hair {hairs : List Hair} {count : Nat} {x : Hair}
    (hx : x ∈ hairs.drop count) (he : x.cps = []) :
    rootBoundsLoop hairs count = .error .outOfRange := by
  unfold rootBoundsLoop
  exact rootBoundsFold_empty_hair _ _ x hx he

/-- With two hairs or more, one of them without control points, the combination loop
enters its first pass and leaves defined behaviour there, whatever the library
routines are. -/
theorem combineLoop_empty_hair (L : Lib) (th : ℚ) {hairs : List Hair} {x : Hair}
    (h2 : 2 ≤ hairs.length) (hlen : hairs.length < 2 ^ 64) (hx : x ∈ hairs) (he : x.cps = [])
    (fuel : Nat) (hf : 1 ≤ fuel) (combined : List Hair) :
    combineLoop L th fuel hairs 0 combined = .error .outOfRange := by
  obtain ⟨f, rfl⟩ : ∃ f, fuel = f + 1 := ⟨fuel - 1, by omega⟩
  unfold combineLoop
  rw [sizeMinusOne_eq (by omega) hlen, if_neg (by omega)]
  have hrb : rootBoundsLoop hairs 0 = .error .outOfRange :=
    rootBoundsLoop_empty_hair (by simpa using hx) he
  unfold lodStep
  rw [hrb]
  rfl

/-- With LOD on, at least two converted strands, all of them readable, and a converted
strand of fewer than 3 segments, the call leaves defined behaviour in the first pass of
the merge and returns nothing: the loop over `s` gives the strand no Bezier group, its
hair has no control points, and the merge reads `cps[0]` of it. -/
theorem toCubic_lod_short_strand (L : Lib) (d : CyHair) (v0 r0 : List ℚ) (sc tr : Fin 3 → ℚ)
    (ms : Int) (th : ℚ) (lod : Int) (hl : 0 < lod)
    (hg : (d.points_.isEmpty || d.strand_offsets_.isEmpty) = false)
    (hn : 2 ≤ effStrands d ms)
    (hr : ∀ i, i < (effStrands d ms).toNat → StrandReadable d i)
    (i : Nat) (hi : i < (effStrands d ms).toNat) (hshort : segCount d i < 3) :
    ToCubicBezierCurves L d v0 r0 sc tr ms th lod = .error .outOfRange := by
  obtain ⟨qss, hqss⟩ := mapM_strandCurves_ok hr
  have hlen : qss.length = (effStrands d ms).toNat := by
    rw [mapM_ok_length hqss, List.length_range]
  have hbound := effStrands_lt d ms
  obtain ⟨hb, hq⟩ := mapM_ok_getElem hqss i (by rw [List.length_range]; exact hi)
  simp only [List.get_eq_getElem, List.getElem_range] at hq
  have hz : (qss[i]).length = 0 := by
    rw [strandCurves_length hq]
    omega
  have hmem : hairOf sc tr qss[i] ∈ qss.map (hairOf sc tr) :=
    List.mem_map_of_mem _ (List.getElem_mem hb)
  have hemp : (hairOf sc tr qss[i]).cps = [] := by
    apply List.eq_nil_of_length_eq_zero
    rw [hairOf_length, hz]
  rw [toCubic_lod L d v0 r0 sc tr ms th lod hl hg (by omega), hqss, ok_bind,
    combineLoop_empty_hair L th (by rw [List.length_map, hlen]; omega)
      (by rw [List.length_map, hlen]; omega) hmem hemp _
      (by rw [List.length_map, hlen]; omega)]
  rfl

/-- With LOD on, at least one converted strand, converted strands that are readable
and have 3 segments or more each, and library sorts that rearrange their input, leave
the pivot in front and sort by size, the conversion completes and returns true. -/
theorem toCubic_lod_total_ordered (L : Lib) (hS : L.Sorts) (hP : L.PivotFirst) (hB : L.BySize)
    (d : CyHair) (v0 r0 : List ℚ) (sc tr : Fin 3 → ℚ) (ms : Int) (th : ℚ) (lod : Int)
    (hl : 0 < lod) (hg : (d.points_.isEmpty || d.strand_offsets_.isEmpty) = false)
    (hn : 1 ≤ effStrands d ms)
    (hr : ∀ i, i < (effStrands d ms).toNat → StrandReadable d i ∧ 3 ≤ segCount d i) :
    ∃ v r, ToCubicBezierCurves L d v0 r0 sc tr ms th lod = .ok (true, v, r) := by
  obtain ⟨qss, hqss⟩ := mapM_strandCurves_ok (fun i hi => (hr i hi).1)
  have hlen : qss.length = (effStrands d ms).toNat := by
    rw [mapM_ok_length hqss, List.length_range]
  have hbound := effStrands_lt d ms
  have hcps : ∀ h ∈ qss.map (hairOf sc tr), 4 ∣ h.cps.length ∧ h.cps ≠ [] := by
    intro h hh
    rw [List.mem_map] at hh
    obtain ⟨qs, hqs, rfl⟩ := hh
    obtain ⟨i, hi, rfl⟩ := List.getElem_of_mem hqs
    obtain ⟨hb, hq⟩ := mapM_ok_getElem hqss i (by rw [List.length_range]; omega)
    have := strandCurves_length hq
    simp only [List.get_eq_getElem, List.getElem_range] at this
    have h3 := (hr i (by omega)).2
    refine ⟨⟨_, hairOf_length sc tr _⟩, ?_⟩
    intro hnil
    have hl0 := congrArg List.length hnil
    rw [hairOf_length, this, List.length_nil] at hl0
    omega
  have hne : NonEmptyHairs (qss.map (hairOf sc tr)) := fun h hh => (hcps h hh).2
  have hquad : HairsQuad (qss.map (hairOf sc tr)) := fun h hh => (hcps h hh).1
  have hl1 : 1 ≤ (qss.map (hairOf sc tr)).length := by rw [List.length_map, hlen]; omega
  have hl2 : (qss.map (hairOf sc tr)).length < 2 ^ 64 := by rw [List.length_map, hlen]; omega
  obtain ⟨res, hres⟩ := combineTrace_total_ordered hS hP hB th (qss.map (hairOf sc tr)).length
    (qss.map (hairOf sc tr)) 0 [] hne hl1 hl2 (by omega) (by omega)
  have hcomb : combineLoop L th (qss.map (hairOf sc tr)).length (qss.map (hairOf sc tr)) 0 [] =
      .ok (res.2.map Pass.accum) := by
    have := combineLoop_eq_trace L th (qss.map (hairOf sc tr)).length (qss.map (hairOf sc tr))
      0 [] []
    simp only [List.map_nil, List.append_nil, List.nil_append] at this
    rw [this, hres]
    rfl
  have hcq := combineLoop_quad hS _ hquad
    (show CombinedQuad [] from fun _ hy => absurd hy (List.not_mem_nil _)) hcomb
  obtain ⟨out, hout⟩ := flatten_total hcq ([], [])
  refine ⟨out.1, out.2, ?_⟩
  rw [toCubic_lod L d v0 r0 sc tr ms th lod hl hg (by omega), hqss, ok_bind, hcomb, ok_bind,
    hout, ok_bind]
  rfl

/-- Claim C10 (failing input). The dataset `sampleMixed`, which `Load` builds from the
file `sampleFileMixed`, has points and strand offsets, so the call does not return
false. Its second strand has one segment: the loop over the strands skips it and its
hair stays without control points. With LOD off the call returns true. With LOD on
three hairs of 8, 0 and 4 control points enter the merge, the first pass reads `cps[0]`
of the hair without control points, an access out of range, and the call returns
nothing: it returns neither false nor true, and this does not depend on the library
routines. -/
theorem lod_short_strand_no_return :
    ¬ (sampleMixed.points_ = [] ∨ sampleMixed.strand_offsets_ = []) ∧
    Load (some sampleFileMixed) CyHair.new = .ok (true, sampleMixed) ∧
    (fun hs => hs.map Hair.size) <$> lodHairs sampleMixed ![1, 1, 1] ![0, 0, 0] (-1) =
      .ok [8, 0, 4] ∧
    (fun res => res.1) <$>
      ToCubicBezierCurves sampleLib sampleMixed [7] [8] ![1, 1, 1] ![0, 0, 0] (-1) 1 (-1) =
      .ok true ∧
    (lodHairs sampleMixed ![1, 1, 1] ![0, 0, 0] (-1) >>= fun hs => rootBoundsLoop hs 0) =
      .error .outOfRange ∧
    ToCubicBezierCurves sampleLib sampleMixed [7] [8] ![1, 1, 1] ![0, 0, 0] (-1) 1 1 =
      .error .outOfRange ∧
    ToCubicBezierCurves orderedLib sampleMixed [7] [8] ![1, 1, 1] ![0, 0, 0] (-1) 1 1 =
      .error .outOfRange := by
  decide!

end cyhair
